import Mathlib

/-!
# PBedit (vi-like front end): a shallow embedding of `src/pbedit-vi.cpp`

The editor session of `class TextEditor` is a record; every member function
becomes a function on that record.

Conventions of the embedding

* `std::string` is a list of characters (`Line`), `std::vector<std::string>`
  a list of lines, `std::stack` a list whose head is the top.
* `int` members are `Int`.  All values stay far away from the `int` range
  except `repeatCount`, whose update wraps modulo `2^32` (`wrapInt`).
* A call that would index a vector or a string out of range (undefined
  behaviour) or make `substr`/`erase`/`insert`/`replace` throw
  `std::out_of_range` yields `none`.  The two `while` loops of the word
  motions run on fuel computed from the state; running out of fuel also
  yields `none`.
* The one out-of-range access that is not a fault is the read
  `lines[cursorY].length()` that ends `undo` and `redo`: it comes after the
  buffer and both stacks have been assigned, it writes nothing, and the
  function returns with the cursor column clamped to whatever the read
  finds, the environment value `strayLength`.
* `getch()` reads the head of `pending`, the keys the terminal will deliver.
* Drawing (`display`, `statusMessage`) changes nothing in the session state and
  is left out.
* The stray character after `switch(ch) {` in `handleNormalModeInput` is
  ignored, and the two-character constants of its `case '>>'` and `case '<<'`
  labels have the value the compiler gives them.
* `insertChar`, `backspace`, `newLine` and the four arrow motions of
  `src/pbedit_linux.cpp` are the same text as in `src/pbedit-vi.cpp` and share
  its definitions.  The class of `src/pbedit_windows.cpp` is embedded
  separately, in the name space `Windows`.
-/

namespace PBEdit

/-! ## Primitive containers -/

/-- One buffer line, a `std::string`. -/
abbrev Line := List Char

/-- Value of `v[i]` for a `std::vector`; `none` when `i` is out of range. -/
def vecAt {α : Type} (v : List α) (i : Int) : Option α :=
  if 0 ≤ i then v[i.toNat]? else none

/-- Effect of `v[i] = a`; `none` when `i` is out of range. -/
def vecSet {α : Type} (v : List α) (i : Int) (a : α) : Option (List α) :=
  if 0 ≤ i ∧ i < v.length then some (v.set i.toNat a) else none

/-- Effect of `v.erase(v.begin() + i)`; `none` when `i` is out of range. -/
def vecErase {α : Type} (v : List α) (i : Int) : Option (List α) :=
  if 0 ≤ i ∧ i < v.length then some (v.eraseIdx i.toNat) else none

/-- Effect of `v.insert(v.begin() + i, first, last)`; `none` when `i` is not in `[0, size]`. -/
def vecInsertRange {α : Type} (v : List α) (i : Int) (xs : List α) : Option (List α) :=
  if 0 ≤ i ∧ i ≤ v.length then some (v.take i.toNat ++ xs ++ v.drop i.toNat) else none

/-- Value of `s[i]` for a `std::string`: `s[size]` is the terminating null. -/
def strAt (s : Line) (i : Int) : Option Char :=
  if 0 ≤ i ∧ i ≤ s.length then some (s.getD i.toNat (Char.ofNat 0)) else none

/-- Value of `s.substr(pos, n)`; throws when `pos > size`. -/
def strSubstr (s : Line) (pos : Int) (n : Nat) : Option Line :=
  if 0 ≤ pos ∧ pos ≤ s.length then some ((s.drop pos.toNat).take n) else none

/-- Value of `s.substr(pos)`; throws when `pos > size`. -/
def strSuffix (s : Line) (pos : Int) : Option Line :=
  if 0 ≤ pos ∧ pos ≤ s.length then some (s.drop pos.toNat) else none

/-- Effect of `s.erase(pos, n)`; throws when `pos > size`. -/
def strErase (s : Line) (pos : Int) (n : Nat) : Option Line :=
  if 0 ≤ pos ∧ pos ≤ s.length then some (s.take pos.toNat ++ s.drop (pos.toNat + n)) else none

/-- Effect of `s.insert(pos, t)`; throws when `pos > size`. -/
def strInsert (s : Line) (pos : Int) (t : Line) : Option Line :=
  if 0 ≤ pos ∧ pos ≤ s.length then some (s.take pos.toNat ++ t ++ s.drop pos.toNat) else none

/-- Effect of `s.replace(pos, n, t)`; throws when `pos > size`. -/
def strReplace (s : Line) (pos : Int) (n : Nat) (t : Line) : Option Line :=
  if 0 ≤ pos ∧ pos ≤ s.length then some (s.take pos.toNat ++ t ++ s.drop (pos.toNat + n)) else none

/-- Effect of `s.resize(n)`: truncate, or pad with null characters. -/
def strResize (s : Line) (n : Nat) : Line :=
  s.take n ++ List.replicate (n - s.length) (Char.ofNat 0)

/-- Predicate `std::isspace` in the "C" locale. -/
def isspace (c : Char) : Bool :=
  c = ' ' || c = '\t' || c = '\n' || c = Char.ofNat 11 || c = Char.ofNat 12 || c = '\r'

/-- Predicate `std::isdigit` on a key code. -/
def isdigit (ch : Int) : Bool :=
  decide (48 ≤ ch ∧ ch ≤ 57)

/-- Conversion `static_cast<char>(ch)` of a key code to a stored character. -/
def toChar (ch : Int) : Char :=
  Char.ofNat (ch % 256).toNat

/-- Two's-complement wrap of an `int` result to 32 bits. -/
def wrapInt (z : Int) : Int :=
  (z + 2147483648) % 4294967296 - 2147483648

/-! ## Key codes of `<ncurses.h>` and of the character constants used as `case` labels -/

def KEY_DOWN : Int := 258
def KEY_UP : Int := 259
def KEY_LEFT : Int := 260
def KEY_RIGHT : Int := 261
def KEY_BACKSPACE : Int := 263
def KEY_ESC : Int := 27
def KEY_DEL : Int := 127
def KEY_NEWLINE : Int := 10

/-- Key code of a one-character constant such as `'x'`. -/
def key (c : Char) : Int := (c.toNat : Int)

/-- Value of the two-character constant `'>>'` (first character times 256 plus the second). -/
def KEY_INDENT : Int := 62 * 256 + 62

/-- Value of the two-character constant `'<<'`. -/
def KEY_UNINDENT : Int := 60 * 256 + 60

/-! ## Session state -/

/-- Editor modes, `enum class EditorMode`. -/
inductive EditorMode where
  | NORMAL
  | INSERT
  | COMMAND
  | VISUAL
  | VISUAL_LINE
  | VISUAL_BLOCK
  deriving DecidableEq, Repr

/-- Data members of `class TextEditor`, together with the part of the
environment the member functions read: the screen height `LINES`, the keys
`getch()` will return, the backing file, and the value an out-of-range read
in the cursor clamp of `undo` and `redo` finds in memory. -/
structure TextEditor where
  cursorX : Int
  cursorY : Int
  offsetY : Int
  lines : List Line
  mode : EditorMode
  commandBuffer : Line
  visualStartX : Int
  visualStartY : Int
  repeatCount : Int
  lastCommand : Char
  undoStack : List (List Line)
  redoStack : List (List Line)
  clipboardLines : List Line
  clipboardType : EditorMode
  /-- Screen height reported by ncurses. -/
  LINES : Int
  /-- Keys that successive `getch()` calls return. -/
  pending : List Int
  /-- Content of the backing file; `none` when it cannot be opened for reading. -/
  disk : Option Line
  /-- Whether the backing file can be opened for writing. -/
  writable : Bool
  /-- Value that `(int)lines[cursorY].length()` yields in the cursor clamp of
  `undo` and `redo` when row `cursorY` is out of range. -/
  strayLength : Int
  deriving DecidableEq, Repr

/-- Outcome of handling a key event. -/
inductive Outcome where
  /-- The handler returned with this state. -/
  | ok (s : TextEditor)
  /-- Undefined behaviour or an uncaught exception. -/
  | fault
  /-- A nested `getch()` found no key: the handler waits in this state. -/
  | blocked (s : TextEditor)
  /-- The handler called `exit(0)` in this state. -/
  | exited (s : TextEditor)
  deriving DecidableEq, Repr

/-- Lift of the result of a member function that neither reads keys nor exits. -/
def Outcome.ofOption : Option TextEditor → Outcome
  | some s => Outcome.ok s
  | none => Outcome.fault

/-! ## History -/

def saveCurrentStateForUndo (s : TextEditor) : TextEditor :=
  { s with undoStack := s.lines :: s.undoStack, redoStack := [] }

/-- Value of `(int)lines[y].length()` in the last statement of `undo` and
`redo`: the length of row `y`, or `stray` when row `y` is out of range.  That
read comes after the buffer and both stacks have been assigned and writes
nothing through the reference; the function goes on with what the read finds. -/
def clampLength (lines : List Line) (y stray : Int) : Int :=
  match vecAt lines y with
  | some line => (line.length : Int)
  | none => stray

/-- Member `undo`; it always returns. -/
def undo (s : TextEditor) : Option TextEditor :=
  match s.undoStack with
  | [] => some s
  | top :: rest =>
    let s1 := { s with redoStack := s.lines :: s.redoStack, lines := top, undoStack := rest }
    let y := min s1.cursorY ((s1.lines.length : Int) - 1)
    some { s1 with cursorY := y, cursorX := min s1.cursorX (clampLength s1.lines y s1.strayLength) }

/-- Member `redo`; it always returns. -/
def redo (s : TextEditor) : Option TextEditor :=
  match s.redoStack with
  | [] => some s
  | top :: rest =>
    let s1 := { s with undoStack := s.lines :: s.undoStack, lines := top, redoStack := rest }
    let y := min s1.cursorY ((s1.lines.length : Int) - 1)
    some { s1 with cursorY := y, cursorX := min s1.cursorX (clampLength s1.lines y s1.strayLength) }

/-! ## File access -/

/-- Lines read by the `std::getline` loop of `loadFile` from the file content. -/
def getlines : Line → Line → List Line
  | [], [] => []
  | [], acc => [acc.reverse]
  | c :: cs, acc => if c = '\n' then acc.reverse :: getlines cs [] else getlines cs (c :: acc)

/-- Member `loadFile`: the buffer read, or `none` when the file cannot be opened. -/
def loadFile (s : TextEditor) : Option TextEditor :=
  match s.disk with
  | none => none
  | some text => some { s with lines := getlines text [] }

/-- Text written by the loop of `saveFile`. -/
def fileText : List Line → Line
  | [] => []
  | l :: ls => l ++ '\n' :: fileText ls

def saveFile (s : TextEditor) : TextEditor :=
  if s.writable then { s with disk := some (fileText s.lines) } else s

/-! ## Single-character edits -/

def insertChar (ch : Int) (s : TextEditor) : Option TextEditor := do
  let line ← vecAt s.lines s.cursorY
  let line1 ← strInsert line s.cursorX [toChar ch]
  let lines1 ← vecSet s.lines s.cursorY line1
  some { s with lines := lines1, cursorX := s.cursorX + 1 }

def backspace (s : TextEditor) : Option TextEditor :=
  if s.cursorX > 0 then do
    let line ← vecAt s.lines s.cursorY
    let line1 ← strErase line (s.cursorX - 1) 1
    let lines1 ← vecSet s.lines s.cursorY line1
    some { s with lines := lines1, cursorX := s.cursorX - 1 }
  else if s.cursorY > 0 then do
    let prev ← vecAt s.lines (s.cursorY - 1)
    let cur ← vecAt s.lines s.cursorY
    let lines1 ← vecSet s.lines (s.cursorY - 1) (prev ++ cur)
    let lines2 ← vecErase lines1 s.cursorY
    let y := s.cursorY - 1
    some { s with cursorX := (prev.length : Int), lines := lines2, cursorY := y,
                  offsetY := if y < s.offsetY then s.offsetY - 1 else s.offsetY }
  else some s

def newLine (s : TextEditor) : Option TextEditor := do
  let line ← vecAt s.lines s.cursorY
  let newLine ← strSuffix line s.cursorX
  let head ← strSubstr line 0 s.cursorX.toNat
  let lines1 ← vecSet s.lines s.cursorY head
  let lines2 ← vecInsertRange lines1 (s.cursorY + 1) [newLine]
  let y := s.cursorY + 1
  some { s with lines := lines2, cursorY := y, cursorX := 0,
                offsetY := if y ≥ s.offsetY + s.LINES - 2 then s.offsetY + 1 else s.offsetY }

/-! ## Motions -/

def moveUp (s : TextEditor) : Option TextEditor :=
  if s.cursorY > 0 then do
    let y := s.cursorY - 1
    let line ← vecAt s.lines y
    some { s with cursorY := y, cursorX := min s.cursorX (line.length : Int),
                  offsetY := if y < s.offsetY then s.offsetY - 1 else s.offsetY }
  else some s

def moveDown (s : TextEditor) : Option TextEditor :=
  if s.cursorY < (s.lines.length : Int) - 1 then do
    let y := s.cursorY + 1
    let line ← vecAt s.lines y
    some { s with cursorY := y, cursorX := min s.cursorX (line.length : Int),
                  offsetY := if y ≥ s.offsetY + s.LINES - 2 then s.offsetY + 1 else s.offsetY }
  else some s

def moveLeft (s : TextEditor) : Option TextEditor :=
  if s.cursorX > 0 then some { s with cursorX := s.cursorX - 1 }
  else if s.cursorY > 0 then do
    let y := s.cursorY - 1
    let line ← vecAt s.lines y
    some { s with cursorY := y, cursorX := (line.length : Int),
                  offsetY := if y < s.offsetY then s.offsetY - 1 else s.offsetY }
  else some s

def moveRight (s : TextEditor) : Option TextEditor := do
  let line ← vecAt s.lines s.cursorY
  if s.cursorX < (line.length : Int) then some { s with cursorX := s.cursorX + 1 }
  else if s.cursorY < (s.lines.length : Int) - 1 then
    let y := s.cursorY + 1
    some { s with cursorY := y, cursorX := 0,
                  offsetY := if y ≥ s.offsetY + s.LINES - 2 then s.offsetY + 1 else s.offsetY }
  else some s

/-- Condition of the two `while` loops of `moveToNextWord`; the first loop
runs while the character under the cursor is not a space (`wantSpace = false`),
the second while it is one. -/
def nextWordCond (wantSpace : Bool) (s : TextEditor) : Option Bool :=
  if s.cursorY < (s.lines.length : Int) then do
    let line ← vecAt s.lines s.cursorY
    if s.cursorX < (line.length : Int) then do
      let c ← strAt line s.cursorX
      some (isspace c == wantSpace)
    else some false
  else some false

/-- One `while` loop of `moveToNextWord`, on fuel. -/
def nextWordLoop (wantSpace : Bool) : Nat → TextEditor → Option TextEditor
  | 0, _ => none
  | fuel + 1, s => do
    if (← nextWordCond wantSpace s) then nextWordLoop wantSpace fuel (← moveRight s)
    else some s

/-- Length of the line the cursor is on (0 when the row is out of range). -/
def currentLineLength (s : TextEditor) : Nat :=
  ((vecAt s.lines s.cursorY).getD []).length

def moveToNextWord (s : TextEditor) : Option TextEditor := do
  let s1 ← nextWordLoop false (currentLineLength s + 1) s
  nextWordLoop true (currentLineLength s1 + 1) s1

/-- Condition `cursorX > 0 && !std::isspace(lines[cursorY][cursorX-1])`. -/
def prevWordCond (s : TextEditor) : Option Bool :=
  if s.cursorX > 0 then do
    let line ← vecAt s.lines s.cursorY
    let c ← strAt line (s.cursorX - 1)
    some (!isspace c)
  else some false

/-- Inner `while` loop of `moveToPreviousWord`, on fuel. -/
def prevWordInner : Nat → TextEditor → Option TextEditor
  | 0, _ => none
  | fuel + 1, s => do
    if (← prevWordCond s) then prevWordInner fuel (← moveLeft s) else some s

/-- Outer `while` loop of `moveToPreviousWord`, on fuel. -/
def prevWordOuter : Nat → TextEditor → Option TextEditor
  | 0, _ => none
  | fuel + 1, s =>
    if s.cursorY > 0 ∨ s.cursorX > 0 then do
      let s1 ← moveLeft s
      if (← prevWordCond s1) then prevWordInner (fuel + 1) s1
      else prevWordOuter fuel s1
    else some s

/-- Number of characters and line ends in the buffer. -/
def bufferSize : List Line → Nat
  | [] => 0
  | l :: ls => l.length + 1 + bufferSize ls

def moveToPreviousWord (s : TextEditor) : Option TextEditor :=
  prevWordOuter (bufferSize s.lines + s.cursorX.toNat + 1) s

def moveToLineStart (s : TextEditor) : TextEditor :=
  { s with cursorX := 0 }

def moveToLineEnd (s : TextEditor) : Option TextEditor := do
  let line ← vecAt s.lines s.cursorY
  some { s with cursorX := (line.length : Int) }

def moveToDocumentStart (s : TextEditor) : TextEditor :=
  { s with cursorY := 0, cursorX := 0, offsetY := 0 }

def moveToDocumentEnd (s : TextEditor) : Option TextEditor := do
  let y := (s.lines.length : Int) - 1
  let line ← vecAt s.lines y
  some { s with cursorY := y, cursorX := (line.length : Int),
                offsetY := max 0 ((s.lines.length : Int) - (s.LINES - 2)) }

/-! ## Bracket matching -/

/-- Result of scanning one row: the column where the depth reached 0, or the
depth carried to the next row. -/
inductive RowScan where
  | found (x : Int)
  | carry (depth : Int)
  deriving DecidableEq, Repr

/-- Inner `for` loop of the forward search over the characters from column `x` on. -/
def scanRowForward (currentChar matchBracket : Char) : List Char → Int → Int → RowScan
  | [], _, depth => RowScan.carry depth
  | c :: cs, x, depth =>
    let d1 := if c = currentChar then depth + 1 else depth
    let d2 := if c = matchBracket then d1 - 1 else d1
    if d2 = 0 then RowScan.found x else scanRowForward currentChar matchBracket cs (x + 1) d2

/-- Outer `for` loop of the forward search over whole rows from row `y` on. -/
def scanForward (currentChar matchBracket : Char) : List Line → Int → Int → Option (Int × Int)
  | [], _, _ => none
  | l :: ls, y, depth =>
    match scanRowForward currentChar matchBracket l 0 depth with
    | RowScan.found x => some (y, x)
    | RowScan.carry d => scanForward currentChar matchBracket ls (y + 1) d

/-- Inner `for` loop of the backward search; the characters are given last
first, `x` is the column of the first of them. -/
def scanRowBackward (currentChar matchBracket : Char) : List Char → Int → Int → RowScan
  | [], _, depth => RowScan.carry depth
  | c :: cs, x, depth =>
    let d1 := if c = currentChar then depth + 1 else depth
    let d2 := if c = matchBracket then d1 - 1 else d1
    if d2 = 0 then RowScan.found x else scanRowBackward currentChar matchBracket cs (x - 1) d2

/-- Outer `for` loop of the backward search; the rows are given last first,
`y` is the index of the first of them. -/
def scanBackward (currentChar matchBracket : Char) : List Line → Int → Int → Option (Int × Int)
  | [], _, _ => none
  | l :: ls, y, depth =>
    match scanRowBackward currentChar matchBracket l.reverse ((l.length : Int) - 1) depth with
    | RowScan.found x => some (y, x)
    | RowScan.carry d => scanBackward currentChar matchBracket ls (y - 1) d

/-- The `switch` of `jumpToMatchingBracket`: the bracket to look for and the direction. -/
def bracketPartner (c : Char) : Option (Char × Bool) :=
  if c = '(' then some (')', true)
  else if c = '{' then some ('}', true)
  else if c = '[' then some (']', true)
  else if c = ')' then some ('(', false)
  else if c = '}' then some ('{', false)
  else if c = ']' then some ('[', false)
  else none

def jumpToMatchingBracket (s : TextEditor) : Option TextEditor := do
  let line ← vecAt s.lines s.cursorY
  let currentChar ← strAt line s.cursorX
  match bracketPartner currentChar with
  | none => some s
  | some (matchBracket, searchForward) =>
    let startY := s.cursorY
    let startX := s.cursorX
    if searchForward then
      match scanRowForward currentChar matchBracket (line.drop (startX + 1).toNat) (startX + 1) 1 with
      | RowScan.found x => some { s with cursorY := startY, cursorX := x }
      | RowScan.carry d =>
        match scanForward currentChar matchBracket (s.lines.drop (startY + 1).toNat) (startY + 1) d with
        | some (y, x) => some { s with cursorY := y, cursorX := x }
        | none => some s
    else
      match scanRowBackward currentChar matchBracket (line.take startX.toNat).reverse (startX - 1) 1 with
      | RowScan.found x => some { s with cursorY := startY, cursorX := x }
      | RowScan.carry d =>
        match scanBackward currentChar matchBracket (s.lines.take startY.toNat).reverse (startY - 1) d with
        | some (y, x) => some { s with cursorY := y, cursorX := x }
        | none => some s

/-! ## Operators -/

/-- Loop `for (y = startY; y <= endY; ++y)` of the character-visual yank: `n` rows remain from row `y`. -/
def yankVisualLoop (lines : List Line) (startX endX : Int) : Nat → Int → List Line → Option (List Line)
  | 0, _, clip => some clip
  | n + 1, y, clip => do
    let row ← vecAt lines y
    let line ← strSubstr row startX (endX - startX + 1).toNat
    yankVisualLoop lines startX endX n (y + 1) (clip ++ [line])

/-- Loop `for (y = startY; y <= endY; ++y)` of the line-visual yank. -/
def yankLineLoop (lines : List Line) : Nat → Int → List Line → Option (List Line)
  | 0, _, clip => some clip
  | n + 1, y, clip => do
    let row ← vecAt lines y
    yankLineLoop lines n (y + 1) (clip ++ [row])

def yankText (s : TextEditor) : Option TextEditor := do
  let s1 := saveCurrentStateForUndo s
  let s2 := { s1 with clipboardLines := [] }
  if s2.mode = EditorMode.VISUAL then
    let startX := min s2.visualStartX s2.cursorX
    let endX := max s2.visualStartX s2.cursorX
    let startY := min s2.visualStartY s2.cursorY
    let endY := max s2.visualStartY s2.cursorY
    let clip ← yankVisualLoop s2.lines startX endX (endY - startY + 1).toNat startY []
    some { s2 with clipboardType := EditorMode.VISUAL, clipboardLines := clip, mode := EditorMode.NORMAL }
  else if s2.mode = EditorMode.VISUAL_LINE then
    let startY := min s2.visualStartY s2.cursorY
    let endY := max s2.visualStartY s2.cursorY
    let clip ← yankLineLoop s2.lines (endY - startY + 1).toNat startY []
    some { s2 with clipboardType := EditorMode.VISUAL_LINE, clipboardLines := clip, mode := EditorMode.NORMAL }
  else
    let row ← vecAt s2.lines s2.cursorY
    some { s2 with clipboardType := EditorMode.NORMAL, clipboardLines := [row], mode := EditorMode.NORMAL }

/-- Loop `for (y = endY; y >= startY; --y)` of the character-visual delete:
`n` rows remain, the next one is row `y`; the state is the buffer and the clipboard. -/
def deleteVisualLoop (startX endX : Int) : Nat → Int → List Line → List Line → Option (List Line × List Line)
  | 0, _, lines, clip => some (lines, clip)
  | n + 1, y, lines, clip => do
    let line ← vecAt lines y
    let piece ← strSubstr line startX (endX - startX + 1).toNat
    let erased ← strErase line startX (endX - startX + 1).toNat
    let lines1 ← vecSet lines y erased
    deleteVisualLoop startX endX n (y - 1) lines1 (piece :: clip)

/-- Loop `for (y = endY; y >= startY; --y)` of the line-visual delete. -/
def deleteLineLoop : Nat → Int → List Line → List Line → Option (List Line × List Line)
  | 0, _, lines, clip => some (lines, clip)
  | n + 1, y, lines, clip => do
    let row ← vecAt lines y
    let lines1 ← vecErase lines y
    deleteLineLoop n (y - 1) lines1 (row :: clip)

def deleteText (s : TextEditor) : Option TextEditor := do
  let s1 := saveCurrentStateForUndo s
  if s1.mode = EditorMode.VISUAL then
    let startX := min s1.visualStartX s1.cursorX
    let endX := max s1.visualStartX s1.cursorX
    let startY := min s1.visualStartY s1.cursorY
    let endY := max s1.visualStartY s1.cursorY
    let (lines1, clip) ← deleteVisualLoop startX endX (endY - startY + 1).toNat endY s1.lines []
    some { s1 with clipboardType := EditorMode.VISUAL, clipboardLines := clip, lines := lines1,
                   mode := EditorMode.NORMAL }
  else if s1.mode = EditorMode.VISUAL_LINE then
    let startY := min s1.visualStartY s1.cursorY
    let endY := max s1.visualStartY s1.cursorY
    let (lines1, clip) ← deleteLineLoop (endY - startY + 1).toNat endY s1.lines []
    some { s1 with clipboardType := EditorMode.VISUAL_LINE, clipboardLines := clip, lines := lines1,
                   cursorY := min startY ((lines1.length : Int) - 1), cursorX := 0,
                   mode := EditorMode.NORMAL }
  else
    let s2 := { s1 with clipboardLines := [], clipboardType := EditorMode.NORMAL }
    if s2.lines.length > 1 then
      let row ← vecAt s2.lines s2.cursorY
      let lines1 ← vecErase s2.lines s2.cursorY
      let y := if s2.cursorY ≥ (lines1.length : Int) then (lines1.length : Int) - 1 else s2.cursorY
      some { s2 with clipboardLines := [row], lines := lines1, cursorY := y, mode := EditorMode.NORMAL }
    else some { s2 with mode := EditorMode.NORMAL }

/-- Loop of the block paste: the clipboard rows still to write, the buffer
row `cursorY + i` they go to, and the buffer.  When `pasteX` is negative the
`replace` throws whatever the comparison says, as in the source, where the
comparison is made on unsigned values. -/
def pasteBlockLoop (pasteX : Int) : List Line → Int → List Line → Option (List Line)
  | [], _, lines => some lines
  | c :: cs, row, lines =>
    if row < (lines.length : Int) then do
      let line ← vecAt lines row
      let line1 := if pasteX + (c.length : Int) > (line.length : Int)
                   then strResize line (pasteX + (c.length : Int)).toNat else line
      let line2 ← strReplace line1 pasteX c.length c
      let lines1 ← vecSet lines row line2
      pasteBlockLoop pasteX cs (row + 1) lines1
    else some lines

def pasteText (s : TextEditor) : Option TextEditor := do
  let s1 := saveCurrentStateForUndo s
  match s1.clipboardLines with
  | [] => some s1
  | first :: _ =>
    if s1.clipboardType = EditorMode.VISUAL_LINE then
      let lines1 ← vecInsertRange s1.lines (s1.cursorY + 1) s1.clipboardLines
      some { s1 with lines := lines1, cursorY := s1.cursorY + (s1.clipboardLines.length : Int), cursorX := 0 }
    else if s1.clipboardType = EditorMode.VISUAL then
      let lines1 ← pasteBlockLoop s1.cursorX s1.clipboardLines s1.cursorY s1.lines
      some { s1 with lines := lines1 }
    else
      let line ← vecAt s1.lines s1.cursorY
      let line1 ← strInsert line s1.cursorX first
      let lines1 ← vecSet s1.lines s1.cursorY line1
      some { s1 with lines := lines1, cursorX := s1.cursorX + (first.length : Int) }

def changeText (s : TextEditor) : Option TextEditor := do
  let s1 ← deleteText s
  some { s1 with mode := EditorMode.INSERT }

/-- The indent string, four spaces. -/
def indentString : Line := [' ', ' ', ' ', ' ']

def indentLine (s : TextEditor) : Option TextEditor := do
  let s1 := saveCurrentStateForUndo s
  let line ← vecAt s1.lines s1.cursorY
  let line1 ← strInsert line 0 indentString
  let lines1 ← vecSet s1.lines s1.cursorY line1
  some { s1 with lines := lines1, cursorX := s1.cursorX + 4 }

def unindentLine (s : TextEditor) : Option TextEditor := do
  let s1 := saveCurrentStateForUndo s
  let line ← vecAt s1.lines s1.cursorY
  if line.length ≥ 4 ∧ strSubstr line 0 4 = some indentString then
    let line1 ← strErase line 0 4
    let lines1 ← vecSet s1.lines s1.cursorY line1
    some { s1 with lines := lines1, cursorX := max 0 (s1.cursorX - 4) }
  else some s1

/-! ## Key handlers -/

/-- Loop of `case '>'` in visual mode: `n` rows remain from row `y`. -/
def indentRows : Nat → Int → TextEditor → Option TextEditor
  | 0, _, s => some s
  | n + 1, y, s => do
    let s1 := saveCurrentStateForUndo s
    let line ← vecAt s1.lines y
    let line1 ← strInsert line 0 indentString
    let lines1 ← vecSet s1.lines y line1
    indentRows n (y + 1) { s1 with lines := lines1 }

/-- Loop of `case '<'` in visual mode. -/
def unindentRows : Nat → Int → TextEditor → Option TextEditor
  | 0, _, s => some s
  | n + 1, y, s => do
    let s1 := saveCurrentStateForUndo s
    let line ← vecAt s1.lines y
    if line.length ≥ 4 ∧ strSubstr line 0 4 = some indentString then
      let line1 ← strErase line 0 4
      let lines1 ← vecSet s1.lines y line1
      unindentRows n (y + 1) { s1 with lines := lines1 }
    else unindentRows n (y + 1) s1

def handleVisualModeInput (ch : Int) (s : TextEditor) : Option TextEditor :=
  if ch = KEY_ESC then some { s with mode := EditorMode.NORMAL }
  else if ch = key 'y' then yankText s
  else if ch = key 'd' then deleteText s
  else if ch = key 'c' then changeText s
  else if ch = key '>' then do
    let startY := min s.visualStartY s.cursorY
    let endY := max s.visualStartY s.cursorY
    let s1 ← indentRows (endY - startY + 1).toNat startY s
    some { s1 with mode := EditorMode.NORMAL }
  else if ch = key '<' then do
    let startY := min s.visualStartY s.cursorY
    let endY := max s.visualStartY s.cursorY
    let s1 ← unindentRows (endY - startY + 1).toNat startY s
    some { s1 with mode := EditorMode.NORMAL }
  else if ch = key 'h' then moveLeft s
  else if ch = key 'l' then moveRight s
  else if ch = key 'j' then moveDown s
  else if ch = key 'k' then moveUp s
  else if ch = key '0' then some (moveToLineStart s)
  else if ch = key '$' then moveToLineEnd s
  else if ch = key 'w' then moveToNextWord s
  else if ch = key 'b' then moveToPreviousWord s
  else some s

/-- Call `getch()`: the next pending key, if there is one. -/
def getch (s : TextEditor) : Option (Int × TextEditor) :=
  match s.pending with
  | [] => none
  | k :: ks => some (k, { s with pending := ks })

/-- Second key of a chord: reads one key and runs `action` when it equals `second`. -/
def chord (second : Int) (action : TextEditor → Option TextEditor) (s : TextEditor) : Outcome :=
  match getch s with
  | none => Outcome.blocked s
  | some (nextCh, s1) => if nextCh = second then Outcome.ofOption (action s1) else Outcome.ok s1

/-- Body of `case 'x'`. -/
def deleteChar (s : TextEditor) : Option TextEditor := do
  let line ← vecAt s.lines s.cursorY
  if s.cursorX < (line.length : Int) then
    let s1 := saveCurrentStateForUndo s
    let line1 ← strErase line s1.cursorX 1
    let lines1 ← vecSet s1.lines s1.cursorY line1
    some { s1 with lines := lines1 }
  else some s

/-- Body of `case 'a'`. -/
def appendMode (s : TextEditor) : Option TextEditor := do
  let line ← vecAt s.lines s.cursorY
  let s1 := if s.cursorX < (line.length : Int) then { s with cursorX := s.cursorX + 1 } else s
  some { s1 with mode := EditorMode.INSERT }

/-- The `switch` inside the repeat loop of `handleNormalModeInput`. -/
def normalCommand (ch : Int) (s : TextEditor) : Outcome :=
  if ch = key 'i' then Outcome.ok { s with mode := EditorMode.INSERT }
  else if ch = key 'I' then Outcome.ok { moveToLineStart s with mode := EditorMode.INSERT }
  else if ch = key 'a' then Outcome.ofOption (appendMode s)
  else if ch = key 'A' then
    Outcome.ofOption ((moveToLineEnd s).map fun s1 => { s1 with mode := EditorMode.INSERT })
  else if ch = key 'k' then Outcome.ofOption (moveUp s)
  else if ch = key 'j' then Outcome.ofOption (moveDown s)
  else if ch = key 'h' then Outcome.ofOption (moveLeft s)
  else if ch = key 'l' then Outcome.ofOption (moveRight s)
  else if ch = key '0' then Outcome.ok (moveToLineStart s)
  else if ch = key '$' then Outcome.ofOption (moveToLineEnd s)
  else if ch = key 'w' then Outcome.ofOption (moveToNextWord s)
  else if ch = key 'b' then Outcome.ofOption (moveToPreviousWord s)
  else if ch = key 'g' then chord (key 'g') (fun s1 => some (moveToDocumentStart s1)) s
  else if ch = key 'G' then Outcome.ofOption (moveToDocumentEnd s)
  else if ch = key 'x' then Outcome.ofOption (deleteChar s)
  else if ch = key 'd' then chord (key 'd') deleteText s
  else if ch = key 'y' then chord (key 'y') yankText s
  else if ch = key 'c' then chord (key 'c') changeText s
  else if ch = key 'p' then Outcome.ofOption (pasteText s)
  else if ch = key 'u' then Outcome.ofOption (undo s)
  else if ch = key '%' then Outcome.ofOption (jumpToMatchingBracket s)
  else if ch = KEY_INDENT then Outcome.ofOption (indentLine s)
  else if ch = KEY_UNINDENT then Outcome.ofOption (unindentLine s)
  else if ch = key 'v' then
    Outcome.ok { s with mode := EditorMode.VISUAL, visualStartX := s.cursorX, visualStartY := s.cursorY }
  else if ch = key 'V' then
    Outcome.ok { s with mode := EditorMode.VISUAL_LINE, visualStartX := s.cursorX, visualStartY := s.cursorY }
  else if ch = key ':' then Outcome.ok { s with mode := EditorMode.COMMAND, commandBuffer := [] }
  else if ch = key '/' then Outcome.ok s
  else if ch = KEY_ESC then Outcome.ok { s with mode := EditorMode.NORMAL }
  else Outcome.ok s

/-- Loop `for (int i = 0; i < iterations; ++i)` of `handleNormalModeInput`. -/
def repeatCommand (ch : Int) : Nat → TextEditor → Outcome
  | 0, s => Outcome.ok s
  | n + 1, s =>
    match normalCommand ch s with
    | Outcome.ok s1 => repeatCommand ch n s1
    | r => r

def handleNormalModeInput (ch : Int) (s : TextEditor) : Outcome :=
  if isdigit ch then
    Outcome.ok { s with repeatCount := wrapInt (s.repeatCount * 10 + (ch - key '0')) }
  else
    let iterations := max 1 s.repeatCount
    repeatCommand ch iterations.toNat { s with repeatCount := 0 }

def handleInsertModeInput (ch : Int) (s : TextEditor) : Option TextEditor :=
  if ch = KEY_ESC then
    some { s with mode := EditorMode.NORMAL, cursorX := if s.cursorX > 0 then s.cursorX - 1 else s.cursorX }
  else if ch = KEY_BACKSPACE ∨ ch = KEY_DEL then backspace s
  else if ch = KEY_NEWLINE then newLine (saveCurrentStateForUndo s)
  else if ch = KEY_UP then moveUp s
  else if ch = KEY_DOWN then moveDown s
  else if ch = KEY_LEFT then moveLeft s
  else if ch = KEY_RIGHT then moveRight s
  else insertChar ch (saveCurrentStateForUndo s)

/-- Tail of the newline branch of `handleCommandModeInput`: back to Normal mode, command buffer cleared. -/
def finishCommand (s : TextEditor) : TextEditor :=
  { s with mode := EditorMode.NORMAL, commandBuffer := [] }

def handleCommandModeInput (ch : Int) (s : TextEditor) : Outcome :=
  if ch = KEY_NEWLINE then
    if s.commandBuffer = ['q'] then Outcome.exited s
    else if s.commandBuffer = ['w', 'q'] then Outcome.exited (saveFile s)
    else if s.commandBuffer = ['w'] then Outcome.ok (finishCommand (saveFile s))
    else if s.commandBuffer = ['q', '!'] then Outcome.exited s
    else if s.commandBuffer = ['u'] then Outcome.ofOption ((undo s).map finishCommand)
    else if s.commandBuffer = ['r', 'e', 'd', 'o'] then Outcome.ofOption ((redo s).map finishCommand)
    else Outcome.ok (finishCommand s)
  else if ch = KEY_ESC then Outcome.ok { s with mode := EditorMode.NORMAL, commandBuffer := [] }
  else Outcome.ok { s with commandBuffer := s.commandBuffer ++ [toChar ch] }

/-! ## The session -/

/-- Body of the `switch(mode)` of `run`. -/
def dispatch (ch : Int) (s : TextEditor) : Outcome :=
  match s.mode with
  | EditorMode.NORMAL => handleNormalModeInput ch s
  | EditorMode.INSERT => Outcome.ofOption (handleInsertModeInput ch s)
  | EditorMode.COMMAND => handleCommandModeInput ch s
  | EditorMode.VISUAL => Outcome.ofOption (handleVisualModeInput ch s)
  | EditorMode.VISUAL_LINE => Outcome.ofOption (handleVisualModeInput ch s)
  | EditorMode.VISUAL_BLOCK => Outcome.ofOption (handleVisualModeInput ch s)

/-- One iteration of the loop of `run`: read a key, handle it. -/
def step (s : TextEditor) : Outcome :=
  match getch s with
  | none => Outcome.blocked s
  | some (ch, s1) => dispatch ch s1

/-- The first `n` iterations of the loop of `run`. -/
def run : Nat → TextEditor → Outcome
  | 0, s => Outcome.ok s
  | n + 1, s =>
    match step s with
    | Outcome.ok s1 => run n s1
    | r => r

/-- State built by the constructor for a terminal of height `LINES`, a key
stream and a backing file.  The clipboard type is not set by the constructor;
it is read only after a yank or a delete has set it.  The value an
out-of-range clamp read would find is taken as 0 here; the statements about
`undo` and `redo` on an arbitrary state hold for every value. -/
def TextEditor.new (LINES : Int) (pending : List Int) (disk : Option Line) (writable : Bool) : TextEditor :=
  let s0 : TextEditor :=
    { cursorX := 0, cursorY := 0, offsetY := 0, lines := [], mode := EditorMode.NORMAL,
      commandBuffer := [], visualStartX := 0, visualStartY := 0, repeatCount := 0,
      lastCommand := Char.ofNat 0, undoStack := [], redoStack := [], clipboardLines := [],
      clipboardType := EditorMode.NORMAL, LINES := LINES, pending := pending, disk := disk,
      writable := writable, strayLength := 0 }
  match loadFile s0 with
  | some s1 => s1
  | none => { s0 with lines := [[]] }

/-! ## The Windows front end (`src/pbedit_windows.cpp`)

The class of this file is also called `TextEditor`; its members live in the
name space `Windows`.  `render` changes nothing in the session state and is
left out. -/

/-- Session state of `class TextEditor` of `pbedit_windows.cpp`, with the
backing file as `disk` and `writable`. -/
structure Windows.TextEditor where
  cursorX : Int
  cursorY : Int
  offsetY : Int
  lines : List Line
  consoleWidth : Int
  consoleHeight : Int
  lineNumberWidth : Int
  editableWidth : Int
  /-- Content of the backing file; `none` when it cannot be opened for reading. -/
  disk : Option Line
  /-- Whether the backing file can be opened for writing. -/
  writable : Bool
  deriving DecidableEq, Repr

/-- The fields of the `INPUT_RECORD` that `handleInput` reads. -/
structure Windows.InputRecord where
  /-- Whether `EventType == KEY_EVENT`. -/
  isKeyEvent : Bool
  /-- Field `Event.KeyEvent.bKeyDown`. -/
  bKeyDown : Bool
  /-- Field `Event.KeyEvent.wVirtualKeyCode`, a `WORD`. -/
  wVirtualKeyCode : Nat
  /-- Whether `Event.KeyEvent.dwControlKeyState & LEFT_CTRL_PRESSED` is non-zero. -/
  leftCtrlPressed : Bool
  /-- Field `Event.KeyEvent.uChar.AsciiChar`, a signed `char`. -/
  asciiChar : Int
  deriving DecidableEq, Repr

def Windows.VK_BACK : Nat := 8
def Windows.VK_RETURN : Nat := 13
def Windows.VK_ESCAPE : Nat := 27
def Windows.VK_LEFT : Nat := 37
def Windows.VK_UP : Nat := 38
def Windows.VK_RIGHT : Nat := 39
def Windows.VK_DOWN : Nat := 40

/-- Value of the character constant `'S'`. -/
def Windows.VK_S : Nat := 83

/-- An `int` converted to `size_t` (64 bits), as the mixed comparisons of
`handleInput` do: a non-negative `int` keeps its value, a negative one wraps. -/
def Windows.toSizeT (z : Int) : Nat :=
  if 0 ≤ z then z.toNat else (z + 18446744073709551616).toNat

/-- Value of the unsigned expression `lines.size() - 1` for a vector of `n` lines. -/
def Windows.sizeMinusOne (n : Nat) : Nat :=
  if n = 0 then 18446744073709551615 else n - 1

/-- Member `loadFile`: the lines of the file are appended, or one empty line
when the file cannot be opened. -/
def Windows.loadFile (s : Windows.TextEditor) : Windows.TextEditor :=
  match s.disk with
  | some text => { s with lines := s.lines ++ getlines text [] }
  | none => { s with lines := s.lines ++ [[]] }

def Windows.saveFile (s : Windows.TextEditor) : Windows.TextEditor :=
  if s.writable then { s with disk := some (fileText s.lines) } else s

/-- State built by the constructor for a console window of the given width
and height and a backing file. -/
def Windows.TextEditor.new (consoleWidth consoleHeight : Int) (disk : Option Line)
    (writable : Bool) : Windows.TextEditor :=
  Windows.loadFile
    { cursorX := 0, cursorY := 0, offsetY := 0, lines := [],
      consoleWidth := consoleWidth, consoleHeight := consoleHeight, lineNumberWidth := 5,
      editableWidth := consoleWidth - 5 - 1, disk := disk, writable := writable }

/-- Body of `case VK_UP`. -/
def Windows.keyUp (s : Windows.TextEditor) : Option Windows.TextEditor :=
  let currentLineIndex := s.cursorY + s.offsetY
  if currentLineIndex > 0 then do
    let s1 := if s.cursorY > 0 then { s with cursorY := s.cursorY - 1 }
              else { s with offsetY := s.offsetY - 1 }
    let prev ← vecAt s1.lines (currentLineIndex - 1)
    if Windows.toSizeT s1.cursorX ≥ prev.length then some { s1 with cursorX := (prev.length : Int) }
    else some s1
  else some s

/-- Body of `case VK_DOWN`. -/
def Windows.keyDown (s : Windows.TextEditor) : Option Windows.TextEditor :=
  let currentLineIndex := s.cursorY + s.offsetY
  if Windows.toSizeT currentLineIndex < Windows.sizeMinusOne s.lines.length then do
    let s1 := if s.cursorY < s.consoleHeight - 2 then { s with cursorY := s.cursorY + 1 }
              else { s with offsetY := s.offsetY + 1 }
    let next ← vecAt s1.lines (currentLineIndex + 1)
    if Windows.toSizeT s1.cursorX ≥ next.length then some { s1 with cursorX := (next.length : Int) }
    else some s1
  else some s

/-- Body of `case VK_LEFT`. -/
def Windows.keyLeft (s : Windows.TextEditor) : Option Windows.TextEditor :=
  let currentLineIndex := s.cursorY + s.offsetY
  if s.cursorX > 0 then some { s with cursorX := s.cursorX - 1 }
  else if currentLineIndex > 0 then do
    let s1 := if s.cursorY - 1 < 0 then { s with offsetY := s.offsetY - 1, cursorY := 0 }
              else { s with cursorY := s.cursorY - 1 }
    let prev ← vecAt s1.lines (currentLineIndex - 1)
    some { s1 with cursorX := (prev.length : Int) }
  else some s

/-- Body of `case VK_RIGHT`. -/
def Windows.keyRight (s : Windows.TextEditor) : Option Windows.TextEditor := do
  let currentLineIndex := s.cursorY + s.offsetY
  let line ← vecAt s.lines currentLineIndex
  if Windows.toSizeT s.cursorX < line.length then some { s with cursorX := s.cursorX + 1 }
  else if Windows.toSizeT currentLineIndex < Windows.sizeMinusOne s.lines.length then
    let s1 := if s.cursorY + 1 ≥ s.consoleHeight - 1
              then { s with offsetY := s.offsetY + 1, cursorY := s.consoleHeight - 2 }
              else { s with cursorY := s.cursorY + 1 }
    some { s1 with cursorX := 0 }
  else some s

/-- Body of `case VK_BACK`. -/
def Windows.keyBack (s : Windows.TextEditor) : Option Windows.TextEditor :=
  let currentLineIndex := s.cursorY + s.offsetY
  if s.cursorX > 0 then do
    let line ← vecAt s.lines currentLineIndex
    let line1 ← strErase line (s.cursorX - 1) 1
    let lines1 ← vecSet s.lines currentLineIndex line1
    some { s with lines := lines1, cursorX := s.cursorX - 1 }
  else if currentLineIndex > 0 then do
    let currentLine ← vecAt s.lines currentLineIndex
    let lines1 ← vecErase s.lines currentLineIndex
    let s1 := if s.cursorY - 1 < 0
              then { s with lines := lines1, offsetY := s.offsetY - 1, cursorY := 0 }
              else { s with lines := lines1, cursorY := s.cursorY - 1 }
    let prev ← vecAt s1.lines (currentLineIndex - 1)
    let lines2 ← vecSet s1.lines (currentLineIndex - 1) (prev ++ currentLine)
    some { s1 with cursorX := (prev.length : Int), lines := lines2 }
  else some s

/-- Body of `case VK_RETURN`. -/
def Windows.keyReturn (s : Windows.TextEditor) : Option Windows.TextEditor := do
  let currentLineIndex := s.cursorY + s.offsetY
  let line ← vecAt s.lines currentLineIndex
  let rest ← strSuffix line s.cursorX
  let lines1 ← vecInsertRange s.lines (currentLineIndex + 1) [rest]
  let line1 ← vecAt lines1 currentLineIndex
  let head ← strSubstr line1 0 (Windows.toSizeT s.cursorX)
  let lines2 ← vecSet lines1 currentLineIndex head
  let s1 := if s.cursorY + 1 ≥ s.consoleHeight - 1
            then { s with lines := lines2, offsetY := s.offsetY + 1, cursorY := s.consoleHeight - 2 }
            else { s with lines := lines2, cursorY := s.cursorY + 1 }
  some { s1 with cursorX := 0 }

/-- Body of the `default` label, for the character `c` of the event. -/
def Windows.keyDefault (c : Int) (s : Windows.TextEditor) : Option Windows.TextEditor :=
  if c ≥ 32 ∧ c ≤ 126 then do
    let currentLineIndex := s.cursorY + s.offsetY
    let line ← vecAt s.lines currentLineIndex
    let line1 ← strInsert line s.cursorX [Char.ofNat c.toNat]
    let lines1 ← vecSet s.lines currentLineIndex line1
    some { s with lines := lines1, cursorX := s.cursorX + 1 }
  else some s

/-- Member `handleInput` for the record that `ReadConsoleInput` delivers: the
returned flag and the new state, or `none` for an access out of range. -/
def Windows.handleInput (input : Windows.InputRecord) (s : Windows.TextEditor) :
    Option (Bool × Windows.TextEditor) :=
  if input.isKeyEvent = true ∧ input.bKeyDown = true then
    if input.wVirtualKeyCode = Windows.VK_ESCAPE then some (false, s)
    else if input.wVirtualKeyCode = Windows.VK_S then
      some (true, if input.leftCtrlPressed = true then Windows.saveFile s else s)
    else if input.wVirtualKeyCode = Windows.VK_UP then (Windows.keyUp s).map fun s2 => (true, s2)
    else if input.wVirtualKeyCode = Windows.VK_DOWN then
      (Windows.keyDown s).map fun s2 => (true, s2)
    else if input.wVirtualKeyCode = Windows.VK_LEFT then
      (Windows.keyLeft s).map fun s2 => (true, s2)
    else if input.wVirtualKeyCode = Windows.VK_RIGHT then
      (Windows.keyRight s).map fun s2 => (true, s2)
    else if input.wVirtualKeyCode = Windows.VK_BACK then
      (Windows.keyBack s).map fun s2 => (true, s2)
    else if input.wVirtualKeyCode = Windows.VK_RETURN then
      (Windows.keyReturn s).map fun s2 => (true, s2)
    else (Windows.keyDefault input.asciiChar s).map fun s2 => (true, s2)
  else some (true, s)

/-! ## Properties and vocabulary used by the statements -/

/-- Cursor bounds `0 ≤ row < lineCount` and `0 ≤ column ≤ length of lines[row]`. -/
def ValidCursor (s : TextEditor) : Prop :=
  0 ≤ s.cursorY ∧ s.cursorY < (s.lines.length : Int) ∧
    0 ≤ s.cursorX ∧ s.cursorX ≤ ((s.lines.getD s.cursorY.toNat []).length : Int)

instance (s : TextEditor) : Decidable (ValidCursor s) := by
  unfold ValidCursor
  infer_instance

/-- Number of characters and line ends in front of the cursor. -/
def cursorOffset (s : TextEditor) : Nat :=
  s.cursorX.toNat + bufferSize (s.lines.take s.cursorY.toNat)

/-- The motions of the spec: `h l j k 0 $ w b gg G %`. -/
inductive Motion where
  | h
  | l
  | j
  | k
  | lineStart
  | lineEnd
  | w
  | b
  | gg
  | G
  | percent
  deriving DecidableEq, Repr

/-- Member function each motion key runs. -/
def Motion.apply : Motion → TextEditor → Option TextEditor
  | Motion.h, s => moveLeft s
  | Motion.l, s => moveRight s
  | Motion.j, s => moveDown s
  | Motion.k, s => moveUp s
  | Motion.lineStart, s => some (moveToLineStart s)
  | Motion.lineEnd, s => moveToLineEnd s
  | Motion.w, s => moveToNextWord s
  | Motion.b, s => moveToPreviousWord s
  | Motion.gg, s => some (moveToDocumentStart s)
  | Motion.G, s => moveToDocumentEnd s
  | Motion.percent, s => jumpToMatchingBracket s

/-- A sequence of motions, applied left to right. -/
def applyMotions : List Motion → TextEditor → Option TextEditor
  | [], s => some s
  | m :: ms, s => (m.apply s).bind (applyMotions ms)

/-- Operators that record a snapshot before they edit. -/
inductive Edit where
  | x
  | yank
  | delete
  | change
  | paste
  | indent
  | unindent
  | visualIndent
  | visualUnindent
  | typed (ch : Int)
  | newline
  deriving DecidableEq, Repr

/-- Code each operator runs: the member function, or the `case` body of the key handler. -/
def Edit.apply : Edit → TextEditor → Option TextEditor
  | Edit.x, s => deleteChar s
  | Edit.yank, s => yankText s
  | Edit.delete, s => deleteText s
  | Edit.change, s => changeText s
  | Edit.paste, s => pasteText s
  | Edit.indent, s => indentLine s
  | Edit.unindent, s => unindentLine s
  | Edit.visualIndent, s => handleVisualModeInput (key '>') s
  | Edit.visualUnindent, s => handleVisualModeInput (key '<') s
  | Edit.typed ch, s => insertChar ch (saveCurrentStateForUndo s)
  | Edit.newline, s => newLine (saveCurrentStateForUndo s)

/-- Whether the operator reaches its call of `saveCurrentStateForUndo` in state `s`:
always, except for `x`, which records a snapshot only when the cursor is on a character. -/
def Edit.saves : Edit → TextEditor → Prop
  | Edit.x, s => s.cursorX < (((vecAt s.lines s.cursorY).getD []).length : Int)
  | _, _ => True

instance (e : Edit) (s : TextEditor) : Decidable (e.saves s) := by
  cases e <;> unfold Edit.saves <;> infer_instance

/-- Keys that type the decimal digits of `n`, most significant first. -/
def digitKeys (n : Nat) : List Int :=
  (Nat.digits 10 n).reverse.map fun (d : Nat) => key '0' + (d : Int)

/-- Result of removing `k` characters of `line` from column `c` on. -/
def removeChars (line : Line) (c k : Nat) : Line :=
  line.take c ++ line.drop (c + k)

/-- A session as the constructor leaves it, on a terminal of 24 rows, for the
given pending keys and backing-file text (`none`: the file cannot be opened). -/
def freshSession (keys : List Int) (text : Option String) : TextEditor :=
  TextEditor.new 24 keys (text.map String.toList) true

/-- A session on the buffer `["b"]` whose undo stack holds the snapshot
`["ab"]`: the state after `x` at column 0 of `"ab"`. -/
def sessionAfterX : TextEditor :=
  { freshSession [] none with lines := [['b']], undoStack := [[['a', 'b']]] }

/-- The state `undo` makes of `sessionAfterX`. -/
def sessionUndone : TextEditor :=
  { freshSession [] none with lines := [['a', 'b']], redoStack := [[['b']]] }

/-- A session on the buffer `["foo (bar)", "  baz"]` with the cursor on the bracket at column 4. -/
def sessionOnBracket : TextEditor :=
  { freshSession [] (some "foo (bar)\n  baz\n") with cursorX := 4 }

/-- Viewport bounds for `visibleRows = LINES - 2`: `0 ≤ offsetY ≤ max(0, lineCount - visibleRows)`
and the cursor row lies in `[offsetY, offsetY + visibleRows)`. -/
def ViewportInvariant (s : TextEditor) : Prop :=
  0 ≤ s.offsetY ∧ s.offsetY ≤ max 0 ((s.lines.length : Int) - (s.LINES - 2)) ∧
    s.offsetY ≤ s.cursorY ∧ s.cursorY < s.offsetY + (s.LINES - 2)

instance (s : TextEditor) : Decidable (ViewportInvariant s) := by
  unfold ViewportInvariant
  infer_instance

/-- Text of a file of 24 lines: `"("`, twenty-two empty lines, `")"`. -/
def bracketFile : Line :=
  '(' :: List.replicate 23 '\n' ++ [')', '\n']

/-- A session whose backing file holds `"old"` and cannot be opened for writing. -/
def readOnlySession (keys : List Int) : TextEditor :=
  TextEditor.new 24 keys (some ['o', 'l', 'd', '\n']) false

/-- Rows `lo .. lo + n - 1` of `before` carry one more indent in `after`;
every other row is the same, and no row is added or removed. -/
def IndentedRows (after before : List Line) (lo n : Nat) : Prop :=
  ∀ i : Nat, after[i]? =
    if lo ≤ i ∧ i < lo + n then (before[i]?).map (fun l => indentString ++ l) else before[i]?

/-- State `s2` differs from `s` at most in the cursor and the viewport offset. -/
def CursorOnly (s s2 : TextEditor) : Prop :=
  s2 = { s with cursorX := s2.cursorX, cursorY := s2.cursorY, offsetY := s2.offsetY }

/-- Index `j` is the end of `line`, or holds a character whose `isspace` value is `space`. -/
def EndOrSpace (space : Bool) (line : Line) (j : Nat) : Prop :=
  j = line.length ∨ (j < line.length ∧ isspace (line.getD j (Char.ofNat 0)) = space)

/-- Index `c1` is the least index `≥ c` with property `P`. -/
def LeastFrom (P : Nat → Prop) (c c1 : Nat) : Prop :=
  c ≤ c1 ∧ P c1 ∧ ∀ j, c ≤ j → j < c1 → ¬ P j

/-- The cursor is on the first character of a word: the character under it is
not whitespace, and it is at column 0 or the character before it is whitespace. -/
def OnWordStart (s : TextEditor) : Prop :=
  ∃ line, vecAt s.lines s.cursorY = some line ∧ 0 ≤ s.cursorX ∧ s.cursorX < (line.length : Int) ∧
    isspace (line.getD s.cursorX.toNat (Char.ofNat 0)) = false ∧
    (s.cursorX = 0 ∨ isspace (line.getD (s.cursorX - 1).toNat (Char.ofNat 0)) = true)

/-- Row that one iteration of the block-paste loop stores for the clipboard
row `f`, the old row `old` and the paste column `c`: `old` resized to
`c + |f|` when it is shorter, then `replace(c, |f|, f)`. -/
def pastedRow (c : Nat) (f old : Line) : Line :=
  let line1 := if c + f.length > old.length then strResize old (c + f.length) else old
  line1.take c ++ f ++ line1.drop (c + f.length)

/-- The bounds of the Windows front end: `0 ≤ cursorY ≤ consoleHeight - 2`,
`offsetY ≥ 0`, `cursorY + offsetY < lines.size()` and
`0 ≤ cursorX ≤ length of lines[cursorY + offsetY]`. -/
def Windows.Invariant (s : Windows.TextEditor) : Prop :=
  0 ≤ s.cursorY ∧ s.cursorY ≤ s.consoleHeight - 2 ∧ 0 ≤ s.offsetY ∧
    s.cursorY + s.offsetY < (s.lines.length : Int) ∧ 0 ≤ s.cursorX ∧
    s.cursorX ≤ ((s.lines.getD (s.cursorY + s.offsetY).toNat []).length : Int)

instance (s : Windows.TextEditor) : Decidable (Windows.Invariant s) := by
  unfold Windows.Invariant
  infer_instance

/-- A Windows session on the buffer `["ab", "c"]` in a console of 3 rows (two
text rows), scrolled by one line, with the cursor at the end of `"c"`. -/
def Windows.sample : Windows.TextEditor :=
  { Windows.TextEditor.new 80 3 (some ['a', 'b', '\n', 'c', '\n']) true with
    cursorX := 1, cursorY := 0, offsetY := 1 }

/-- Nesting depth after reading `seg` from depth 1: one more for every
occurrence of `cur`, one less for every occurrence of `mat`. -/
def depthAfter (cur mat : Char) (seg : List Char) : Int :=
  1 + (seg.count cur : Int) - (seg.count mat : Int)

/-- The bracket `cur` in front of `text` has no match in `text`: read from
depth 1, the depth is 0 after no non-empty prefix of `text`. -/
def NoMatchIn (cur mat : Char) (text : List Char) : Prop :=
  ∀ n, 0 < n → n ≤ text.length → depthAfter cur mat (text.take n) ≠ 0

/-- The characters after the cursor in reading order: the rest of the cursor
row, then the rows below it. -/
def textAfterCursor (s : TextEditor) : List Char :=
  (s.lines.getD s.cursorY.toNat []).drop (s.cursorX.toNat + 1) ++
    (s.lines.drop (s.cursorY.toNat + 1)).flatten

/-- The characters in front of the cursor, the nearest one first: the rows
above the cursor row and the part of the cursor row in front of the cursor,
read backwards. -/
def textBeforeCursor (s : TextEditor) : List Char :=
  ((s.lines.take s.cursorY.toNat).flatten ++
    (s.lines.getD s.cursorY.toNat []).take s.cursorX.toNat).reverse

/-- A session on the one-line buffer `")("` with the cursor on the `)` at column 0. -/
def sessionUnmatched : TextEditor :=
  freshSession [] (some ")(\n")

/-! ## Basic facts about the containers -/

theorem vecAt_some_bounds {α : Type} {v : List α} {i : Int} {a : α} (h : vecAt v i = some a) :
    0 ≤ i ∧ i < (v.length : Int) := by
  unfold vecAt at h
  split at h
  · rename_i hi
    refine ⟨hi, ?_⟩
    have hlt : i.toNat < v.length := by
      by_contra hc
      rw [List.getElem?_eq_none (Nat.le_of_not_lt hc)] at h
      exact Option.noConfusion h
    omega
  · exact Option.noConfusion h

theorem vecAt_of_bounds {α : Type} (v : List α) (i : Int) (d : α) (h0 : 0 ≤ i)
    (h1 : i < (v.length : Int)) : vecAt v i = some (v.getD i.toNat d) := by
  have hlt : i.toNat < v.length := by omega
  simp [vecAt, h0, List.getD, List.getElem?_eq_getElem hlt]

theorem vecAt_getD {α : Type} {v : List α} {i : Int} {a : α} (d : α) (h : vecAt v i = some a) :
    v.getD i.toNat d = a := by
  have hb := vecAt_some_bounds h
  rw [vecAt_of_bounds v i d hb.1 hb.2] at h
  exact Option.some.inj h

theorem redo_of_empty (s : TextEditor) (h : s.redoStack = []) : redo s = some s := by
  unfold redo
  rw [h]

theorem undo_cons (s : TextEditor) (top : List Line) (rest : List (List Line)) (line : Line)
    (hu : s.undoStack = top :: rest)
    (hl : vecAt top (min s.cursorY ((top.length : Int) - 1)) = some line) :
    undo s = some { s with redoStack := s.lines :: s.redoStack, lines := top, undoStack := rest,
                           cursorY := min s.cursorY ((top.length : Int) - 1),
                           cursorX := min s.cursorX (line.length : Int) } := by
  simp only [undo, hu, clampLength, hl]

/-- Buffer and stacks after `undo` on a non-empty undo stack, whatever the cursor is. -/
theorem undo_cons_lines (s : TextEditor) (top : List Line) (rest : List (List Line))
    (hu : s.undoStack = top :: rest) :
    ∃ s2, undo s = some s2 ∧ s2.lines = top ∧ s2.undoStack = rest ∧
      s2.redoStack = s.lines :: s.redoStack ∧
      s2.cursorY = min s.cursorY ((top.length : Int) - 1) := by
  simp only [undo, hu]
  exact ⟨_, rfl, rfl, rfl, rfl, rfl⟩

theorem redo_cons (s : TextEditor) (top : List Line) (rest : List (List Line)) (line : Line)
    (hu : s.redoStack = top :: rest)
    (hl : vecAt top (min s.cursorY ((top.length : Int) - 1)) = some line) :
    redo s = some { s with undoStack := s.lines :: s.undoStack, lines := top, redoStack := rest,
                           cursorY := min s.cursorY ((top.length : Int) - 1),
                           cursorX := min s.cursorX (line.length : Int) } := by
  simp only [redo, hu, clampLength, hl]

theorem deleteText_redoStack {s s2 : TextEditor} (h : deleteText s = some s2) :
    s2.redoStack = [] := by
  simp only [deleteText, saveCurrentStateForUndo, Option.bind_eq_bind, Option.pure_def] at h
  split_ifs at h
  · simp only [Option.bind_eq_some] at h
    obtain ⟨⟨l, c⟩, _, h⟩ := h
    cases h
    rfl
  · simp only [Option.bind_eq_some] at h
    obtain ⟨⟨l, c⟩, _, h⟩ := h
    cases h
    rfl
  · simp only [Option.bind_eq_some] at h
    obtain ⟨_, _, _, _, h⟩ := h
    cases h
    rfl
  · cases h
    rfl

theorem yankText_redoStack {s s2 : TextEditor} (h : yankText s = some s2) :
    s2.redoStack = [] := by
  simp only [yankText, saveCurrentStateForUndo, Option.bind_eq_bind, Option.pure_def] at h
  split_ifs at h
  all_goals
    simp only [Option.bind_eq_some] at h
    obtain ⟨_, _, h⟩ := h
    cases h
    rfl

theorem changeText_redoStack {s s2 : TextEditor} (h : changeText s = some s2) :
    s2.redoStack = [] := by
  simp only [changeText, Option.bind_eq_bind, Option.bind_eq_some] at h
  obtain ⟨s1, h1, h⟩ := h
  cases h
  have h2 := deleteText_redoStack h1
  exact h2

theorem pasteText_redoStack {s s2 : TextEditor} (h : pasteText s = some s2) :
    s2.redoStack = [] := by
  simp only [pasteText, saveCurrentStateForUndo, Option.bind_eq_bind, Option.pure_def] at h
  split at h
  · cases h
    rfl
  · split_ifs at h
    · simp only [Option.bind_eq_some] at h
      obtain ⟨_, _, h⟩ := h
      cases h
      rfl
    · simp only [Option.bind_eq_some] at h
      obtain ⟨_, _, h⟩ := h
      cases h
      rfl
    · simp only [Option.bind_eq_some] at h
      obtain ⟨_, _, _, _, _, _, h⟩ := h
      cases h
      rfl

theorem indentLine_redoStack {s s2 : TextEditor} (h : indentLine s = some s2) :
    s2.redoStack = [] := by
  simp only [indentLine, saveCurrentStateForUndo, Option.bind_eq_bind, Option.bind_eq_some] at h
  obtain ⟨_, _, _, _, _, _, h⟩ := h
  cases h
  rfl

theorem unindentLine_redoStack {s s2 : TextEditor} (h : unindentLine s = some s2) :
    s2.redoStack = [] := by
  simp only [unindentLine, saveCurrentStateForUndo, Option.bind_eq_bind, Option.bind_eq_some] at h
  obtain ⟨_, _, h⟩ := h
  split_ifs at h
  · simp only [Option.bind_eq_bind, Option.bind_eq_some] at h
    obtain ⟨_, _, _, _, h⟩ := h
    cases h
    rfl
  · cases h
    rfl

theorem deleteChar_redoStack {s s2 : TextEditor} (h : deleteChar s = some s2)
    (hx : s.cursorX < (((vecAt s.lines s.cursorY).getD []).length : Int)) :
    s2.redoStack = [] := by
  simp only [deleteChar, saveCurrentStateForUndo, Option.bind_eq_bind, Option.bind_eq_some] at h
  obtain ⟨line, hline, h⟩ := h
  rw [hline] at hx
  simp only [Option.getD_some] at hx
  rw [if_pos hx] at h
  simp only [Option.bind_eq_bind, Option.bind_eq_some] at h
  obtain ⟨_, _, _, _, h⟩ := h
  cases h
  rfl

theorem insertChar_redoStack {ch : Int} {s s2 : TextEditor} (h : insertChar ch s = some s2) :
    s2.redoStack = s.redoStack := by
  simp only [insertChar, Option.bind_eq_bind, Option.bind_eq_some] at h
  obtain ⟨_, _, _, _, _, _, h⟩ := h
  cases h
  rfl

theorem newLine_redoStack {s s2 : TextEditor} (h : newLine s = some s2) :
    s2.redoStack = s.redoStack := by
  simp only [newLine, Option.bind_eq_bind, Option.bind_eq_some] at h
  obtain ⟨_, _, _, _, _, _, _, _, _, _, h⟩ := h
  cases h
  rfl

theorem indentRows_redoStack : ∀ (n : Nat) (y : Int) (s s2 : TextEditor),
    indentRows n y s = some s2 → (0 < n ∨ s.redoStack = []) → s2.redoStack = []
  | 0, _, s, s2, h, hn => by
    simp only [indentRows] at h
    cases h
    rcases hn with hn | hn
    · exact absurd hn (Nat.lt_irrefl 0)
    · exact hn
  | n + 1, y, s, s2, h, _ => by
    simp only [indentRows, saveCurrentStateForUndo, Option.bind_eq_bind, Option.bind_eq_some] at h
    obtain ⟨_, _, _, _, _, _, h⟩ := h
    exact indentRows_redoStack n (y + 1) _ s2 h (Or.inr rfl)

theorem unindentRows_redoStack : ∀ (n : Nat) (y : Int) (s s2 : TextEditor),
    unindentRows n y s = some s2 → (0 < n ∨ s.redoStack = []) → s2.redoStack = []
  | 0, _, s, s2, h, hn => by
    simp only [unindentRows] at h
    cases h
    rcases hn with hn | hn
    · exact absurd hn (Nat.lt_irrefl 0)
    · exact hn
  | n + 1, y, s, s2, h, _ => by
    simp only [unindentRows, saveCurrentStateForUndo, Option.bind_eq_bind, Option.bind_eq_some] at h
    obtain ⟨_, _, h⟩ := h
    split_ifs at h
    · simp only [Option.bind_eq_bind, Option.bind_eq_some] at h
      obtain ⟨_, _, _, _, h⟩ := h
      exact unindentRows_redoStack n (y + 1) _ s2 h (Or.inr rfl)
    · exact unindentRows_redoStack n (y + 1) _ s2 h (Or.inr rfl)

theorem selection_rows_pos (a b : Int) : 0 < (max a b - min a b + 1).toNat := by
  omega

theorem visualIndent_redoStack {s s2 : TextEditor}
    (h : handleVisualModeInput (key '>') s = some s2) : s2.redoStack = [] := by
  have e : handleVisualModeInput (key '>') s =
      (indentRows (max s.visualStartY s.cursorY - min s.visualStartY s.cursorY + 1).toNat
        (min s.visualStartY s.cursorY) s).bind
        (fun s1 => some { s1 with mode := EditorMode.NORMAL }) := by
    simp [handleVisualModeInput, key, KEY_ESC]
  rw [e] at h
  simp only [Option.bind_eq_some] at h
  obtain ⟨s1, h1, h⟩ := h
  cases h
  have h2 := indentRows_redoStack _ _ _ _ h1 (Or.inl (selection_rows_pos _ _))
  exact h2

theorem visualUnindent_redoStack {s s2 : TextEditor}
    (h : handleVisualModeInput (key '<') s = some s2) : s2.redoStack = [] := by
  have e : handleVisualModeInput (key '<') s =
      (unindentRows (max s.visualStartY s.cursorY - min s.visualStartY s.cursorY + 1).toNat
        (min s.visualStartY s.cursorY) s).bind
        (fun s1 => some { s1 with mode := EditorMode.NORMAL }) := by
    simp [handleVisualModeInput, key, KEY_ESC]
  rw [e] at h
  simp only [Option.bind_eq_some] at h
  obtain ⟨s1, h1, h⟩ := h
  cases h
  have h2 := unindentRows_redoStack _ _ _ _ h1 (Or.inl (selection_rows_pos _ _))
  exact h2

theorem Edit.apply_redoStack (e : Edit) {s s2 : TextEditor} (h : e.apply s = some s2)
    (hs : e.saves s) : s2.redoStack = [] := by
  cases e with
  | x => exact deleteChar_redoStack h hs
  | yank => exact yankText_redoStack h
  | delete => exact deleteText_redoStack h
  | change => exact changeText_redoStack h
  | paste => exact pasteText_redoStack h
  | indent => exact indentLine_redoStack h
  | unindent => exact unindentLine_redoStack h
  | visualIndent => exact visualIndent_redoStack h
  | visualUnindent => exact visualUnindent_redoStack h
  | typed ch => exact (insertChar_redoStack h).trans rfl
  | newline => exact (newLine_redoStack h).trans rfl

/-- C3. After `undo`, any operator that records a snapshot leaves the redo
stack empty, and a `redo` after it returns the very same state: buffer lines,
cursor and both history stacks are unchanged. -/
theorem C3_fresh_edit_invalidates_redo (e : Edit) (s s1 s2 : TextEditor)
    (_hundo : undo s = some s1) (hsave : e.saves s1) (hedit : e.apply s1 = some s2) :
    s2.redoStack = [] ∧ redo s2 = some s2 := by
  have h := Edit.apply_redoStack e hedit hsave
  exact ⟨h, redo_of_empty s2 h⟩

/-! ## Cursor bounds under the motions -/

theorem validCursor_of (s : TextEditor) (line : Line) (h : vecAt s.lines s.cursorY = some line)
    (h0 : 0 ≤ s.cursorX) (h1 : s.cursorX ≤ (line.length : Int)) : ValidCursor s := by
  have hb := vecAt_some_bounds h
  have hg := vecAt_getD [] h
  refine ⟨hb.1, hb.2, h0, ?_⟩
  rw [hg]
  exact h1

theorem ValidCursor.line {s : TextEditor} (hv : ValidCursor s) :
    ∃ line, vecAt s.lines s.cursorY = some line ∧ 0 ≤ s.cursorX ∧ s.cursorX ≤ (line.length : Int) :=
  ⟨_, vecAt_of_bounds s.lines s.cursorY [] hv.1 hv.2.1, hv.2.2.1, hv.2.2.2⟩

theorem moveUp_valid {s : TextEditor} (hv : ValidCursor s) :
    ∃ s2, moveUp s = some s2 ∧ ValidCursor s2 ∧ s2.lines = s.lines := by
  obtain ⟨hy0, hy1, hx0, hx1⟩ := hv
  unfold moveUp
  by_cases hpos : s.cursorY > 0
  · rw [if_pos hpos]
    have hl := vecAt_of_bounds s.lines (s.cursorY - 1) [] (by omega) (by omega)
    simp only [hl, Option.bind_eq_bind, Option.some_bind]
    exact ⟨_, rfl, validCursor_of _ _ hl (le_min hx0 (Int.ofNat_nonneg _)) (min_le_right _ _), rfl⟩
  · rw [if_neg hpos]
    exact ⟨s, rfl, ⟨hy0, hy1, hx0, hx1⟩, rfl⟩

theorem moveDown_valid {s : TextEditor} (hv : ValidCursor s) :
    ∃ s2, moveDown s = some s2 ∧ ValidCursor s2 ∧ s2.lines = s.lines := by
  obtain ⟨hy0, hy1, hx0, hx1⟩ := hv
  unfold moveDown
  by_cases hpos : s.cursorY < (s.lines.length : Int) - 1
  · rw [if_pos hpos]
    have hl := vecAt_of_bounds s.lines (s.cursorY + 1) [] (by omega) (by omega)
    simp only [hl, Option.bind_eq_bind, Option.some_bind]
    exact ⟨_, rfl, validCursor_of _ _ hl (le_min hx0 (Int.ofNat_nonneg _)) (min_le_right _ _), rfl⟩
  · rw [if_neg hpos]
    exact ⟨s, rfl, ⟨hy0, hy1, hx0, hx1⟩, rfl⟩

theorem moveLeft_valid {s : TextEditor} (hv : ValidCursor s) :
    ∃ s2, moveLeft s = some s2 ∧ ValidCursor s2 ∧ s2.lines = s.lines := by
  obtain ⟨line, hline, hx0, hx1⟩ := hv.line
  have hy0 := hv.1
  have hy1 := hv.2.1
  unfold moveLeft
  by_cases hx : s.cursorX > 0
  · rw [if_pos hx]
    exact ⟨_, rfl, validCursor_of _ line hline (by simp only; omega) (by simp only; omega), rfl⟩
  · rw [if_neg hx]
    by_cases hy : s.cursorY > 0
    · rw [if_pos hy]
      have hl := vecAt_of_bounds s.lines (s.cursorY - 1) [] (by omega) (by omega)
      simp only [hl, Option.bind_eq_bind, Option.some_bind]
      exact ⟨_, rfl, validCursor_of _ _ hl (Int.ofNat_nonneg _) (le_refl _), rfl⟩
    · rw [if_neg hy]
      exact ⟨s, rfl, hv, rfl⟩

theorem moveRight_valid {s : TextEditor} (hv : ValidCursor s) :
    ∃ s2, moveRight s = some s2 ∧ ValidCursor s2 ∧ s2.lines = s.lines := by
  obtain ⟨line, hline, hx0, hx1⟩ := hv.line
  have hy0 := hv.1
  have hy1 := hv.2.1
  simp only [moveRight, hline, Option.bind_eq_bind, Option.some_bind]
  by_cases hx : s.cursorX < (line.length : Int)
  · rw [if_pos hx]
    exact ⟨_, rfl, validCursor_of _ line hline (by simp only; omega) (by simp only; omega), rfl⟩
  · rw [if_neg hx]
    by_cases hy : s.cursorY < (s.lines.length : Int) - 1
    · rw [if_pos hy]
      have hl := vecAt_of_bounds s.lines (s.cursorY + 1) [] (by omega) (by omega)
      exact ⟨_, rfl, validCursor_of _ _ hl (le_refl _) (Int.ofNat_nonneg _), rfl⟩
    · rw [if_neg hy]
      exact ⟨s, rfl, hv, rfl⟩

theorem moveToLineStart_valid {s : TextEditor} (hv : ValidCursor s) :
    ValidCursor (moveToLineStart s) := by
  obtain ⟨line, hline, _, _⟩ := hv.line
  exact validCursor_of _ line hline (le_refl _) (Int.ofNat_nonneg _)

theorem moveToLineEnd_valid {s : TextEditor} (hv : ValidCursor s) :
    ∃ s2, moveToLineEnd s = some s2 ∧ ValidCursor s2 ∧ s2.lines = s.lines := by
  obtain ⟨line, hline, _, _⟩ := hv.line
  simp only [moveToLineEnd, hline, Option.bind_eq_bind, Option.some_bind]
  exact ⟨_, rfl, validCursor_of _ line hline (Int.ofNat_nonneg _) (le_refl _), rfl⟩

theorem moveToDocumentStart_valid {s : TextEditor} (hv : ValidCursor s) :
    ValidCursor (moveToDocumentStart s) := by
  have hl := vecAt_of_bounds s.lines 0 [] (le_refl _) (by have := hv.1; have := hv.2.1; omega)
  exact validCursor_of _ _ hl (le_refl _) (Int.ofNat_nonneg _)

theorem moveToDocumentEnd_valid {s : TextEditor} (hv : ValidCursor s) :
    ∃ s2, moveToDocumentEnd s = some s2 ∧ ValidCursor s2 ∧ s2.lines = s.lines := by
  have hl := vecAt_of_bounds s.lines ((s.lines.length : Int) - 1) []
    (by have := hv.1; have := hv.2.1; omega) (by omega)
  simp only [moveToDocumentEnd, hl, Option.bind_eq_bind, Option.some_bind]
  exact ⟨_, rfl, validCursor_of _ _ hl (Int.ofNat_nonneg _) (le_refl _), rfl⟩

theorem currentLineLength_eq {s : TextEditor} {line : Line}
    (h : vecAt s.lines s.cursorY = some line) : currentLineLength s = line.length := by
  simp only [currentLineLength, h, Option.getD_some]

theorem strAt_of_bounds (line : Line) (i : Int) (h0 : 0 ≤ i) (h1 : i ≤ (line.length : Int)) :
    strAt line i = some (line.getD i.toNat (Char.ofNat 0)) := by
  simp only [strAt, h0, h1, and_self, if_true]

theorem nextWordCond_valid (b : Bool) {s : TextEditor} (hv : ValidCursor s) :
    ∃ c, nextWordCond b s = some c ∧ (c = true → s.cursorX < (currentLineLength s : Int)) := by
  obtain ⟨line, hline, hx0, hx1⟩ := hv.line
  have hy1 := hv.2.1
  simp only [nextWordCond, if_pos hy1, hline, Option.bind_eq_bind, Option.some_bind,
    currentLineLength_eq hline]
  by_cases hx : s.cursorX < (line.length : Int)
  · rw [if_pos hx, strAt_of_bounds line s.cursorX hx0 hx1]
    exact ⟨_, rfl, fun _ => hx⟩
  · rw [if_neg hx]
    exact ⟨false, rfl, fun h => Bool.noConfusion h⟩

theorem moveRight_within {s : TextEditor} (hv : ValidCursor s)
    (hx : s.cursorX < (currentLineLength s : Int)) :
    moveRight s = some { s with cursorX := s.cursorX + 1 } := by
  obtain ⟨line, hline, _, _⟩ := hv.line
  rw [currentLineLength_eq hline] at hx
  simp only [moveRight, hline, Option.bind_eq_bind, Option.some_bind, if_pos hx]

theorem nextWordLoop_valid (b : Bool) : ∀ (fuel : Nat) (s : TextEditor), ValidCursor s →
    (currentLineLength s : Int) - s.cursorX < (fuel : Int) →
    ∃ s2, nextWordLoop b fuel s = some s2 ∧ ValidCursor s2 ∧ s2.lines = s.lines ∧
      s2.cursorY = s.cursorY
  | 0, s, hv, hf => by
    obtain ⟨line, hline, _, hx1⟩ := hv.line
    rw [currentLineLength_eq hline] at hf
    omega
  | fuel + 1, s, hv, hf => by
    obtain ⟨c, hc, hcx⟩ := nextWordCond_valid b hv
    simp only [nextWordLoop, hc, Option.bind_eq_bind, Option.some_bind]
    cases c with
    | false => exact ⟨s, by simp, hv, rfl, rfl⟩
    | true =>
      have hx := hcx rfl
      obtain ⟨line, hline, hx0, _⟩ := hv.line
      have hline2 : vecAt ({ s with cursorX := s.cursorX + 1 } : TextEditor).lines
          ({ s with cursorX := s.cursorX + 1 } : TextEditor).cursorY = some line := hline
      have hv2 : ValidCursor { s with cursorX := s.cursorX + 1 } := by
        rw [currentLineLength_eq hline] at hx
        exact validCursor_of _ line hline2 (by simp only; omega) (by simp only; omega)
      have hlen : currentLineLength ({ s with cursorX := s.cursorX + 1 } : TextEditor) =
          currentLineLength s := by
        rw [currentLineLength_eq hline2, currentLineLength_eq hline]
      obtain ⟨s2, h2, hv3, hl3, hy3⟩ := nextWordLoop_valid b fuel _ hv2 (by
        rw [hlen]
        simp only
        omega)
      refine ⟨s2, ?_, hv3, hl3, hy3⟩
      simp only [if_true, moveRight_within hv hx, Option.some_bind]
      exact h2

theorem moveToNextWord_valid {s : TextEditor} (hv : ValidCursor s) :
    ∃ s2, moveToNextWord s = some s2 ∧ ValidCursor s2 ∧ s2.lines = s.lines := by
  obtain ⟨s1, h1, hv1, hl1, _⟩ := nextWordLoop_valid false (currentLineLength s + 1) s hv (by
    have := hv.2.2.1
    push_cast
    omega)
  obtain ⟨s2, h2, hv2, hl2, _⟩ := nextWordLoop_valid true (currentLineLength s1 + 1) s1 hv1 (by
    have := hv1.2.2.1
    push_cast
    omega)
  refine ⟨s2, ?_, hv2, hl2.trans hl1⟩
  simp only [moveToNextWord, h1, Option.bind_eq_bind, Option.some_bind]
  exact h2

theorem bufferSize_take_le : ∀ (ls : List Line) (k : Nat), bufferSize (ls.take k) ≤ bufferSize ls
  | [], k => by simp [bufferSize]
  | _ :: _, 0 => by simp [bufferSize]
  | l :: ls, k + 1 => by
    have := bufferSize_take_le ls k
    simp only [List.take_succ_cons, bufferSize]
    omega

theorem bufferSize_take_succ : ∀ (ls : List Line) (k : Nat), k < ls.length →
    bufferSize (ls.take (k + 1)) = bufferSize (ls.take k) + (ls.getD k []).length + 1
  | [], k, h => by simp at h
  | l :: ls, 0, _ => by simp [bufferSize]
  | l :: ls, k + 1, h => by
    have h2 : k < ls.length := by simpa using h
    have := bufferSize_take_succ ls k h2
    simp only [List.take_succ_cons, bufferSize, List.getD_cons_succ] at this ⊢
    omega

theorem prevWordCond_valid {s : TextEditor} (hv : ValidCursor s) :
    ∃ c, prevWordCond s = some c ∧ (c = true → s.cursorX > 0) := by
  obtain ⟨line, hline, hx0, hx1⟩ := hv.line
  unfold prevWordCond
  by_cases hx : s.cursorX > 0
  · rw [if_pos hx]
    simp only [hline, Option.bind_eq_bind, Option.some_bind,
      strAt_of_bounds line (s.cursorX - 1) (by omega) (by omega)]
    exact ⟨_, rfl, fun _ => hx⟩
  · rw [if_neg hx]
    exact ⟨false, rfl, fun h => Bool.noConfusion h⟩

theorem moveLeft_offset {s : TextEditor} (hv : ValidCursor s)
    (hpos : s.cursorY > 0 ∨ s.cursorX > 0) :
    ∃ s2, moveLeft s = some s2 ∧ ValidCursor s2 ∧ s2.lines = s.lines ∧
      cursorOffset s2 + 1 = cursorOffset s := by
  obtain ⟨line, hline, hx0, hx1⟩ := hv.line
  have hy0 := hv.1
  have hy1 := hv.2.1
  unfold moveLeft
  by_cases hx : s.cursorX > 0
  · rw [if_pos hx]
    refine ⟨_, rfl, validCursor_of _ line hline (by simp only; omega) (by simp only; omega), rfl, ?_⟩
    simp only [cursorOffset]
    omega
  · rw [if_neg hx]
    have hy : s.cursorY > 0 := by
      rcases hpos with h | h
      · exact h
      · exact absurd h hx
    rw [if_pos hy]
    have hl := vecAt_of_bounds s.lines (s.cursorY - 1) [] (by omega) (by omega)
    simp only [hl, Option.bind_eq_bind, Option.some_bind]
    refine ⟨_, rfl, validCursor_of _ _ hl (Int.ofNat_nonneg _) (le_refl _), rfl, ?_⟩
    have hk : (s.cursorY - 1).toNat < s.lines.length := by omega
    have hsucc := bufferSize_take_succ s.lines (s.cursorY - 1).toNat hk
    have hidx : (s.cursorY - 1).toNat + 1 = s.cursorY.toNat := by omega
    rw [hidx] at hsucc
    have hx00 : s.cursorX.toNat = 0 := by omega
    simp only [cursorOffset, hsucc, hx00, Int.toNat_ofNat]
    omega

theorem prevWordInner_valid : ∀ (fuel : Nat) (s : TextEditor), ValidCursor s →
    s.cursorX < (fuel : Int) →
    ∃ s2, prevWordInner fuel s = some s2 ∧ ValidCursor s2 ∧ s2.lines = s.lines
  | 0, s, hv, hf => by
    have := hv.2.2.1
    omega
  | fuel + 1, s, hv, hf => by
    obtain ⟨c, hc, hcx⟩ := prevWordCond_valid hv
    simp only [prevWordInner, hc, Option.bind_eq_bind, Option.some_bind]
    cases c with
    | false => exact ⟨s, by simp, hv, rfl⟩
    | true =>
      have hx := hcx rfl
      obtain ⟨line, hline, _, hx1⟩ := hv.line
      have hml : moveLeft s = some { s with cursorX := s.cursorX - 1 } := by
        simp only [moveLeft, if_pos hx]
      have hv2 : ValidCursor { s with cursorX := s.cursorX - 1 } :=
        validCursor_of _ line hline (by simp only; omega) (by simp only; omega)
      obtain ⟨s2, h2, hv3, hl3⟩ := prevWordInner_valid fuel _ hv2 (by
        simp only
        push_cast at hf
        omega)
      refine ⟨s2, ?_, hv3, hl3⟩
      simp only [if_true, hml, Option.some_bind]
      exact h2

theorem prevWordOuter_valid : ∀ (fuel : Nat) (s : TextEditor), ValidCursor s →
    cursorOffset s < fuel →
    ∃ s2, prevWordOuter fuel s = some s2 ∧ ValidCursor s2 ∧ s2.lines = s.lines
  | 0, s, _, hf => absurd hf (Nat.not_lt_zero _)
  | fuel + 1, s, hv, hf => by
    unfold prevWordOuter
    by_cases hpos : s.cursorY > 0 ∨ s.cursorX > 0
    · rw [if_pos hpos]
      obtain ⟨s1, h1, hv1, hl1, hoff⟩ := moveLeft_offset hv hpos
      obtain ⟨c, hc, _⟩ := prevWordCond_valid hv1
      simp only [h1, hc, Option.bind_eq_bind, Option.some_bind]
      cases c with
      | true =>
        obtain ⟨s2, h2, hv2, hl2⟩ := prevWordInner_valid (fuel + 1) s1 hv1 (by
          have hx := hv1.2.2.1
          have : s1.cursorX.toNat ≤ cursorOffset s1 := Nat.le_add_right _ _
          push_cast
          omega)
        exact ⟨s2, by simpa using h2, hv2, hl2.trans hl1⟩
      | false =>
        obtain ⟨s2, h2, hv2, hl2⟩ := prevWordOuter_valid fuel s1 hv1 (by omega)
        exact ⟨s2, by simpa using h2, hv2, hl2.trans hl1⟩
    · rw [if_neg hpos]
      exact ⟨s, rfl, hv, rfl⟩

theorem moveToPreviousWord_valid {s : TextEditor} (hv : ValidCursor s) :
    ∃ s2, moveToPreviousWord s = some s2 ∧ ValidCursor s2 ∧ s2.lines = s.lines := by
  unfold moveToPreviousWord
  apply prevWordOuter_valid _ s hv
  have := bufferSize_take_le s.lines s.cursorY.toNat
  simp only [cursorOffset]
  omega

theorem scanRowForward_found (cur mat : Char) : ∀ (cs : List Char) (x d x2 : Int),
    scanRowForward cur mat cs x d = RowScan.found x2 → x ≤ x2 ∧ x2 < x + (cs.length : Int)
  | [], _, _, _, h => by simp [scanRowForward] at h
  | c :: cs, x, d, x2, h => by
    simp only [scanRowForward] at h
    split_ifs at h
    all_goals first
      | (cases h
         simp only [List.length_cons]
         omega)
      | (have hrec := scanRowForward_found cur mat cs _ _ _ h
         simp only [List.length_cons]
         omega)

theorem scanRowBackward_found (cur mat : Char) : ∀ (cs : List Char) (x d x2 : Int),
    scanRowBackward cur mat cs x d = RowScan.found x2 → x - (cs.length : Int) < x2 ∧ x2 ≤ x
  | [], _, _, _, h => by simp [scanRowBackward] at h
  | c :: cs, x, d, x2, h => by
    simp only [scanRowBackward] at h
    split_ifs at h
    all_goals first
      | (cases h
         simp only [List.length_cons]
         omega)
      | (have hrec := scanRowBackward_found cur mat cs _ _ _ h
         simp only [List.length_cons]
         omega)

theorem scanForward_found (cur mat : Char) (lines : List Line) : ∀ (ls : List Line) (y d y2 x2 : Int),
    (∀ (j : Nat) (l : Line), ls[j]? = some l → vecAt lines (y + j) = some l) →
    scanForward cur mat ls y d = some (y2, x2) →
    ∃ line, vecAt lines y2 = some line ∧ 0 ≤ x2 ∧ x2 < (line.length : Int)
  | [], _, _, _, _, _, h => by simp [scanForward] at h
  | l :: ls, y, d, y2, x2, hls, h => by
    simp only [scanForward] at h
    split at h
    · rename_i x hrow
      have hb := scanRowForward_found cur mat l 0 d x hrow
      cases h
      refine ⟨l, ?_, by omega, by omega⟩
      have := hls 0 l (by simp)
      simpa using this
    · exact scanForward_found cur mat lines ls (y + 1) _ y2 x2 (fun j l2 hj => by
        have := hls (j + 1) l2 (by simpa using hj)
        rw [← this]
        congr 1
        push_cast
        ring) h

theorem scanBackward_found (cur mat : Char) (lines : List Line) : ∀ (ls : List Line) (y d y2 x2 : Int),
    (∀ (j : Nat) (l : Line), ls[j]? = some l → vecAt lines (y - j) = some l) →
    scanBackward cur mat ls y d = some (y2, x2) →
    ∃ line, vecAt lines y2 = some line ∧ 0 ≤ x2 ∧ x2 < (line.length : Int)
  | [], _, _, _, _, _, h => by simp [scanBackward] at h
  | l :: ls, y, d, y2, x2, hls, h => by
    simp only [scanBackward] at h
    split at h
    · rename_i x hrow
      have hb := scanRowBackward_found cur mat l.reverse _ d x hrow
      rw [List.length_reverse] at hb
      cases h
      refine ⟨l, ?_, by omega, by omega⟩
      have := hls 0 l (by simp)
      simpa using this
    · exact scanBackward_found cur mat lines ls (y - 1) _ y2 x2 (fun j l2 hj => by
        have := hls (j + 1) l2 (by simpa using hj)
        rw [← this]
        congr 1
        push_cast
        ring) h

theorem vecAt_eq_getElem? {α : Type} (v : List α) (i : Int) (h : 0 ≤ i) : vecAt v i = v[i.toNat]? := by
  simp only [vecAt, if_pos h]

theorem jumpToMatchingBracket_valid {s : TextEditor} (hv : ValidCursor s) :
    ∃ s2, jumpToMatchingBracket s = some s2 ∧ ValidCursor s2 ∧ s2.lines = s.lines := by
  obtain ⟨line, hline, hx0, hx1⟩ := hv.line
  have hy0 := hv.1
  have hy1 := hv.2.1
  simp only [jumpToMatchingBracket, hline, strAt_of_bounds line s.cursorX hx0 hx1,
    Option.bind_eq_bind, Option.some_bind]
  split
  · exact ⟨s, rfl, hv, rfl⟩
  · rename_i mat fwd _
    cases fwd with
    | true =>
      simp only [if_true]
      split
      · rename_i x hrow
        have hb := scanRowForward_found _ _ _ _ _ _ hrow
        rw [List.length_drop] at hb
        exact ⟨_, rfl, validCursor_of _ line hline (by simp only; omega) (by simp only; omega), rfl⟩
      · split
        · rename_i y x hscan
          obtain ⟨l2, hl2, h0, h1⟩ := scanForward_found _ _ s.lines _ _ _ _ _ (fun j l hj => by
            rw [List.getElem?_drop] at hj
            rw [vecAt_eq_getElem? _ _ (by omega), ← hj]
            congr 1
            omega) hscan
          exact ⟨_, rfl, validCursor_of _ l2 hl2 h0 (le_of_lt h1), rfl⟩
        · exact ⟨s, rfl, hv, rfl⟩
    | false =>
      simp only [Bool.false_eq_true, if_false]
      split
      · rename_i x hrow
        have hb := scanRowBackward_found _ _ _ _ _ _ hrow
        rw [List.length_reverse, List.length_take] at hb
        exact ⟨_, rfl, validCursor_of _ line hline (by simp only; omega) (by simp only; omega), rfl⟩
      · split
        · rename_i y x hscan
          obtain ⟨l2, hl2, h0, h1⟩ := scanBackward_found _ _ s.lines _ _ _ _ _ (fun j l hj => by
            have hj2 : j < (s.lines.take s.cursorY.toNat).reverse.length := by
              by_contra hc
              rw [List.getElem?_eq_none (Nat.le_of_not_lt hc)] at hj
              exact Option.noConfusion hj
            rw [List.length_reverse] at hj2
            rw [List.getElem?_reverse hj2] at hj
            rw [List.length_take] at hj hj2
            rw [List.getElem?_take_of_lt (by omega)] at hj
            rw [vecAt_eq_getElem? _ _ (by omega), ← hj]
            congr 1
            omega) hscan
          exact ⟨_, rfl, validCursor_of _ l2 hl2 h0 (le_of_lt h1), rfl⟩
        · exact ⟨s, rfl, hv, rfl⟩

theorem Motion.apply_valid (m : Motion) {s : TextEditor} (hv : ValidCursor s) :
    ∃ s2, m.apply s = some s2 ∧ ValidCursor s2 ∧ s2.lines = s.lines := by
  cases m with
  | h => exact moveLeft_valid hv
  | l => exact moveRight_valid hv
  | j => exact moveDown_valid hv
  | k => exact moveUp_valid hv
  | lineStart => exact ⟨_, rfl, moveToLineStart_valid hv, rfl⟩
  | lineEnd => exact moveToLineEnd_valid hv
  | w => exact moveToNextWord_valid hv
  | b => exact moveToPreviousWord_valid hv
  | gg => exact ⟨_, rfl, moveToDocumentStart_valid hv, rfl⟩
  | G => exact moveToDocumentEnd_valid hv
  | percent => exact jumpToMatchingBracket_valid hv

theorem applyMotions_valid : ∀ (ms : List Motion) (s : TextEditor), ValidCursor s →
    ∃ s2, applyMotions ms s = some s2 ∧ ValidCursor s2 ∧ s2.lines = s.lines
  | [], s, hv => ⟨s, rfl, hv, rfl⟩
  | m :: ms, s, hv => by
    obtain ⟨s1, h1, hv1, hl1⟩ := m.apply_valid hv
    obtain ⟨s2, h2, hv2, hl2⟩ := applyMotions_valid ms s1 hv1
    refine ⟨s2, ?_, hv2, hl2.trans hl1⟩
    simp only [applyMotions, h1, Option.some_bind]
    exact h2

/-- C6. From a cursor within the bounds `0 ≤ row < lineCount`,
`0 ≤ column ≤ length of lines[row]`, each of the motions `h l j k 0 $ w b gg G %`
returns, and returns a cursor within the same bounds; so does every sequence
of motions. -/
theorem C6_motions_keep_cursor_in_bounds (s : TextEditor) (hv : ValidCursor s) :
    (∀ m : Motion, ∃ s2, m.apply s = some s2 ∧ ValidCursor s2) ∧
    (∀ ms : List Motion, ∃ s2, applyMotions ms s = some s2 ∧ ValidCursor s2) := by
  constructor
  · intro m
    obtain ⟨s2, h, hv2, _⟩ := m.apply_valid hv
    exact ⟨s2, h, hv2⟩
  · intro ms
    obtain ⟨s2, h, hv2, _⟩ := applyMotions_valid ms s hv
    exact ⟨s2, h, hv2⟩

/-- C6 witness: the theorem at a two-line session with the cursor on a bracket. -/
theorem C6_witness :
    ValidCursor sessionOnBracket ∧
    ((∀ m : Motion, ∃ s2, m.apply sessionOnBracket = some s2 ∧ ValidCursor s2) ∧
      (∀ ms : List Motion, ∃ s2, applyMotions ms sessionOnBracket = some s2 ∧ ValidCursor s2)) :=
  ⟨by decide, C6_motions_keep_cursor_in_bounds sessionOnBracket (by decide)⟩

/-! ## Undo and redo (C2, C3) -/

/-- C3 witness: `undo`, then `x` on a character, on a one-line session. -/
theorem C3_witness :
    undo sessionAfterX = some sessionUndone ∧ Edit.x.saves sessionUndone ∧
      Edit.x.apply sessionUndone = some sessionAfterX ∧
      (sessionAfterX.redoStack = [] ∧ redo sessionAfterX = some sessionAfterX) :=
  ⟨by decide, by decide, by decide,
   C3_fresh_edit_invalidates_redo Edit.x sessionAfterX sessionUndone sessionAfterX
     (by decide) (by decide) (by decide)⟩

/-! ## Buffer and cursor after a deletion (C4, C5, C7) -/

/-- C4 counterexample: `dd` on the one-line buffer `["abc"]` leaves `["abc"]`, not `[""]`. -/
theorem C4_counterexample :
    ∃ s2, deleteText (freshSession [] (some "abc\n")) = some s2 ∧
      (freshSession [] (some "abc\n")).mode = EditorMode.NORMAL ∧
      (freshSession [] (some "abc\n")).lines = [['a', 'b', 'c']] ∧
      s2.lines = [['a', 'b', 'c']] ∧ s2.lines ≠ [[]] :=
  ⟨_, rfl, rfl, rfl, rfl, by decide⟩

/-- C4 (amended). In Normal mode on a one-line buffer, `deleteText` (`dd`)
returns a buffer with exactly one line, and that line is the original one,
unchanged; the clipboard is left empty and the cursor where it was. -/
theorem C4_dd_on_single_line_keeps_the_line (s : TextEditor) (l : Line)
    (hmode : s.mode = EditorMode.NORMAL) (hl : s.lines = [l]) :
    ∃ s2, deleteText s = some s2 ∧ s2.lines = [l] ∧ s2.clipboardLines = [] ∧
      s2.cursorY = s.cursorY ∧ s2.cursorX = s.cursorX ∧ s2.mode = EditorMode.NORMAL := by
  have e : deleteText s = some { s with
      undoStack := s.lines :: s.undoStack, redoStack := [], clipboardLines := [],
      clipboardType := EditorMode.NORMAL, mode := EditorMode.NORMAL } := by
    simp [deleteText, saveCurrentStateForUndo, hmode, hl]
  exact ⟨_, e, hl, rfl, rfl, rfl, rfl⟩

/-- C4 witness: the amended statement at the one-line buffer `["abc"]`. -/
theorem C4_witness :
    ((freshSession [] (some "abc\n")).mode = EditorMode.NORMAL ∧
      (freshSession [] (some "abc\n")).lines = [['a', 'b', 'c']]) ∧
    ∃ s2, deleteText (freshSession [] (some "abc\n")) = some s2 ∧ s2.lines = [['a', 'b', 'c']] ∧
      s2.clipboardLines = [] ∧
      s2.cursorY = (freshSession [] (some "abc\n")).cursorY ∧
      s2.cursorX = (freshSession [] (some "abc\n")).cursorX ∧ s2.mode = EditorMode.NORMAL :=
  ⟨⟨rfl, rfl⟩, C4_dd_on_single_line_keeps_the_line _ _ rfl rfl⟩

/-- C5 (failing input). From the two-line buffer `["a", "b"]` as loaded by the
constructor, the keys `V j d` select both rows in line-visual mode and delete
them: the buffer is left with zero lines and the cursor row is `-1`. -/
theorem C5_line_visual_delete_of_all_rows_empties_buffer :
    ∃ s2, run 3 (freshSession [key 'V', key 'j', key 'd'] (some "a\nb\n")) = Outcome.ok s2 ∧
      (freshSession [key 'V', key 'j', key 'd'] (some "a\nb\n")).lines = [['a'], ['b']] ∧
      s2.lines = [] ∧ s2.lines.length = 0 ∧ s2.cursorY = -1 :=
  ⟨_, rfl, rfl, rfl, rfl, rfl⟩

/-- C7 (failing input). From the buffer `["abcdef", "a"]`, `$` puts the cursor
at column 6 of row 0 and `dd` removes that row: the cursor is then at column 6
of the one-character line `"a"`, outside the bounds of the resulting buffer, and
typing a character in Insert mode from there makes `insert` throw. -/
theorem C7_dd_leaves_column_past_line_end :
    ∃ s2, run 2 (freshSession [key '$', key 'd', key 'd'] (some "abcdef\na\n")) = Outcome.ok s2 ∧
      s2.lines = [['a']] ∧ s2.cursorY = 0 ∧ s2.cursorX = 6 ∧ ¬ ValidCursor s2 ∧
      run 4 (freshSession [key '$', key 'd', key 'd', key 'i', key 'z'] (some "abcdef\na\n")) =
        Outcome.fault :=
  ⟨_, rfl, rfl, rfl, rfl, by decide, by decide⟩

/-! ## Bracket matching on the sample line (C10) -/

/-- C10. On the one-line buffer `"foo(bar(baz))"` with the cursor at column 3,
`jumpToMatchingBracket` moves the cursor to column 12 of the same row, and from
column 12 it moves the cursor back to column 3; nothing else changes. -/
theorem C10_bracket_match_example (s0 : TextEditor) :
    jumpToMatchingBracket
        { s0 with lines := ["foo(bar(baz))".toList], cursorY := 0, cursorX := 3 } =
      some { s0 with lines := ["foo(bar(baz))".toList], cursorY := 0, cursorX := 12 } ∧
    jumpToMatchingBracket
        { s0 with lines := ["foo(bar(baz))".toList], cursorY := 0, cursorX := 12 } =
      some { s0 with lines := ["foo(bar(baz))".toList], cursorY := 0, cursorX := 3 } :=
  ⟨rfl, rfl⟩

/-! ## Key events in Normal mode -/

theorem step_cons (s : TextEditor) (k : Int) (ks : List Int) (hp : s.pending = k :: ks) :
    step s = dispatch k { s with pending := ks } := by
  simp only [step, getch, hp]

theorem repeatCommand_one (ch : Int) (s : TextEditor) :
    repeatCommand ch 1 s = normalCommand ch s := by
  simp only [repeatCommand]
  cases normalCommand ch s <;> rfl

theorem handleNormalModeInput_single (ch : Int) (s : TextEditor) (hd : isdigit ch = false)
    (hrc : s.repeatCount = 0) : handleNormalModeInput ch s = normalCommand ch s := by
  have hs : ({ s with repeatCount := 0 } : TextEditor) = s := by
    cases s
    simp only at hrc
    subst hrc
    rfl
  simp only [handleNormalModeInput, hd, hrc, Bool.false_eq_true, if_false, hs]
  exact repeatCommand_one ch s

theorem chord_match (k : Int) (action : TextEditor → Option TextEditor) (s : TextEditor)
    (ks : List Int) (hp : s.pending = k :: ks) :
    chord k action s = Outcome.ofOption (action { s with pending := ks }) := by
  simp only [chord, getch, hp, if_true]

/-! ## Yank and paste -/

theorem yankText_normal (s : TextEditor) (row : Line) (hmode : s.mode = EditorMode.NORMAL)
    (hrow : vecAt s.lines s.cursorY = some row) :
    yankText s = some { s with undoStack := s.lines :: s.undoStack, redoStack := [],
                               clipboardLines := [row], clipboardType := EditorMode.NORMAL,
                               mode := EditorMode.NORMAL } := by
  simp [yankText, saveCurrentStateForUndo, hmode, hrow]

theorem yankText_line_single (s : TextEditor) (row : Line)
    (hmode : s.mode = EditorMode.VISUAL_LINE) (hanchor : s.visualStartY = s.cursorY)
    (hrow : vecAt s.lines s.cursorY = some row) :
    yankText s = some { s with undoStack := s.lines :: s.undoStack, redoStack := [],
                               clipboardLines := [row], clipboardType := EditorMode.VISUAL_LINE,
                               mode := EditorMode.NORMAL } := by
  simp [yankText, saveCurrentStateForUndo, hmode, hanchor, yankLineLoop, hrow]

theorem pasteText_lines (s : TextEditor) (c : Line) (cs : List Line)
    (htype : s.clipboardType = EditorMode.VISUAL_LINE) (hclip : s.clipboardLines = c :: cs)
    (hy0 : 0 ≤ s.cursorY + 1) (hy1 : s.cursorY + 1 ≤ (s.lines.length : Int)) :
    pasteText s = some { s with
      undoStack := s.lines :: s.undoStack, redoStack := [],
      lines := s.lines.take (s.cursorY + 1).toNat ++ (c :: cs) ++ s.lines.drop (s.cursorY + 1).toNat,
      cursorY := s.cursorY + ((c :: cs).length : Int), cursorX := 0 } := by
  simp [pasteText, saveCurrentStateForUndo, htype, hclip, vecInsertRange, hy0, hy1]

theorem pasteText_inline (s : TextEditor) (c : Line) (cs : List Line) (row : Line)
    (htype : s.clipboardType = EditorMode.NORMAL) (hclip : s.clipboardLines = c :: cs)
    (hrow : vecAt s.lines s.cursorY = some row)
    (hx0 : 0 ≤ s.cursorX) (hx1 : s.cursorX ≤ (row.length : Int)) :
    pasteText s = some { s with
      undoStack := s.lines :: s.undoStack, redoStack := [],
      lines := s.lines.set s.cursorY.toNat (row.take s.cursorX.toNat ++ c ++ row.drop s.cursorX.toNat),
      cursorX := s.cursorX + (c.length : Int) } := by
  have hb := vecAt_some_bounds hrow
  simp [pasteText, saveCurrentStateForUndo, htype, hclip, hrow, strInsert, hx0, hx1, vecSet, hb.1,
    hb.2]

theorem run_succ_ok (n : Nat) (s s1 : TextEditor) (h : step s = Outcome.ok s1) :
    run (n + 1) s = run n s1 := by
  simp only [run, h]

theorem normal_key (ch : Int) (s : TextEditor) (ks : List Int) (hp : s.pending = ch :: ks)
    (hmode : s.mode = EditorMode.NORMAL) (hd : isdigit ch = false) (hrc : s.repeatCount = 0) :
    step s = normalCommand ch { s with pending := ks } := by
  rw [step_cons s ch ks hp]
  simp only [dispatch, hmode]
  exact handleNormalModeInput_single ch _ hd hrc

theorem visual_key (ch : Int) (s : TextEditor) (ks : List Int) (hp : s.pending = ch :: ks)
    (hmode : s.mode = EditorMode.VISUAL ∨ s.mode = EditorMode.VISUAL_LINE ∨
      s.mode = EditorMode.VISUAL_BLOCK) :
    step s = Outcome.ofOption (handleVisualModeInput ch { s with pending := ks }) := by
  rw [step_cons s ch ks hp]
  rcases hmode with h | h | h <;> simp only [dispatch, h]

/-- Key `V` in Normal mode: line-visual mode, anchored at the cursor. -/
theorem step_V (s : TextEditor) (ks : List Int) (hp : s.pending = key 'V' :: ks)
    (hmode : s.mode = EditorMode.NORMAL) (hrc : s.repeatCount = 0) :
    ∃ s1, step s = Outcome.ok s1 ∧ s1.lines = s.lines ∧ s1.cursorY = s.cursorY ∧
      s1.cursorX = s.cursorX ∧ s1.mode = EditorMode.VISUAL_LINE ∧ s1.visualStartY = s.cursorY ∧
      s1.pending = ks ∧ s1.repeatCount = 0 := by
  rw [normal_key _ s ks hp hmode (by decide) hrc]
  exact ⟨_, rfl, rfl, rfl, rfl, rfl, rfl, rfl, hrc⟩

/-- Key `y` in line-visual mode with the anchor on the cursor row. -/
theorem step_y_line (s : TextEditor) (ks : List Int) (row : Line)
    (hp : s.pending = key 'y' :: ks) (hmode : s.mode = EditorMode.VISUAL_LINE)
    (hanchor : s.visualStartY = s.cursorY) (hrow : vecAt s.lines s.cursorY = some row) :
    ∃ s1, step s = Outcome.ok s1 ∧ s1.lines = s.lines ∧ s1.cursorY = s.cursorY ∧
      s1.cursorX = s.cursorX ∧ s1.mode = EditorMode.NORMAL ∧ s1.clipboardLines = [row] ∧
      s1.clipboardType = EditorMode.VISUAL_LINE ∧ s1.pending = ks ∧
      s1.repeatCount = s.repeatCount := by
  rw [visual_key _ s ks hp (Or.inr (Or.inl hmode))]
  have e : handleVisualModeInput (key 'y') { s with pending := ks } =
      yankText { s with pending := ks } := rfl
  rw [e, yankText_line_single { s with pending := ks } row hmode hanchor hrow]
  exact ⟨_, rfl, rfl, rfl, rfl, rfl, rfl, rfl, rfl, rfl⟩

/-- Chord `yy` in Normal mode. -/
theorem step_yy (s : TextEditor) (ks : List Int) (row : Line)
    (hp : s.pending = key 'y' :: key 'y' :: ks) (hmode : s.mode = EditorMode.NORMAL)
    (hrc : s.repeatCount = 0) (hrow : vecAt s.lines s.cursorY = some row) :
    ∃ s1, step s = Outcome.ok s1 ∧ s1.lines = s.lines ∧ s1.cursorY = s.cursorY ∧
      s1.cursorX = s.cursorX ∧ s1.mode = EditorMode.NORMAL ∧ s1.clipboardLines = [row] ∧
      s1.clipboardType = EditorMode.NORMAL ∧ s1.pending = ks ∧ s1.repeatCount = 0 := by
  rw [normal_key _ s _ hp hmode (by decide) hrc]
  have e : normalCommand (key 'y') { s with pending := key 'y' :: ks } =
      chord (key 'y') yankText { s with pending := key 'y' :: ks } := rfl
  rw [e, chord_match (key 'y') yankText { s with pending := key 'y' :: ks } ks rfl,
    yankText_normal { s with pending := ks } row hmode hrow]
  exact ⟨_, rfl, rfl, rfl, rfl, rfl, rfl, rfl, rfl, hrc⟩

/-- Key `p` in Normal mode with a whole-line clipboard. -/
theorem step_p_lines (s : TextEditor) (ks : List Int) (c : Line) (cs : List Line)
    (hp : s.pending = key 'p' :: ks) (hmode : s.mode = EditorMode.NORMAL)
    (hrc : s.repeatCount = 0) (htype : s.clipboardType = EditorMode.VISUAL_LINE)
    (hclip : s.clipboardLines = c :: cs)
    (hy0 : 0 ≤ s.cursorY + 1) (hy1 : s.cursorY + 1 ≤ (s.lines.length : Int)) :
    ∃ s1, step s = Outcome.ok s1 ∧
      s1.lines = s.lines.take (s.cursorY + 1).toNat ++ (c :: cs) ++ s.lines.drop (s.cursorY + 1).toNat ∧
      s1.cursorY = s.cursorY + ((c :: cs).length : Int) ∧ s1.cursorX = 0 ∧
      s1.mode = EditorMode.NORMAL ∧ s1.pending = ks ∧ s1.repeatCount = 0 := by
  rw [normal_key _ s ks hp hmode (by decide) hrc]
  have e : normalCommand (key 'p') { s with pending := ks } =
      Outcome.ofOption (pasteText { s with pending := ks }) := rfl
  rw [e, pasteText_lines { s with pending := ks } c cs htype hclip hy0 hy1]
  exact ⟨_, rfl, rfl, rfl, rfl, hmode, rfl, hrc⟩

/-- Key `p` in Normal mode with the clipboard of a `yy`. -/
theorem step_p_inline (s : TextEditor) (ks : List Int) (c : Line) (cs : List Line) (row : Line)
    (hp : s.pending = key 'p' :: ks) (hmode : s.mode = EditorMode.NORMAL)
    (hrc : s.repeatCount = 0) (htype : s.clipboardType = EditorMode.NORMAL)
    (hclip : s.clipboardLines = c :: cs) (hrow : vecAt s.lines s.cursorY = some row)
    (hx0 : 0 ≤ s.cursorX) (hx1 : s.cursorX ≤ (row.length : Int)) :
    ∃ s1, step s = Outcome.ok s1 ∧
      s1.lines = s.lines.set s.cursorY.toNat
        (row.take s.cursorX.toNat ++ c ++ row.drop s.cursorX.toNat) ∧
      s1.cursorY = s.cursorY ∧ s1.cursorX = s.cursorX + (c.length : Int) ∧
      s1.mode = EditorMode.NORMAL ∧ s1.pending = ks ∧ s1.repeatCount = 0 := by
  rw [normal_key _ s ks hp hmode (by decide) hrc]
  have e : normalCommand (key 'p') { s with pending := ks } =
      Outcome.ofOption (pasteText { s with pending := ks }) := rfl
  rw [e, pasteText_inline { s with pending := ks } c cs row htype hclip hrow hx0 hx1]
  exact ⟨_, rfl, rfl, rfl, rfl, hmode, rfl, hrc⟩

/-! ## Whole-line yank followed by paste (C8) -/

/-- C8 counterexample: `yy` then `p` on the one-line buffer `["abc"]` gives `["abcabc"]`, still one line. -/
theorem C8_counterexample :
    ∃ s2, run 2 (freshSession [key 'y', key 'y', key 'p'] (some "abc\n")) = Outcome.ok s2 ∧
      (freshSession [key 'y', key 'y', key 'p'] (some "abc\n")).lines = [['a', 'b', 'c']] ∧
      s2.lines = [['a', 'b', 'c', 'a', 'b', 'c']] ∧
      s2.lines.length ≠ (freshSession [key 'y', key 'y', key 'p'] (some "abc\n")).lines.length + 1 :=
  ⟨_, rfl, rfl, rfl, by decide⟩

/-- C8 (amended). From Normal mode with no pending count and a valid cursor on
row `r`: the line-visual whole-line yank `V y` followed immediately by `p`
yields a buffer with one more line, where rows `0..r` are unchanged, row `r+1`
is the content of the original row `r`, and the rows after it follow in their
order, the cursor going to column 0 of the new row; the Normal-mode `yy`
followed immediately by `p` instead inserts the content of row `r` into row
`r` at the cursor column and leaves the number of lines unchanged. -/
theorem C8_whole_line_yank_then_paste (s : TextEditor) (rest : List Int) (hv : ValidCursor s)
    (hmode : s.mode = EditorMode.NORMAL) (hrc : s.repeatCount = 0) :
    (s.pending = key 'V' :: key 'y' :: key 'p' :: rest →
      ∃ s2, run 3 s = Outcome.ok s2 ∧
        s2.lines = s.lines.take (s.cursorY.toNat + 1) ++ [s.lines.getD s.cursorY.toNat []] ++
          s.lines.drop (s.cursorY.toNat + 1) ∧
        s2.lines.length = s.lines.length + 1 ∧
        s2.cursorY = s.cursorY + 1 ∧ s2.cursorX = 0) ∧
    (s.pending = key 'y' :: key 'y' :: key 'p' :: rest →
      ∃ s2, run 2 s = Outcome.ok s2 ∧
        s2.lines = s.lines.set s.cursorY.toNat
          ((s.lines.getD s.cursorY.toNat []).take s.cursorX.toNat ++
            s.lines.getD s.cursorY.toNat [] ++
            (s.lines.getD s.cursorY.toNat []).drop s.cursorX.toNat) ∧
        s2.lines.length = s.lines.length ∧
        s2.cursorY = s.cursorY ∧
        s2.cursorX = s.cursorX + ((s.lines.getD s.cursorY.toNat []).length : Int)) := by
  obtain ⟨row, hrow, hx0, hx1⟩ := hv.line
  have hg := vecAt_getD [] hrow
  have hb := vecAt_some_bounds hrow
  rw [hg]
  constructor
  · intro hp
    obtain ⟨s1, e1, hl1, hy1, _, hm1, ha1, hp1, hr1⟩ := step_V s _ hp hmode hrc
    obtain ⟨s2, e2, hl2, hy2, _, hm2, hc2, ht2, hp2, hr2⟩ :=
      step_y_line s1 _ row hp1 hm1 (ha1.trans hy1.symm) (by rw [hl1, hy1]; exact hrow)
    obtain ⟨s3, e3, hl3, hy3, hx3, _, _, _⟩ :=
      step_p_lines s2 rest row [] hp2 hm2 (hr2.trans hr1) ht2 hc2
        (by rw [hy2, hy1]; omega) (by rw [hy2, hy1, hl2, hl1]; omega)
    rw [run_succ_ok _ _ _ e1, run_succ_ok _ _ _ e2, run_succ_ok _ _ _ e3]
    have hidx : (s.cursorY + 1).toNat = s.cursorY.toNat + 1 := by omega
    rw [hy2, hy1, hl2, hl1, hidx] at hl3
    refine ⟨s3, rfl, hl3, ?_, ?_, hx3⟩
    · rw [hl3]
      simp only [List.length_append, List.length_take, List.length_drop, List.length_cons,
        List.length_nil]
      omega
    · rw [hy3, hy2, hy1]
      simp
  · intro hp
    obtain ⟨s1, e1, hl1, hy1, hx1b, hm1, hc1, ht1, hp1, hr1⟩ := step_yy s _ row hp hmode hrc hrow
    obtain ⟨s2, e2, hl2, hy2, hx2, _, _, _⟩ :=
      step_p_inline s1 rest row [] row hp1 hm1 hr1 ht1 hc1 (by rw [hl1, hy1]; exact hrow)
        (by rw [hx1b]; exact hx0) (by rw [hx1b]; exact hx1)
    rw [run_succ_ok _ _ _ e1, run_succ_ok _ _ _ e2]
    rw [hl1, hy1, hx1b] at hl2
    refine ⟨s2, rfl, hl2, ?_, hy2.trans hy1, ?_⟩
    · rw [hl2, List.length_set]
    · rw [hx2, hx1b]

/-- C8 witness: `V y p` on the buffer `["abc", "de"]` gives `["abc", "abc", "de"]`. -/
theorem C8_witness :
    (ValidCursor (freshSession [key 'V', key 'y', key 'p'] (some "abc\nde\n")) ∧
      (freshSession [key 'V', key 'y', key 'p'] (some "abc\nde\n")).mode = EditorMode.NORMAL ∧
      (freshSession [key 'V', key 'y', key 'p'] (some "abc\nde\n")).repeatCount = 0 ∧
      (freshSession [key 'V', key 'y', key 'p'] (some "abc\nde\n")).lines =
        [['a', 'b', 'c'], ['d', 'e']]) ∧
    ∃ s2, run 3 (freshSession [key 'V', key 'y', key 'p'] (some "abc\nde\n")) = Outcome.ok s2 ∧
      s2.lines = [['a', 'b', 'c'], ['a', 'b', 'c'], ['d', 'e']] ∧
      s2.lines.length = 2 + 1 ∧ s2.cursorY = 0 + 1 ∧ s2.cursorX = 0 :=
  ⟨⟨by decide, rfl, rfl, rfl⟩,
   (C8_whole_line_yank_then_paste (freshSession [key 'V', key 'y', key 'p'] (some "abc\nde\n")) []
      (by decide) rfl rfl).1 rfl⟩

/-! ## Repeat counts -/

theorem wrapInt_of_range (z : Int) (h0 : 0 ≤ z) (h1 : z ≤ 2147483647) : wrapInt z = z := by
  unfold wrapInt
  omega

theorem key_zero : key '0' = 48 := by decide

theorem foldl_digits_ge : ∀ (ds : List Nat) (a : Int), 0 ≤ a →
    a ≤ ds.foldl (fun (acc : Int) (d : Nat) => acc * 10 + (d : Int)) a
  | [], a, _ => le_refl a
  | d :: ds, a, h => by
    have h2 : 0 ≤ a * 10 + (d : Int) := by omega
    have := foldl_digits_ge ds (a * 10 + (d : Int)) h2
    simp only [List.foldl_cons]
    omega

theorem foldr_digits_eq : ∀ (ds : List Nat),
    ds.foldr (fun (d : Nat) (acc : Int) => acc * 10 + (d : Int)) 0 = ((Nat.ofDigits 10 ds : Nat) : Int)
  | [] => by simp
  | d :: ds => by
    simp only [List.foldr_cons, foldr_digits_eq ds, Nat.ofDigits_cons]
    push_cast
    ring

theorem foldl_digits_of_nat (n : Nat) :
    (Nat.digits 10 n).reverse.foldl (fun (acc : Int) (d : Nat) => acc * 10 + (d : Int)) 0 = (n : Int) := by
  rw [List.foldl_reverse, foldr_digits_eq, Nat.ofDigits_digits]

theorem step_digit (s : TextEditor) (d : Nat) (ks : List Int) (hd : d < 10)
    (hp : s.pending = (key '0' + (d : Int)) :: ks) (hmode : s.mode = EditorMode.NORMAL)
    (h0 : 0 ≤ s.repeatCount) (h1 : s.repeatCount * 10 + (d : Int) ≤ 2147483647) :
    step s = Outcome.ok { s with pending := ks, repeatCount := s.repeatCount * 10 + (d : Int) } := by
  rw [step_cons s _ ks hp]
  have hdig : isdigit (key '0' + (d : Int)) = true := by
    simp only [isdigit, key_zero, decide_eq_true_eq]
    omega
  simp only [dispatch, hmode, handleNormalModeInput, hdig, if_true, add_sub_cancel_left]
  rw [wrapInt_of_range _ (by omega) h1]

theorem run_digits : ∀ (ds : List Nat) (s : TextEditor) (ks : List Int) (k : Nat),
    (∀ d ∈ ds, d < 10) → s.mode = EditorMode.NORMAL →
    s.pending = ds.map (fun (d : Nat) => key '0' + (d : Int)) ++ ks → 0 ≤ s.repeatCount →
    ds.foldl (fun (acc : Int) (d : Nat) => acc * 10 + (d : Int)) s.repeatCount ≤ 2147483647 →
    run (ds.length + k) s =
      run k { s with pending := ks,
                     repeatCount := ds.foldl (fun (acc : Int) (d : Nat) => acc * 10 + (d : Int))
                       s.repeatCount }
  | [], s, ks, k, _, _, hp, _, _ => by
    have hs : ({ s with pending := ks, repeatCount := s.repeatCount } : TextEditor) = s := by
      cases s
      simp only [List.map_nil, List.nil_append] at hp
      subst hp
      rfl
    simp only [List.length_nil, Nat.zero_add, List.foldl_nil, hs]
  | d :: ds, s, ks, k, hd, hmode, hp, h0, h1 => by
    have hd1 : d < 10 := hd d (List.mem_cons_self _ _)
    have hstep0 : 0 ≤ s.repeatCount * 10 + (d : Int) := by omega
    have hmono := foldl_digits_ge ds (s.repeatCount * 10 + (d : Int)) hstep0
    simp only [List.foldl_cons] at h1
    have e := step_digit s d (ds.map (fun (d : Nat) => key '0' + (d : Int)) ++ ks) hd1
      (by simpa using hp) hmode h0 (by omega)
    have hlen : (d :: ds).length + k = (ds.length + k) + 1 := by
      simp only [List.length_cons]
      omega
    rw [hlen, run_succ_ok _ _ _ e]
    exact run_digits ds _ ks k (fun x hx => hd x (List.mem_cons_of_mem _ hx)) hmode rfl hstep0 h1

/-! ## Repeated `x` -/

theorem set_of_getElem? {α : Type} : ∀ (v : List α) (i : Nat) (a : α), v[i]? = some a →
    v.set i a = v
  | [], _, _, h => by simp at h
  | x :: xs, 0, a, h => by
    simp only [List.getElem?_cons_zero, Option.some.injEq] at h
    rw [List.set_cons_zero, h]
  | x :: xs, i + 1, a, h => by
    simp only [List.getElem?_cons_succ] at h
    rw [List.set_cons_succ, set_of_getElem? xs i a h]

theorem vecAt_set_self {α : Type} {v : List α} {i : Int} {a : α} (h : vecAt v i = some a) :
    v.set i.toNat a = v := by
  have hb := vecAt_some_bounds h
  rw [vecAt_eq_getElem? v i hb.1] at h
  exact set_of_getElem? v _ a h

theorem vecAt_set {α : Type} {v : List α} {i : Int} (a : α) (h0 : 0 ≤ i)
    (h1 : i < (v.length : Int)) : vecAt (v.set i.toNat a) i = some a := by
  rw [vecAt_eq_getElem? _ i h0]
  have hlt : i.toNat < v.length := by omega
  simp [List.getElem?_set, hlt]

theorem removeChars_zero (row : Line) (c : Nat) : removeChars row c 0 = row := by
  simp [removeChars]

theorem removeChars_succ (row : Line) (c k : Nat) (hc : c ≤ row.length) :
    removeChars (removeChars row c 1) c k = removeChars row c (k + 1) := by
  have hlen : (row.take c).length = c := by
    rw [List.length_take]
    omega
  simp only [removeChars]
  rw [List.take_left' hlen, List.drop_append_eq_append_drop, hlen]
  have hd : List.drop (c + k) (List.take c row) = [] := by
    apply List.drop_eq_nil_of_le
    omega
  rw [hd, List.nil_append, List.drop_drop]
  congr 2
  omega

theorem removeChars_length (row : Line) (c : Nat) (hc : c < row.length) :
    (removeChars row c 1).length = row.length - 1 := by
  simp only [removeChars, List.length_append, List.length_take, List.length_drop]
  omega

theorem repeat_x : ∀ (n : Nat) (s : TextEditor) (row : Line),
    vecAt s.lines s.cursorY = some row → 0 ≤ s.cursorX → s.cursorX ≤ (row.length : Int) →
    ∃ s2, repeatCommand (key 'x') n s = Outcome.ok s2 ∧
      s2.lines = s.lines.set s.cursorY.toNat
        (removeChars row s.cursorX.toNat (min n (row.length - s.cursorX.toNat))) ∧
      s2.cursorX = s.cursorX ∧ s2.cursorY = s.cursorY ∧ s2.repeatCount = s.repeatCount ∧
      s2.pending = s.pending ∧ s2.mode = s.mode
  | 0, s, row, hrow, _, _ => by
    refine ⟨s, rfl, ?_, rfl, rfl, rfl, rfl, rfl⟩
    rw [Nat.zero_min, removeChars_zero, vecAt_set_self hrow]
  | n + 1, s, row, hrow, hx0, hx1 => by
    have hb := vecAt_some_bounds hrow
    have e : normalCommand (key 'x') s = Outcome.ofOption (deleteChar s) := rfl
    simp only [repeatCommand, e]
    by_cases hx : s.cursorX < (row.length : Int)
    · have hd : deleteChar s = some { s with
          undoStack := s.lines :: s.undoStack, redoStack := [],
          lines := s.lines.set s.cursorY.toNat (removeChars row s.cursorX.toNat 1) } := by
        simp [deleteChar, hrow, hx, saveCurrentStateForUndo, strErase, hx0, hx1, vecSet, hb.1, hb.2,
          removeChars]
      have hc : s.cursorX.toNat < row.length := by omega
      obtain ⟨s2, h2, hl2, hx2, hy2, hr2, hp2, hm2⟩ := repeat_x n
        { s with
          undoStack := s.lines :: s.undoStack, redoStack := [],
          lines := s.lines.set s.cursorY.toNat (removeChars row s.cursorX.toNat 1) }
        (removeChars row s.cursorX.toNat 1) (vecAt_set _ hb.1 hb.2) hx0 (by
          have hle : s.cursorX ≤ ((removeChars row s.cursorX.toNat 1).length : Int) := by
            rw [removeChars_length row _ hc]
            omega
          exact hle)
      refine ⟨s2, ?_, ?_, hx2, hy2, hr2, hp2, hm2⟩
      · simp only [hd, Outcome.ofOption]
        exact h2
      · rw [hl2]
        simp only [List.set_set]
        rw [removeChars_succ row _ _ (le_of_lt hc), removeChars_length row _ hc]
        congr 2
        omega
    · have hd : deleteChar s = some s := by
        simp [deleteChar, hrow, hx]
      obtain ⟨s2, h2, hl2, hrest⟩ := repeat_x n s row hrow hx0 hx1
      refine ⟨s2, ?_, ?_, hrest⟩
      · simp only [hd, Outcome.ofOption]
        exact h2
      · rw [hl2]
        have hz : row.length - s.cursorX.toNat = 0 := by omega
        rw [hz, Nat.min_zero, Nat.min_zero]

/-! ## A count followed by `x` (C9) -/

theorem digitKeys_overflow :
    digitKeys 2147483648 = [50, 49, 52, 55, 52, 56, 51, 54, 52, 56] := by
  simp [digitKeys, key]

/-- C9 counterexample: typing `2147483648` and then `x` on the line `"ab"` removes one character, not two, because the count wraps to a negative `int`. -/
theorem C9_counterexample :
    ∃ s2, run ((digitKeys 2147483648).length + 1)
        (freshSession (digitKeys 2147483648 ++ [key 'x']) (some "ab\n")) = Outcome.ok s2 ∧
      (freshSession (digitKeys 2147483648 ++ [key 'x']) (some "ab\n")).lines = [['a', 'b']] ∧
      s2.lines = [['b']] ∧
      s2.lines ≠ [removeChars ['a', 'b'] 0 (min 2147483648 (2 - 0))] := by
  rw [digitKeys_overflow]
  exact ⟨_, rfl, rfl, rfl, by decide⟩

/-- C9 (amended). For every count `n` with `1 ≤ n ≤ 2147483647` (the range of
`int`), in Normal mode with no pending count and a valid cursor at column `c`
of a line `s`, typing the decimal digits of `n` and then `x` removes exactly
`min(n, |s| - c)` characters of `s` starting at column `c`, leaves the cursor
and every other line unchanged, and resets `repeatCount` to 0. -/
theorem C9_count_then_x (n : Nat) (hn1 : 1 ≤ n) (hn2 : n ≤ 2147483647) (s : TextEditor)
    (rest : List Int) (hmode : s.mode = EditorMode.NORMAL) (hrc : s.repeatCount = 0)
    (hv : ValidCursor s) (hp : s.pending = digitKeys n ++ key 'x' :: rest) :
    ∃ s2, run ((digitKeys n).length + 1) s = Outcome.ok s2 ∧
      s2.lines = s.lines.set s.cursorY.toNat
        (removeChars (s.lines.getD s.cursorY.toNat []) s.cursorX.toNat
          (min n ((s.lines.getD s.cursorY.toNat []).length - s.cursorX.toNat))) ∧
      s2.cursorX = s.cursorX ∧ s2.cursorY = s.cursorY ∧ s2.repeatCount = 0 := by
  obtain ⟨row, hrow, hx0, hx1⟩ := hv.line
  rw [vecAt_getD [] hrow]
  have hfold := foldl_digits_of_nat n
  have hdig := run_digits (Nat.digits 10 n).reverse s (key 'x' :: rest) 1
    (fun d hd => Nat.digits_lt_base (by decide) (List.mem_reverse.mp hd)) hmode
    (by rw [hp]; rfl)
    (by rw [hrc])
    (by rw [hrc, hfold]; omega)
  have hlen : (digitKeys n).length = (Nat.digits 10 n).reverse.length := by
    unfold digitKeys
    exact List.length_map _ _
  rw [hlen, hdig, hrc, hfold]
  have hstep : step { s with pending := key 'x' :: rest, repeatCount := (n : Int) } =
      repeatCommand (key 'x') n { s with pending := rest, repeatCount := 0 } := by
    rw [step_cons _ (key 'x') rest rfl]
    have hx : isdigit (key 'x') = false := by decide
    have hmax : (max 1 (n : Int)).toNat = n := by omega
    simp only [dispatch, hmode, handleNormalModeInput, hx, Bool.false_eq_true, if_false, hmax]
  obtain ⟨s2, h2, hl2, hx2, hy2, hr2, _, _⟩ :=
    repeat_x n { s with pending := rest, repeatCount := 0 } row hrow hx0 hx1
  refine ⟨s2, ?_, hl2, hx2, hy2, hr2⟩
  simp only [run, hstep, h2]

/-- C9 witness: `3` then `x` on `"abcdef"` at column 0 leaves `"def"`. -/
theorem C9_witness :
    (1 ≤ 3 ∧ 3 ≤ 2147483647 ∧
      (freshSession [key '3', key 'x'] (some "abcdef\n")).mode = EditorMode.NORMAL ∧
      (freshSession [key '3', key 'x'] (some "abcdef\n")).repeatCount = 0 ∧
      ValidCursor (freshSession [key '3', key 'x'] (some "abcdef\n")) ∧
      (freshSession [key '3', key 'x'] (some "abcdef\n")).pending = digitKeys 3 ++ key 'x' :: [] ∧
      (freshSession [key '3', key 'x'] (some "abcdef\n")).lines = ["abcdef".toList]) ∧
    ∃ s2, run ((digitKeys 3).length + 1) (freshSession [key '3', key 'x'] (some "abcdef\n")) =
        Outcome.ok s2 ∧
      s2.lines = ["def".toList] ∧ s2.cursorX = 0 ∧ s2.cursorY = 0 ∧ s2.repeatCount = 0 :=
  ⟨⟨by decide, by decide, rfl, rfl, by decide, by simp [digitKeys, key, freshSession, TextEditor.new, loadFile],
    rfl⟩,
   C9_count_then_x 3 (by decide) (by decide) _ [] rfl rfl (by decide)
     (by simp [digitKeys, key, freshSession, TextEditor.new, loadFile])⟩

/-! ## Undo right after an operator -/

theorem deleteText_undoStack {s s2 : TextEditor} (h : deleteText s = some s2) :
    s2.undoStack = s.lines :: s.undoStack := by
  simp only [deleteText, saveCurrentStateForUndo, Option.bind_eq_bind, Option.pure_def] at h
  split_ifs at h
  · simp only [Option.bind_eq_some] at h
    obtain ⟨⟨l, c⟩, _, h⟩ := h
    cases h
    rfl
  · simp only [Option.bind_eq_some] at h
    obtain ⟨⟨l, c⟩, _, h⟩ := h
    cases h
    rfl
  · simp only [Option.bind_eq_some] at h
    obtain ⟨_, _, _, _, h⟩ := h
    cases h
    rfl
  · cases h
    rfl

theorem yankText_undoStack {s s2 : TextEditor} (h : yankText s = some s2) :
    s2.undoStack = s.lines :: s.undoStack := by
  simp only [yankText, saveCurrentStateForUndo, Option.bind_eq_bind, Option.pure_def] at h
  split_ifs at h
  all_goals
    simp only [Option.bind_eq_some] at h
    obtain ⟨_, _, h⟩ := h
    cases h
    rfl

theorem changeText_undoStack {s s2 : TextEditor} (h : changeText s = some s2) :
    s2.undoStack = s.lines :: s.undoStack := by
  simp only [changeText, Option.bind_eq_bind, Option.bind_eq_some] at h
  obtain ⟨s1, h1, h⟩ := h
  cases h
  have h2 := deleteText_undoStack h1
  exact h2

theorem pasteText_undoStack {s s2 : TextEditor} (h : pasteText s = some s2) :
    s2.undoStack = s.lines :: s.undoStack := by
  simp only [pasteText, saveCurrentStateForUndo, Option.bind_eq_bind, Option.pure_def] at h
  split at h
  · cases h
    rfl
  · split_ifs at h
    · simp only [Option.bind_eq_some] at h
      obtain ⟨_, _, h⟩ := h
      cases h
      rfl
    · simp only [Option.bind_eq_some] at h
      obtain ⟨_, _, h⟩ := h
      cases h
      rfl
    · simp only [Option.bind_eq_some] at h
      obtain ⟨_, _, _, _, _, _, h⟩ := h
      cases h
      rfl

theorem indentLine_undoStack {s s2 : TextEditor} (h : indentLine s = some s2) :
    s2.undoStack = s.lines :: s.undoStack := by
  simp only [indentLine, saveCurrentStateForUndo, Option.bind_eq_bind, Option.bind_eq_some] at h
  obtain ⟨_, _, _, _, _, _, h⟩ := h
  cases h
  rfl

theorem unindentLine_undoStack {s s2 : TextEditor} (h : unindentLine s = some s2) :
    s2.undoStack = s.lines :: s.undoStack := by
  simp only [unindentLine, saveCurrentStateForUndo, Option.bind_eq_bind, Option.bind_eq_some] at h
  obtain ⟨_, _, h⟩ := h
  split_ifs at h
  · simp only [Option.bind_eq_bind, Option.bind_eq_some] at h
    obtain ⟨_, _, _, _, h⟩ := h
    cases h
    rfl
  · cases h
    rfl

theorem deleteChar_undoStack {s s2 : TextEditor} (h : deleteChar s = some s2)
    (hx : s.cursorX < (((vecAt s.lines s.cursorY).getD []).length : Int)) :
    s2.undoStack = s.lines :: s.undoStack := by
  simp only [deleteChar, saveCurrentStateForUndo, Option.bind_eq_bind, Option.bind_eq_some] at h
  obtain ⟨line, hline, h⟩ := h
  rw [hline] at hx
  simp only [Option.getD_some] at hx
  rw [if_pos hx] at h
  simp only [Option.bind_eq_bind, Option.bind_eq_some] at h
  obtain ⟨_, _, _, _, h⟩ := h
  cases h
  rfl

theorem insertChar_undoStack {ch : Int} {s s2 : TextEditor} (h : insertChar ch s = some s2) :
    s2.undoStack = s.undoStack := by
  simp only [insertChar, Option.bind_eq_bind, Option.bind_eq_some] at h
  obtain ⟨_, _, _, _, _, _, h⟩ := h
  cases h
  rfl

theorem newLine_undoStack {s s2 : TextEditor} (h : newLine s = some s2) :
    s2.undoStack = s.undoStack := by
  simp only [newLine, Option.bind_eq_bind, Option.bind_eq_some] at h
  obtain ⟨_, _, _, _, _, _, _, _, _, _, h⟩ := h
  cases h
  rfl


theorem deleteLineLoop_start : ∀ (n : Nat) (y : Int) (lines clip : List Line)
    (r : List Line × List Line), deleteLineLoop (n + 1) y lines clip = some r → 0 ≤ y - (n : Int)
  | 0, y, lines, clip, r, h => by
    simp only [deleteLineLoop, Option.bind_eq_bind, Option.bind_eq_some] at h
    obtain ⟨row, hrow, _⟩ := h
    have := (vecAt_some_bounds hrow).1
    simpa using this
  | n + 1, y, lines, clip, r, h => by
    rw [deleteLineLoop] at h
    simp only [Option.bind_eq_bind, Option.bind_eq_some] at h
    obtain ⟨row, _, lines1, _, h⟩ := h
    have := deleteLineLoop_start n (y - 1) lines1 (row :: clip) r h
    push_cast
    omega

theorem deleteText_row {s s1 : TextEditor} (hv : ValidCursor s) (h : deleteText s = some s1)
    (hne : s1.lines ≠ []) : 0 ≤ s1.cursorY := by
  have hy0 := hv.1
  simp only [deleteText, saveCurrentStateForUndo, Option.bind_eq_bind, Option.pure_def] at h
  split_ifs at h
  · simp only [Option.bind_eq_some] at h
    obtain ⟨⟨l, c⟩, _, h⟩ := h
    cases h
    exact hy0
  · simp only [Option.bind_eq_some] at h
    obtain ⟨⟨l, c⟩, hloop, h⟩ := h
    cases h
    have hl : 0 < l.length := List.length_pos.mpr hne
    obtain ⟨k, hk⟩ : ∃ k, (max s.visualStartY s.cursorY - min s.visualStartY s.cursorY + 1).toNat =
        k + 1 := ⟨(max s.visualStartY s.cursorY - min s.visualStartY s.cursorY).toNat, by omega⟩
    rw [hk] at hloop
    have hstart := deleteLineLoop_start k _ _ _ _ hloop
    have hcur : 0 ≤ min (min s.visualStartY s.cursorY) ((l.length : Int) - 1) := by omega
    exact hcur
  · simp only [Option.bind_eq_some] at h
    obtain ⟨_, _, l, _, h⟩ := h
    cases h
    have hl : 0 < l.length := List.length_pos.mpr hne
    have hcur : 0 ≤ (if s.cursorY ≥ (l.length : Int) then (l.length : Int) - 1 else s.cursorY) := by
      split_ifs <;> omega
    exact hcur
  · cases h
    exact hy0

theorem pasteText_row {s s1 : TextEditor} (hv : ValidCursor s) (h : pasteText s = some s1) :
    0 ≤ s1.cursorY := by
  have hy0 := hv.1
  simp only [pasteText, saveCurrentStateForUndo, Option.bind_eq_bind, Option.pure_def] at h
  split at h
  · cases h
    exact hy0
  · split_ifs at h
    · simp only [Option.bind_eq_some] at h
      obtain ⟨_, _, h⟩ := h
      cases h
      have hcur : 0 ≤ s.cursorY + ((s.clipboardLines.length : Nat) : Int) := by omega
      exact hcur
    · simp only [Option.bind_eq_some] at h
      obtain ⟨_, _, h⟩ := h
      cases h
      exact hy0
    · simp only [Option.bind_eq_some] at h
      obtain ⟨_, _, _, _, _, _, h⟩ := h
      cases h
      exact hy0

theorem Edit.apply_row (e : Edit) {s s1 : TextEditor} (hv : ValidCursor s)
    (he : e ≠ Edit.visualIndent ∧ e ≠ Edit.visualUnindent) (h : e.apply s = some s1)
    (hne : s1.lines ≠ []) : 0 ≤ s1.cursorY := by
  have hy0 := hv.1
  cases e with
  | x =>
    simp only [Edit.apply, deleteChar, saveCurrentStateForUndo, Option.bind_eq_bind,
      Option.bind_eq_some] at h
    obtain ⟨_, _, h⟩ := h
    split_ifs at h
    · simp only [Option.bind_eq_bind, Option.bind_eq_some] at h
      obtain ⟨_, _, _, _, h⟩ := h
      cases h
      exact hy0
    · cases h
      exact hy0
  | yank =>
    simp only [Edit.apply, yankText, saveCurrentStateForUndo, Option.bind_eq_bind,
      Option.pure_def] at h
    split_ifs at h
    all_goals
      simp only [Option.bind_eq_some] at h
      obtain ⟨_, _, h⟩ := h
      cases h
      exact hy0
  | delete => exact deleteText_row hv h hne
  | change =>
    simp only [Edit.apply, changeText, Option.bind_eq_bind, Option.bind_eq_some] at h
    obtain ⟨s0, h0, h⟩ := h
    cases h
    have hcur := deleteText_row hv h0 hne
    exact hcur
  | paste => exact pasteText_row hv h
  | indent =>
    simp only [Edit.apply, indentLine, saveCurrentStateForUndo, Option.bind_eq_bind,
      Option.bind_eq_some] at h
    obtain ⟨_, _, _, _, _, _, h⟩ := h
    cases h
    exact hy0
  | unindent =>
    simp only [Edit.apply, unindentLine, saveCurrentStateForUndo, Option.bind_eq_bind,
      Option.bind_eq_some] at h
    obtain ⟨_, _, h⟩ := h
    split_ifs at h
    · simp only [Option.bind_eq_bind, Option.bind_eq_some] at h
      obtain ⟨_, _, _, _, h⟩ := h
      cases h
      exact hy0
    · cases h
      exact hy0
  | visualIndent => exact absurd rfl he.1
  | visualUnindent => exact absurd rfl he.2
  | typed ch =>
    simp only [Edit.apply, insertChar, saveCurrentStateForUndo, Option.bind_eq_bind,
      Option.bind_eq_some] at h
    obtain ⟨_, _, _, _, _, _, h⟩ := h
    cases h
    exact hy0
  | newline =>
    simp only [Edit.apply, newLine, saveCurrentStateForUndo, Option.bind_eq_bind,
      Option.bind_eq_some] at h
    obtain ⟨_, _, _, _, _, _, _, _, _, _, h⟩ := h
    cases h
    have hcur : 0 ≤ s.cursorY + 1 := by omega
    exact hcur

/-- From a valid cursor, every operator that records exactly one snapshot
(all of `Edit` but the visual `>` and `<`, which record one per row) and
returns a non-empty buffer is undone by the `undo` right after it, whose
cursor clamp then reads a row in range. -/
theorem undo_restores_after_edit (e : Edit) (s s1 : TextEditor) (hv : ValidCursor s)
    (he : e ≠ Edit.visualIndent ∧ e ≠ Edit.visualUnindent) (hsave : e.saves s)
    (h : e.apply s = some s1) (hne : s1.lines ≠ []) :
    ∃ s2, undo s1 = some s2 ∧ s2.lines = s.lines := by
  have hstack : s1.undoStack = s.lines :: s.undoStack := by
    cases e with
    | x => exact deleteChar_undoStack h hsave
    | yank => exact yankText_undoStack h
    | delete => exact deleteText_undoStack h
    | change => exact changeText_undoStack h
    | paste => exact pasteText_undoStack h
    | indent => exact indentLine_undoStack h
    | unindent => exact unindentLine_undoStack h
    | visualIndent => exact absurd rfl he.1
    | visualUnindent => exact absurd rfl he.2
    | typed ch => exact (insertChar_undoStack h).trans rfl
    | newline => exact (newLine_undoStack h).trans rfl
  have hrow := e.apply_row hv he h hne
  have hy0 := hv.1
  have hy1 := hv.2.1
  have hl := vecAt_of_bounds s.lines (min s1.cursorY ((s.lines.length : Int) - 1)) []
    (by omega) (by omega)
  exact ⟨_, undo_cons s1 s.lines s.undoStack _ hstack hl, rfl⟩

/-! ## Command mode (C12, C18) -/

/-- C12 (failing input). On a backing file that holds `"old"` and cannot be
opened for writing, `x` followed by `:wq` and Enter ends the session
(`exit(0)`) with the buffer `["ld"]` and the file still holding `"old"`: the
buffer is not written, and the session terminates all the same, so the edit is
lost. -/
theorem C12_wq_exits_without_writing_on_unwritable_file :
    ∃ s2, run 5 (readOnlySession [key 'x', key ':', key 'w', key 'q', KEY_NEWLINE]) =
        Outcome.exited s2 ∧
      s2.commandBuffer = ['w', 'q'] ∧ s2.lines = [['l', 'd']] ∧
      s2.disk = some ['o', 'l', 'd', '\n'] ∧ s2.disk ≠ some (fileText s2.lines) :=
  ⟨_, rfl, rfl, rfl, rfl, by decide⟩

/-- Submitting the command buffer `"wq"` ends the session (`exit(0)`) after
`saveFile`: when the backing file can be opened for writing its content
becomes every buffer line followed by one newline, and when it cannot be
opened nothing is written; in both cases nothing else changes. Submitting
`"q!"` ends the session with the state, the file included, exactly as it was. -/
theorem wq_and_force_quit (s : TextEditor) :
    (s.commandBuffer = ['w', 'q'] →
      handleCommandModeInput KEY_NEWLINE s = Outcome.exited (saveFile s) ∧
      (s.writable = true → saveFile s = { s with disk := some (fileText s.lines) }) ∧
      (s.writable = false → saveFile s = s)) ∧
    (s.commandBuffer = ['q', '!'] →
      handleCommandModeInput KEY_NEWLINE s = Outcome.exited s) := by
  refine ⟨fun h => ⟨?_, ?_, ?_⟩, fun h => ?_⟩
  · simp [handleCommandModeInput, h]
  · intro hw
    simp [saveFile, hw]
  · intro hw
    simp [saveFile, hw]
  · simp [handleCommandModeInput, h]

/-- On a writable file holding `"old"`, `x` then `:wq` and Enter ends the
session with the file holding `"ld"`. -/
theorem wq_on_writable_file :
    ∃ s1 s2, run 4 (freshSession [key 'x', key ':', key 'w', key 'q', KEY_NEWLINE] (some "old\n")) =
        Outcome.ok s1 ∧
      s1.commandBuffer = ['w', 'q'] ∧ s1.writable = true ∧ s1.lines = [['l', 'd']] ∧
      handleCommandModeInput KEY_NEWLINE s1 = Outcome.exited s2 ∧
      s2.disk = some ['l', 'd', '\n'] :=
  ⟨_, _, rfl, rfl, rfl, rfl,
    ((wq_and_force_quit _).1 rfl).1, rfl⟩

/-- C18. Submitting a command buffer other than `"q"`, `"wq"`, `"w"`, `"q!"`,
`"u"` and `"redo"` returns with the mode set to Normal and the command buffer
cleared; every other part of the state (buffer lines, cursor, clipboard, both
history stacks) is unchanged. -/
theorem C18_unknown_command_is_ignored (s : TextEditor)
    (hq : s.commandBuffer ≠ ['q']) (hwq : s.commandBuffer ≠ ['w', 'q'])
    (hw : s.commandBuffer ≠ ['w']) (hfq : s.commandBuffer ≠ ['q', '!'])
    (hu : s.commandBuffer ≠ ['u']) (hredo : s.commandBuffer ≠ ['r', 'e', 'd', 'o']) :
    handleCommandModeInput KEY_NEWLINE s =
      Outcome.ok { s with mode := EditorMode.NORMAL, commandBuffer := [] } := by
  simp [handleCommandModeInput, hq, hwq, hw, hfq, hu, hredo, finishCommand]

/-- C18 witness: the command `"foo"`. -/
theorem C18_witness :
    handleCommandModeInput KEY_NEWLINE
        { sessionAfterX with mode := EditorMode.COMMAND, commandBuffer := ['f', 'o', 'o'] } =
      Outcome.ok { sessionAfterX with mode := EditorMode.NORMAL, commandBuffer := [] } :=
  C18_unknown_command_is_ignored
    { sessionAfterX with mode := EditorMode.COMMAND, commandBuffer := ['f', 'o', 'o'] }
    (by decide) (by decide) (by decide) (by decide) (by decide) (by decide)

/-! ## The key `0` (C13) -/

/-- C13 (failing input). In Normal mode the key `0` is consumed by the digit
test in every state: only `repeatCount` is updated (to `repeatCount * 10`) and
the handler returns at once. On the buffer `["abc"]` with the cursor moved to
column 2 and no count pending, `0` leaves the cursor at column 2. -/
theorem C13_zero_is_always_taken_as_a_digit :
    (∀ s : TextEditor, handleNormalModeInput (key '0') s =
        Outcome.ok { s with repeatCount := wrapInt (s.repeatCount * 10 + (key '0' - key '0')) }) ∧
    ∃ s0 s1, run 2 (freshSession [key 'l', key 'l', key '0'] (some "abc\n")) = Outcome.ok s0 ∧
      s0.mode = EditorMode.NORMAL ∧ s0.repeatCount = 0 ∧ s0.cursorX = 2 ∧
      s0.pending = [key '0'] ∧ step s0 = Outcome.ok s1 ∧
      s1.cursorX = 2 ∧ s1.cursorX ≠ 0 ∧ s1.repeatCount = 0 :=
  ⟨fun _ => rfl, _, _, rfl, rfl, rfl, rfl, rfl, rfl, rfl, by decide, rfl⟩

/-! ## Paste of an empty clipboard, yank (C14, C15) -/

/-- C14 counterexample: `pasteText` with an empty clipboard, on a session
with empty undo stack and one entry on the redo stack, pushes a snapshot on the
undo stack and empties the redo stack. -/
theorem C14_counterexample :
    ∃ s2, pasteText sessionUndone = some s2 ∧ sessionUndone.clipboardLines = [] ∧
      sessionUndone.undoStack = [] ∧ sessionUndone.redoStack = [[['b']]] ∧
      s2.undoStack = [[['a', 'b']]] ∧ s2.redoStack = [] ∧
      s2.undoStack ≠ sessionUndone.undoStack ∧ s2.redoStack ≠ sessionUndone.redoStack :=
  ⟨_, rfl, rfl, rfl, rfl, rfl, rfl, by decide, by decide⟩

/-- C14 (amended). With an empty clipboard `pasteText` leaves the buffer and
the cursor (and the clipboard and the mode) unchanged, but it has already
recorded its snapshot: the current buffer is pushed on the undo stack and the
redo stack is emptied, so the paste does consume a history slot. -/
theorem C14_paste_of_empty_clipboard (s : TextEditor) (hclip : s.clipboardLines = []) :
    pasteText s = some { s with undoStack := s.lines :: s.undoStack, redoStack := [] } := by
  simp [pasteText, saveCurrentStateForUndo, hclip]

/-- C14 witness: the amended statement on the session of the counterexample. -/
theorem C14_witness :
    sessionUndone.clipboardLines = [] ∧
    pasteText sessionUndone =
      some { sessionUndone with undoStack := sessionUndone.lines :: sessionUndone.undoStack,
                                redoStack := [] } :=
  ⟨rfl, C14_paste_of_empty_clipboard sessionUndone rfl⟩

/-- C15. Whenever `yankText` returns (Normal `yy`, character-visual `y`,
line-visual `y`), the buffer lines and the cursor are unchanged, the buffer
has been pushed on the undo stack, the redo stack is empty and the mode is
Normal. -/
theorem C15_yank_frame (s s2 : TextEditor) (h : yankText s = some s2) :
    s2.lines = s.lines ∧ s2.cursorX = s.cursorX ∧ s2.cursorY = s.cursorY ∧
      s2.undoStack = s.lines :: s.undoStack ∧ s2.redoStack = [] ∧
      s2.mode = EditorMode.NORMAL := by
  simp only [yankText, saveCurrentStateForUndo, Option.bind_eq_bind, Option.pure_def] at h
  split_ifs at h
  all_goals
    simp only [Option.bind_eq_some] at h
    obtain ⟨_, _, h⟩ := h
    cases h
    exact ⟨rfl, rfl, rfl, rfl, rfl, rfl⟩

/-- C15 witness: the character-visual yank of columns 1 to 3 of `"foo (bar)"`
returns with the clipboard `["oo "]` and the frame the theorem states. -/
theorem C15_witness :
    ∃ s2, yankText { sessionOnBracket with mode := EditorMode.VISUAL, visualStartX := 1, cursorX := 3 } =
        some s2 ∧
      s2.clipboardLines = [['o', 'o', ' ']] ∧
      (s2.lines = sessionOnBracket.lines ∧ s2.cursorX = 3 ∧ s2.cursorY = sessionOnBracket.cursorY ∧
        s2.undoStack = sessionOnBracket.lines :: sessionOnBracket.undoStack ∧ s2.redoStack = [] ∧
        s2.mode = EditorMode.NORMAL) :=
  ⟨_, rfl, rfl,
   C15_yank_frame
     { sessionOnBracket with mode := EditorMode.VISUAL, visualStartX := 1, cursorX := 3 } _ rfl⟩

/-! ## Character-visual yank and delete over a short row (C16) -/

/-- C16 (failing input). On the buffer `["abcdef", "", "abcdef"]` the keys
`l l l v j j $` are handled without failure and leave a character-visual
selection with anchor column 3 and cursor at row 2, column 6; its rows include
the empty row 1, shorter than the left column 3, and both `y` and `d` then fail
in `substr`. -/
theorem C16_visual_yank_and_delete_fail_on_short_row :
    ∃ s0, run 7 (freshSession
        [key 'l', key 'l', key 'l', key 'v', key 'j', key 'j', key '$'] (some "abcdef\n\nabcdef\n")) =
        Outcome.ok s0 ∧
      s0.lines = ["abcdef".toList, [], "abcdef".toList] ∧ s0.mode = EditorMode.VISUAL ∧
      s0.visualStartX = 3 ∧ s0.visualStartY = 0 ∧ s0.cursorX = 6 ∧ s0.cursorY = 2 ∧
      ValidCursor s0 ∧
      handleVisualModeInput (key 'y') s0 = none ∧ handleVisualModeInput (key 'd') s0 = none ∧
      run 8 (freshSession
        [key 'l', key 'l', key 'l', key 'v', key 'j', key 'j', key '$', key 'y']
        (some "abcdef\n\nabcdef\n")) = Outcome.fault :=
  ⟨_, rfl, rfl, rfl, rfl, rfl, rfl, rfl, by decide, rfl, rfl, rfl⟩

/-! ## Viewport (C17) -/

/-- C17 (failing input). On a terminal of 24 rows (22 visible) and the buffer
of 24 lines `"("`, twenty-two empty lines, `")"`, the session starts with offset
0 and cursor (0,0) inside the viewport bounds; `%` jumps to row 23 and leaves
the offset at 0, so the cursor row is outside `[offsetY, offsetY + 22)`. -/
theorem C17_bracket_jump_leaves_viewport :
    ∃ s1, ViewportInvariant (TextEditor.new 24 [key '%'] (some bracketFile) true) ∧
      (TextEditor.new 24 [key '%'] (some bracketFile) true).lines.length = 24 ∧
      run 1 (TextEditor.new 24 [key '%'] (some bracketFile) true) = Outcome.ok s1 ∧
      s1.cursorY = 23 ∧ s1.offsetY = 0 ∧ s1.LINES - 2 = 22 ∧ ¬ ViewportInvariant s1 :=
  ⟨_, by decide, rfl, rfl, rfl, rfl, rfl, by decide⟩

/-! ## Block paste (C11) -/

theorem strResize_length (s : Line) (n : Nat) : (strResize s n).length = n := by
  simp only [strResize, List.length_append, List.length_take, List.length_replicate]
  omega

theorem pasteBlockLoop_frame (pasteX : Int) (hx : 0 ≤ pasteX) :
    ∀ (clip : List Line) (row : Int) (lines : List Line), 0 ≤ row →
    ∃ lines2, pasteBlockLoop pasteX clip row lines = some lines2 ∧
      lines2.length = lines.length ∧
      ∀ i : Nat, ((i : Int) < row ∨ row + (clip.length : Int) ≤ (i : Int)) → lines2[i]? = lines[i]?
  | [], row, lines, _ => ⟨lines, rfl, rfl, fun _ _ => rfl⟩
  | c :: cs, row, lines, hrow => by
    unfold pasteBlockLoop
    by_cases hlt : row < (lines.length : Int)
    · rw [if_pos hlt]
      have hline := vecAt_of_bounds lines row [] hrow hlt
      have hrep : ∀ line1 : Line, pasteX ≤ (line1.length : Int) →
          strReplace line1 pasteX c.length c =
            some (line1.take pasteX.toNat ++ c ++ line1.drop (pasteX.toNat + c.length)) := by
        intro line1 h1
        simp only [strReplace, hx, h1, and_self, if_true]
      have hfit : pasteX ≤
          (((if pasteX + (c.length : Int) > ((lines.getD row.toNat []).length : Int)
            then strResize (lines.getD row.toNat []) (pasteX + (c.length : Int)).toNat
            else lines.getD row.toNat []) : Line).length : Int) := by
        split_ifs with hbig
        · rw [strResize_length]
          omega
        · omega
      have hset : ∀ x : Line, vecSet lines row x = some (lines.set row.toNat x) := by
        intro x
        simp only [vecSet, hrow, hlt, and_self, if_true]
      simp only [hline, Option.bind_eq_bind, Option.some_bind, hrep _ hfit, hset]
      obtain ⟨lines2, h2, hlen2, hrows2⟩ := pasteBlockLoop_frame pasteX hx cs (row + 1)
        (lines.set row.toNat
          ((if pasteX + (c.length : Int) > ((lines.getD row.toNat []).length : Int)
            then strResize (lines.getD row.toNat []) (pasteX + (c.length : Int)).toNat
            else lines.getD row.toNat []).take pasteX.toNat ++ c ++
           (if pasteX + (c.length : Int) > ((lines.getD row.toNat []).length : Int)
            then strResize (lines.getD row.toNat []) (pasteX + (c.length : Int)).toNat
            else lines.getD row.toNat []).drop (pasteX.toNat + c.length)))
        (by omega)
      refine ⟨lines2, h2, ?_, ?_⟩
      · rw [hlen2, List.length_set]
      · intro i hi
        simp only [List.length_cons] at hi
        rw [hrows2 i (by push_cast at hi; omega)]
        apply List.getElem?_set_ne
        push_cast at hi
        omega
    · rw [if_neg hlt]
      exact ⟨lines, rfl, rfl, fun _ _ => rfl⟩

/-- C11. With a block-shaped clipboard (`clipboardType` VISUAL) of `N` rows and
a cursor at row `R ≥ 0` and a column `≥ 0`, `pasteText` returns and the buffer
has as many lines as before, whatever `R + N` is; the rows in front of row `R`
and the rows from `R + N` on are unchanged, and the cursor does not move. -/
theorem C11_block_paste_keeps_line_count (s : TextEditor)
    (htype : s.clipboardType = EditorMode.VISUAL) (hx : 0 ≤ s.cursorX) (hy : 0 ≤ s.cursorY) :
    ∃ s2, pasteText s = some s2 ∧ s2.lines.length = s.lines.length ∧
      (∀ i : Nat, ((i : Int) < s.cursorY ∨ s.cursorY + (s.clipboardLines.length : Int) ≤ (i : Int)) →
        s2.lines[i]? = s.lines[i]?) ∧
      s2.cursorX = s.cursorX ∧ s2.cursorY = s.cursorY := by
  cases hclip : s.clipboardLines with
  | nil =>
    refine ⟨{ s with undoStack := s.lines :: s.undoStack, redoStack := [] }, ?_, rfl,
      fun _ _ => rfl, rfl, rfl⟩
    simp [pasteText, saveCurrentStateForUndo, hclip]
  | cons c cs =>
    obtain ⟨lines2, h2, hlen2, hrows2⟩ := pasteBlockLoop_frame s.cursorX hx (c :: cs) s.cursorY
      s.lines hy
    refine ⟨{ s with undoStack := s.lines :: s.undoStack, redoStack := [], lines := lines2 }, ?_,
      hlen2, hrows2, rfl, rfl⟩
    simp [pasteText, saveCurrentStateForUndo, hclip, htype, h2]

/-- C11 witness: a clipboard of three rows pasted at the last row of a
two-line buffer (`R + N = 4 > 2`). -/
theorem C11_witness :
    ∃ s2, pasteText { sessionOnBracket with
            cursorY := 1, cursorX := 1, clipboardType := EditorMode.VISUAL,
            clipboardLines := [['x', 'y'], ['z'], ['w']] } = some s2 ∧
      s2.lines = ["foo (bar)".toList, " xyaz".toList] ∧
      (s2.lines.length = sessionOnBracket.lines.length ∧
        (∀ i : Nat, ((i : Int) < 1 ∨ (1 : Int) + (3 : Nat) ≤ (i : Int)) →
          s2.lines[i]? = sessionOnBracket.lines[i]?) ∧
        s2.cursorX = 1 ∧ s2.cursorY = 1) := by
  obtain ⟨s2, h, hrest⟩ := C11_block_paste_keeps_line_count
    { sessionOnBracket with
        cursorY := 1, cursorX := 1, clipboardType := EditorMode.VISUAL,
        clipboardLines := [['x', 'y'], ['z'], ['w']] } rfl (by decide) (by decide)
  refine ⟨s2, h, ?_, hrest⟩
  have e : pasteText { sessionOnBracket with
            cursorY := 1, cursorX := 1, clipboardType := EditorMode.VISUAL,
            clipboardLines := [['x', 'y'], ['z'], ['w']] } =
      some { sessionOnBracket with
            cursorY := 1, cursorX := 1, clipboardType := EditorMode.VISUAL,
            clipboardLines := [['x', 'y'], ['z'], ['w']],
            undoStack := [sessionOnBracket.lines],
            lines := ["foo (bar)".toList, " xyaz".toList] } := by decide
  rw [e] at h
  cases h
  rfl

/-! ## Line-visual delete and whole-line paste (C19, C20) -/

theorem vecAt_nat {α : Type} (v : List α) (i : Nat) : vecAt v (i : Int) = v[i]? := by
  simp only [vecAt, Int.ofNat_nonneg, if_true, Int.toNat_ofNat]

theorem vecErase_nat {α : Type} (v : List α) (i : Nat) (h : i < v.length) :
    vecErase v (i : Int) = some (v.eraseIdx i) := by
  have h2 : (i : Int) < (v.length : Int) := by omega
  simp only [vecErase, Int.ofNat_nonneg, h2, and_self, if_true, Int.toNat_ofNat]

theorem take_drop_succ {α : Type} (l : List α) (lo n : Nat) (h : lo + n < l.length) :
    (l.drop lo).take (n + 1) = (l.drop lo).take n ++ [l[lo + n]] := by
  rw [List.take_succ, List.getElem?_drop, List.getElem?_eq_getElem h]
  rfl

/-- The loop of the line-visual delete over the `n` rows `lo .. lo + n - 1`,
started at its last row. -/
theorem deleteLineLoop_eq : ∀ (n lo : Nat) (lines clip : List Line), lo + n ≤ lines.length →
    deleteLineLoop n (((lo + n : Nat) : Int) - 1) lines clip =
      some (lines.take lo ++ lines.drop (lo + n), (lines.drop lo).take n ++ clip)
  | 0, lo, lines, clip, _ => by
    simp [deleteLineLoop]
  | n + 1, lo, lines, clip, h => by
    have hlt : lo + n < lines.length := by omega
    have hy : (((lo + (n + 1) : Nat) : Int) - 1) = ((lo + n : Nat) : Int) := by
      push_cast
      ring
    rw [deleteLineLoop, hy, vecAt_nat, List.getElem?_eq_getElem hlt, vecErase_nat _ _ hlt]
    simp only [Option.bind_eq_bind, Option.some_bind]
    have hlen : lo + n ≤ (lines.eraseIdx (lo + n)).length := by
      rw [List.length_eraseIdx_of_lt hlt]
      omega
    rw [deleteLineLoop_eq n lo (lines.eraseIdx (lo + n)) (lines[lo + n] :: clip) hlen]
    have herase : lines.eraseIdx (lo + n) = lines.take (lo + n) ++ lines.drop (lo + n + 1) :=
      List.eraseIdx_eq_take_drop_succ lines (lo + n)
    have htl : (lines.take (lo + n)).length = lo + n := by
      rw [List.length_take]
      omega
    have h1 : (lines.eraseIdx (lo + n)).take lo = lines.take lo := by
      rw [herase, List.take_append_of_le_length (by omega), List.take_take]
      congr 1
      omega
    have h2 : (lines.eraseIdx (lo + n)).drop (lo + n) = lines.drop (lo + (n + 1)) := by
      rw [herase, List.drop_left' htl]
      rfl
    have h3 : ((lines.eraseIdx (lo + n)).drop lo).take n = (lines.drop lo).take n := by
      rw [herase, List.drop_append_of_le_length (by omega)]
      have hdl : ((lines.take (lo + n)).drop lo).length = n := by
        rw [List.length_drop, htl]
        omega
      rw [List.take_left' hdl, List.drop_take]
      congr 1
      omega
    rw [h1, h2, h3, take_drop_succ lines lo n hlt]
    simp

/-- The loop of the line-visual yank over the `n` rows `lo .. lo + n - 1`. -/
theorem yankLineLoop_eq (lines : List Line) : ∀ (n lo : Nat) (clip : List Line),
    lo + n ≤ lines.length →
    yankLineLoop lines n (lo : Int) clip = some (clip ++ (lines.drop lo).take n)
  | 0, lo, clip, _ => by
    simp [yankLineLoop]
  | n + 1, lo, clip, h => by
    have hlt : lo < lines.length := by omega
    have hnext : ((lo : Int) + 1) = ((lo + 1 : Nat) : Int) := by
      push_cast
      rfl
    rw [yankLineLoop, vecAt_nat, List.getElem?_eq_getElem hlt]
    simp only [Option.bind_eq_bind, Option.some_bind]
    rw [hnext, yankLineLoop_eq lines n (lo + 1) _ (by omega)]
    have hd : lines.drop lo = lines[lo] :: lines.drop (lo + 1) := List.drop_eq_getElem_cons hlt
    rw [hd, List.take_succ_cons]
    simp

theorem pasteText_lines_ne (s : TextEditor) (htype : s.clipboardType = EditorMode.VISUAL_LINE)
    (hne : s.clipboardLines ≠ []) (hy0 : 0 ≤ s.cursorY) (hy1 : s.cursorY < (s.lines.length : Int)) :
    pasteText s = some { s with
      undoStack := s.lines :: s.undoStack, redoStack := [],
      lines := s.lines.take (s.cursorY.toNat + 1) ++ s.clipboardLines ++
        s.lines.drop (s.cursorY.toNat + 1),
      cursorY := s.cursorY + (s.clipboardLines.length : Int), cursorX := 0 } := by
  obtain ⟨c, cs, hclip⟩ := List.exists_cons_of_ne_nil hne
  have hidx : (s.cursorY + 1).toNat = s.cursorY.toNat + 1 := by omega
  rw [pasteText_lines s c cs htype hclip (by omega) (by omega), hidx, ← hclip]

theorem yankText_lines (s : TextEditor) (hmode : s.mode = EditorMode.VISUAL_LINE)
    (ha0 : 0 ≤ s.visualStartY) (ha1 : s.visualStartY < (s.lines.length : Int))
    (hc0 : 0 ≤ s.cursorY) (hc1 : s.cursorY < (s.lines.length : Int)) :
    yankText s = some { s with
      undoStack := s.lines :: s.undoStack, redoStack := [],
      clipboardType := EditorMode.VISUAL_LINE,
      clipboardLines := (s.lines.drop (min s.visualStartY s.cursorY).toNat).take
        ((max s.visualStartY s.cursorY).toNat - (min s.visualStartY s.cursorY).toNat + 1),
      mode := EditorMode.NORMAL } := by
  have hn : (max s.visualStartY s.cursorY - min s.visualStartY s.cursorY + 1).toNat =
      (max s.visualStartY s.cursorY).toNat - (min s.visualStartY s.cursorY).toNat + 1 := by omega
  have hstart : min s.visualStartY s.cursorY =
      (((min s.visualStartY s.cursorY).toNat : Nat) : Int) := by omega
  have hloop := yankLineLoop_eq s.lines
    ((max s.visualStartY s.cursorY).toNat - (min s.visualStartY s.cursorY).toNat + 1)
    (min s.visualStartY s.cursorY).toNat [] (by omega)
  rw [← hstart] at hloop
  simp [yankText, saveCurrentStateForUndo, hmode, hn, hloop]

/-- C19. In line-visual mode with the anchor row and the cursor row inside the
buffer, `rowLo` and `rowHi` their minimum and maximum, `deleteText` returns
with exactly the rows `rowLo..rowHi` removed (the rows before and after keep
their content and order), those rows in order in the clipboard with the
whole-line shape, the cursor at row `min(rowLo, newLineCount - 1)`, column 0,
and the mode Normal; in particular so when the selection does not cover the
whole buffer. -/
theorem C19_line_visual_delete (s : TextEditor) (hmode : s.mode = EditorMode.VISUAL_LINE)
    (ha0 : 0 ≤ s.visualStartY) (ha1 : s.visualStartY < (s.lines.length : Int))
    (hc0 : 0 ≤ s.cursorY) (hc1 : s.cursorY < (s.lines.length : Int)) :
    ∃ s2, deleteText s = some s2 ∧
      s2.lines = s.lines.take (min s.visualStartY s.cursorY).toNat ++
        s.lines.drop ((max s.visualStartY s.cursorY).toNat + 1) ∧
      s2.clipboardLines = (s.lines.drop (min s.visualStartY s.cursorY).toNat).take
        ((max s.visualStartY s.cursorY).toNat - (min s.visualStartY s.cursorY).toNat + 1) ∧
      s2.clipboardType = EditorMode.VISUAL_LINE ∧
      s2.cursorY = min (min s.visualStartY s.cursorY) ((s2.lines.length : Int) - 1) ∧
      s2.cursorX = 0 ∧ s2.mode = EditorMode.NORMAL := by
  have hn : (max s.visualStartY s.cursorY - min s.visualStartY s.cursorY + 1).toNat =
      (max s.visualStartY s.cursorY).toNat - (min s.visualStartY s.cursorY).toNat + 1 := by omega
  have hend : max s.visualStartY s.cursorY =
      ((((min s.visualStartY s.cursorY).toNat +
        ((max s.visualStartY s.cursorY).toNat - (min s.visualStartY s.cursorY).toNat + 1) : Nat)) :
        Int) - 1 := by omega
  have hsum : (min s.visualStartY s.cursorY).toNat +
      ((max s.visualStartY s.cursorY).toNat - (min s.visualStartY s.cursorY).toNat + 1) =
      (max s.visualStartY s.cursorY).toNat + 1 := by omega
  have hloop := deleteLineLoop_eq
    ((max s.visualStartY s.cursorY).toNat - (min s.visualStartY s.cursorY).toNat + 1)
    (min s.visualStartY s.cursorY).toNat s.lines [] (by omega)
  rw [← hend, hsum, List.append_nil] at hloop
  have e : deleteText s = some { s with
      undoStack := s.lines :: s.undoStack, redoStack := [],
      clipboardType := EditorMode.VISUAL_LINE,
      clipboardLines := (s.lines.drop (min s.visualStartY s.cursorY).toNat).take
        ((max s.visualStartY s.cursorY).toNat - (min s.visualStartY s.cursorY).toNat + 1),
      lines := s.lines.take (min s.visualStartY s.cursorY).toNat ++
        s.lines.drop ((max s.visualStartY s.cursorY).toNat + 1),
      cursorY := min (min s.visualStartY s.cursorY)
        (((s.lines.take (min s.visualStartY s.cursorY).toNat ++
          s.lines.drop ((max s.visualStartY s.cursorY).toNat + 1)).length : Int) - 1),
      cursorX := 0, mode := EditorMode.NORMAL } := by
    simp [deleteText, saveCurrentStateForUndo, hmode, hn, hloop]
  exact ⟨_, e, rfl, rfl, rfl, rfl, rfl, rfl⟩

/-- C19 witness: rows 1 and 2 of a four-line buffer, selected from row 2 up
to row 1. -/
theorem C19_witness :
    ∃ s2, deleteText { sessionOnBracket with
            lines := [['a'], ['b'], ['c'], ['d']], mode := EditorMode.VISUAL_LINE,
            visualStartY := 2, cursorY := 1 } = some s2 ∧
      s2.lines = [['a'], ['d']] ∧ s2.clipboardLines = [['b'], ['c']] ∧
      s2.clipboardType = EditorMode.VISUAL_LINE ∧ s2.cursorY = 1 ∧ s2.cursorX = 0 ∧
      s2.mode = EditorMode.NORMAL := by
  obtain ⟨s2, h, hl, hc, ht, hy, hx, hm⟩ := C19_line_visual_delete
    { sessionOnBracket with
        lines := [['a'], ['b'], ['c'], ['d']], mode := EditorMode.VISUAL_LINE,
        visualStartY := 2, cursorY := 1 }
    rfl (by decide) (by decide) (by decide) (by decide)
  have hl2 : s2.lines = [['a'], ['d']] := hl
  refine ⟨s2, h, hl2, hc, ht, ?_, hx, hm⟩
  rw [hy, hl2]
  decide

/-- C20. With a valid cursor row `r`: a non-empty whole-line clipboard
(`clipboardType` VISUAL_LINE) of `n` rows is pasted as
`lines[0..r] ++ clipboard ++ lines[r+1..]`, the line count grows by `n` and the
cursor ends at row `r + n`, column 0; and a line-visual yank of the rows
`rowLo..rowHi` followed by `pasteText` puts a copy of exactly those rows, in
order, right below the cursor row. -/
theorem C20_whole_line_paste (s : TextEditor) (hc0 : 0 ≤ s.cursorY)
    (hc1 : s.cursorY < (s.lines.length : Int)) :
    (s.clipboardType = EditorMode.VISUAL_LINE → s.clipboardLines ≠ [] →
      ∃ s2, pasteText s = some s2 ∧
        s2.lines = s.lines.take (s.cursorY.toNat + 1) ++ s.clipboardLines ++
          s.lines.drop (s.cursorY.toNat + 1) ∧
        s2.lines.length = s.lines.length + s.clipboardLines.length ∧
        s2.cursorY = s.cursorY + (s.clipboardLines.length : Int) ∧ s2.cursorX = 0) ∧
    (s.mode = EditorMode.VISUAL_LINE → 0 ≤ s.visualStartY →
      s.visualStartY < (s.lines.length : Int) →
      ∃ s1 s2, yankText s = some s1 ∧ pasteText s1 = some s2 ∧
        s2.lines = s.lines.take (s.cursorY.toNat + 1) ++
          (s.lines.drop (min s.visualStartY s.cursorY).toNat).take
            ((max s.visualStartY s.cursorY).toNat - (min s.visualStartY s.cursorY).toNat + 1) ++
          s.lines.drop (s.cursorY.toNat + 1) ∧
        s2.cursorY = s.cursorY +
          (((max s.visualStartY s.cursorY).toNat - (min s.visualStartY s.cursorY).toNat + 1 : Nat) :
            Int) ∧
        s2.cursorX = 0) := by
  constructor
  · intro htype hne
    refine ⟨_, pasteText_lines_ne s htype hne hc0 hc1, rfl, ?_, rfl, rfl⟩
    simp only [List.length_append, List.length_take, List.length_drop]
    omega
  · intro hmode ha0 ha1
    have hy := yankText_lines s hmode ha0 ha1 hc0 hc1
    have hlen : ((s.lines.drop (min s.visualStartY s.cursorY).toNat).take
        ((max s.visualStartY s.cursorY).toNat - (min s.visualStartY s.cursorY).toNat + 1)).length =
        (max s.visualStartY s.cursorY).toNat - (min s.visualStartY s.cursorY).toNat + 1 := by
      rw [List.length_take, List.length_drop]
      omega
    have hne : (s.lines.drop (min s.visualStartY s.cursorY).toNat).take
        ((max s.visualStartY s.cursorY).toNat - (min s.visualStartY s.cursorY).toNat + 1) ≠ [] := by
      intro h0
      rw [h0] at hlen
      simp at hlen
    have hp := pasteText_lines_ne
      { s with
        undoStack := s.lines :: s.undoStack, redoStack := [],
        clipboardType := EditorMode.VISUAL_LINE,
        clipboardLines := (s.lines.drop (min s.visualStartY s.cursorY).toNat).take
          ((max s.visualStartY s.cursorY).toNat - (min s.visualStartY s.cursorY).toNat + 1),
        mode := EditorMode.NORMAL }
      rfl hne hc0 hc1
    refine ⟨_, _, hy, hp, rfl, ?_, rfl⟩
    simp only [hlen]

/-- C20 witness: `V j y` has left rows 0 and 1 of `["a", "b", "c"]` selected
with the cursor on row 1; yank then paste gives `["a", "b", "a", "b", "c"]`. -/
theorem C20_witness :
    ∃ s1 s2, yankText { sessionOnBracket with
            lines := [['a'], ['b'], ['c']], mode := EditorMode.VISUAL_LINE,
            visualStartY := 0, cursorY := 1 } = some s1 ∧
      pasteText s1 = some s2 ∧
      s2.lines = [['a'], ['b'], ['a'], ['b'], ['c']] ∧ s2.cursorY = 3 ∧ s2.cursorX = 0 :=
  (C20_whole_line_paste
    { sessionOnBracket with
        lines := [['a'], ['b'], ['c']], mode := EditorMode.VISUAL_LINE,
        visualStartY := 0, cursorY := 1 }
    (by decide) (by decide)).2 rfl (by decide) (by decide)

/-! ## Unindent of the current line (C21) -/

theorem strSubstr_zero (row : Line) (n : Nat) : strSubstr row 0 n = some (row.take n) := by
  simp [strSubstr]

theorem strErase_zero (row : Line) (n : Nat) : strErase row 0 n = some (row.drop n) := by
  simp [strErase]

theorem vecSet_of_bounds {α : Type} (v : List α) (i : Int) (a : α) (h0 : 0 ≤ i)
    (h1 : i < (v.length : Int)) : vecSet v i a = some (v.set i.toNat a) := by
  simp only [vecSet, h0, h1, and_self, if_true]

/-- C21. With the cursor row inside the buffer: when the first four characters
of the current line are not four spaces, `unindentLine` leaves the buffer lines
and the cursor unchanged; when they are, it removes exactly those four
characters from the current line, leaves every other line unchanged and sets
the column to `max(0, column - 4)`. -/
theorem C21_unindentLine (s : TextEditor) (hy0 : 0 ≤ s.cursorY)
    (hy1 : s.cursorY < (s.lines.length : Int)) :
    ((s.lines.getD s.cursorY.toNat []).take 4 ≠ indentString →
      ∃ s2, unindentLine s = some s2 ∧ s2.lines = s.lines ∧ s2.cursorX = s.cursorX ∧
        s2.cursorY = s.cursorY) ∧
    ((s.lines.getD s.cursorY.toNat []).take 4 = indentString →
      ∃ s2, unindentLine s = some s2 ∧
        s2.lines = s.lines.set s.cursorY.toNat ((s.lines.getD s.cursorY.toNat []).drop 4) ∧
        s2.cursorX = max 0 (s.cursorX - 4) ∧ s2.cursorY = s.cursorY) := by
  have hrow := vecAt_of_bounds s.lines s.cursorY [] hy0 hy1
  generalize s.lines.getD s.cursorY.toNat [] = row at hrow ⊢
  constructor
  · intro hne
    have hcond : ¬ (row.length ≥ 4 ∧ strSubstr row 0 4 = some indentString) := by
      rw [strSubstr_zero]
      intro h
      exact hne (Option.some.inj h.2)
    refine ⟨{ s with undoStack := s.lines :: s.undoStack, redoStack := [] }, ?_, rfl, rfl, rfl⟩
    simp only [unindentLine, saveCurrentStateForUndo, hrow, Option.bind_eq_bind, Option.some_bind,
      if_neg hcond]
  · intro heq
    have hlen : row.length ≥ 4 := by
      have h4 := congrArg List.length heq
      rw [List.length_take] at h4
      simp only [indentString, List.length_cons, List.length_nil] at h4
      omega
    have hcond : row.length ≥ 4 ∧ strSubstr row 0 4 = some indentString := by
      rw [strSubstr_zero, heq]
      exact ⟨hlen, rfl⟩
    refine ⟨{ s with undoStack := s.lines :: s.undoStack, redoStack := [],
                     lines := s.lines.set s.cursorY.toNat (row.drop 4),
                     cursorX := max 0 (s.cursorX - 4) }, ?_, rfl, rfl, rfl⟩
    simp only [unindentLine, saveCurrentStateForUndo, hrow, Option.bind_eq_bind, Option.some_bind,
      if_pos hcond, strErase_zero, vecSet_of_bounds s.lines s.cursorY _ hy0 hy1]

/-- C21 witness: the line `"    ab"` with the cursor at column 2 becomes `"ab"`
with the cursor at column 0. -/
theorem C21_witness :
    ∃ s2, unindentLine { sessionOnBracket with
            lines := ["    ab".toList, ['c']], cursorX := 2 } = some s2 ∧
      s2.lines = [['a', 'b'], ['c']] ∧ s2.cursorX = 0 ∧ s2.cursorY = 0 :=
  (C21_unindentLine
    { sessionOnBracket with lines := ["    ab".toList, ['c']], cursorX := 2 }
    (by decide) (by decide)).2 (by decide)

/-! ## A count in front of a chord (C23) -/

/-- C23 (failing input). On the buffer `["a", "b", "c", "d"]` the keys `2 d d`
with no further input delete one line and leave the handler waiting in
`getch()` for the second key of the next repetition; with a further `d` both
repetitions run and two lines are deleted; with a further `j` that key is
consumed as the chord's second key, one line is deleted and the cursor does
not move. -/
theorem C23_chord_key_is_read_once_per_repetition :
    ∃ s1 s2 s3,
      run 2 (freshSession [key '2', key 'd', key 'd'] (some "a\nb\nc\nd\n")) = Outcome.blocked s1 ∧
      s1.lines = [['b'], ['c'], ['d']] ∧ s1.pending = [] ∧
      run 2 (freshSession [key '2', key 'd', key 'd', key 'd'] (some "a\nb\nc\nd\n")) =
        Outcome.ok s2 ∧
      s2.lines = [['c'], ['d']] ∧ s2.pending = [] ∧ s2.repeatCount = 0 ∧
      run 2 (freshSession [key '2', key 'd', key 'd', key 'j'] (some "a\nb\nc\nd\n")) =
        Outcome.ok s3 ∧
      s3.lines = [['b'], ['c'], ['d']] ∧ s3.pending = [] ∧ s3.cursorY = 0 :=
  ⟨_, _, _, rfl, rfl, rfl, rfl, rfl, rfl, rfl, rfl, rfl, rfl, rfl⟩

/-! ## Files (C25, C26) -/

theorem getlines_newline (rest acc : Line) :
    getlines ('\n' :: rest) acc = acc.reverse :: getlines rest [] := by
  simp [getlines]

theorem getlines_char (c : Char) (rest acc : Line) (hc : c ≠ '\n') :
    getlines (c :: rest) acc = getlines rest (c :: acc) := by
  simp [getlines, hc]

theorem getlines_line : ∀ (l : Line), '\n' ∉ l → ∀ (rest acc : Line),
    getlines (l ++ '\n' :: rest) acc = (acc.reverse ++ l) :: getlines rest []
  | [], _, rest, acc => by
    rw [List.nil_append, getlines_newline, List.append_nil]
  | c :: cs, hl, rest, acc => by
    have hc : c ≠ '\n' := fun h => hl (by rw [h]; exact List.mem_cons_self _ _)
    have hcs : '\n' ∉ cs := fun h => hl (List.mem_cons_of_mem _ h)
    rw [List.cons_append, getlines_char c _ acc hc, getlines_line cs hcs rest (c :: acc)]
    simp

theorem getlines_fileText : ∀ (ls : List Line), (∀ l ∈ ls, '\n' ∉ l) →
    getlines (fileText ls) [] = ls
  | [], _ => by
    simp [fileText, getlines]
  | l :: ls, h => by
    have hl : '\n' ∉ l := h l (List.mem_cons_self _ _)
    have hls : ∀ l2 ∈ ls, '\n' ∉ l2 := fun l2 h2 => h l2 (List.mem_cons_of_mem _ h2)
    rw [fileText, getlines_line l hl, getlines_fileText ls hls]
    simp

/-- C25. For buffer lines none of which contains a newline character, the
text `saveFile` writes (each line followed by one `'\n'`) is read back by the
`getline` loop of `loadFile` as exactly the same list of lines; so on a
writable file, `loadFile` after `saveFile` returns with the buffer it saved. -/
theorem C25_save_load_round_trip (s : TextEditor) (hnl : ∀ l ∈ s.lines, '\n' ∉ l) :
    getlines (fileText s.lines) [] = s.lines ∧
    (s.writable = true →
      (saveFile s).disk = some (fileText s.lines) ∧
      ∃ s2, loadFile (saveFile s) = some s2 ∧ s2.lines = s.lines) := by
  refine ⟨getlines_fileText s.lines hnl, fun hw => ?_⟩
  have hs : saveFile s = { s with disk := some (fileText s.lines) } := by
    simp [saveFile, hw]
  rw [hs]
  refine ⟨rfl, _, rfl, ?_⟩
  exact getlines_fileText s.lines hnl

/-- C25 witness: the buffer `["foo (bar)", "  baz"]`. -/
theorem C25_witness :
    (∀ l ∈ sessionOnBracket.lines, '\n' ∉ l) ∧ sessionOnBracket.writable = true ∧
    (getlines (fileText sessionOnBracket.lines) [] = sessionOnBracket.lines ∧
      (sessionOnBracket.writable = true →
        (saveFile sessionOnBracket).disk = some (fileText sessionOnBracket.lines) ∧
        ∃ s2, loadFile (saveFile sessionOnBracket) = some s2 ∧
          s2.lines = sessionOnBracket.lines)) :=
  ⟨by decide, rfl, C25_save_load_round_trip sessionOnBracket (by decide)⟩

/-- C26 (failing input). When the backing file exists and is empty the
constructor leaves a buffer with zero lines, and the first edit (`i` then a
typed character) indexes `lines[0]` of the empty buffer; when the file cannot
be opened the buffer is exactly one empty line. -/
theorem C26_empty_file_gives_empty_buffer :
    (TextEditor.new 24 [key 'i', key 'a'] (some []) true).lines = [] ∧
    (TextEditor.new 24 [key 'i', key 'a'] (some []) true).lines.length = 0 ∧
    run 2 (TextEditor.new 24 [key 'i', key 'a'] (some []) true) = Outcome.fault ∧
    ∀ (rows : Int) (keys : List Int) (w : Bool), (TextEditor.new rows keys none w).lines = [[]] :=
  ⟨rfl, rfl, rfl, fun _ _ _ => rfl⟩

/-! ## Indent of a visual selection, then undo (C22) -/

theorem IndentedRows.zero (ls : List Line) (lo : Nat) : IndentedRows ls ls lo 0 := by
  intro i
  rw [if_neg (by omega)]

theorem IndentedRows.length {after before : List Line} {lo n : Nat}
    (h : IndentedRows after before lo n) : after.length = before.length := by
  by_contra hne
  rcases Nat.lt_or_gt_of_ne hne with hlt | hgt
  · have hi := h after.length
    rw [List.getElem?_eq_none (le_refl _)] at hi
    have hb : ∃ b, before[after.length]? = some b := ⟨_, List.getElem?_eq_getElem hlt⟩
    obtain ⟨b, hb⟩ := hb
    rw [hb] at hi
    split_ifs at hi
    simp at hi
  · have hi := h before.length
    rw [List.getElem?_eq_getElem hgt, List.getElem?_eq_none (le_refl _)] at hi
    split_ifs at hi
    simp at hi

theorem IndentedRows.step {after before : List Line} {lo n : Nat} {row : Line}
    (hrow : before[lo]? = some row)
    (h : IndentedRows after (before.set lo (indentString ++ row)) (lo + 1) n) :
    IndentedRows after before lo (n + 1) := by
  intro i
  rw [h i]
  by_cases hi : i = lo
  · subst hi
    have hlt : i < before.length := by
      rcases Nat.lt_or_ge i before.length with h1 | h1
      · exact h1
      · rw [List.getElem?_eq_none h1] at hrow
        cases hrow
    rw [if_neg (by omega), if_pos (by omega), hrow, List.getElem?_set_self hlt]
    rfl
  · rw [List.getElem?_set_ne (fun h => hi h.symm)]
    by_cases hc : lo + 1 ≤ i ∧ i < lo + 1 + n
    · rw [if_pos hc, if_pos (by omega)]
    · rw [if_neg hc, if_neg (by omega)]

theorem strInsert_zero (row t : Line) : strInsert row 0 t = some (t ++ row) := by
  simp [strInsert]

theorem indentRows_succ (n : Nat) (y : Int) (s : TextEditor) (row : Line)
    (hy0 : 0 ≤ y) (hrow : s.lines[y.toNat]? = some row) :
    indentRows (n + 1) y s =
      indentRows n (y + 1)
        { s with undoStack := s.lines :: s.undoStack, redoStack := [],
                 lines := s.lines.set y.toNat (indentString ++ row) } := by
  have hlt : y.toNat < s.lines.length := by
    rcases Nat.lt_or_ge y.toNat s.lines.length with h1 | h1
    · exact h1
    · rw [List.getElem?_eq_none h1] at hrow
      cases hrow
  have hat : vecAt s.lines y = some row := by
    simp only [vecAt, if_pos hy0, hrow]
  simp only [indentRows, saveCurrentStateForUndo, hat, strInsert_zero, Option.bind_eq_bind,
    Option.some_bind, vecSet_of_bounds s.lines y _ hy0 (by omega)]

/-- Running the row loop of the visual `>` over `n + 1` rows from row `lo`. -/
theorem indentRows_spec : ∀ (n lo : Nat) (s : TextEditor), lo + (n + 1) ≤ s.lines.length →
    ∃ s2 top rest, indentRows (n + 1) (lo : Int) s = some s2 ∧
      IndentedRows s2.lines s.lines lo (n + 1) ∧
      s2.undoStack = top :: (rest ++ s.undoStack) ∧ rest.length = n ∧
      IndentedRows top s.lines lo n ∧
      s2.cursorX = s.cursorX ∧ s2.cursorY = s.cursorY ∧ s2.redoStack = []
  | 0, lo, s, hlen => by
    have hrow : s.lines[lo]? = some (s.lines.getD lo []) := by
      rw [List.getD_eq_getElem?_getD, List.getElem?_eq_getElem (by omega)]
      rfl
    have hrow2 : s.lines[((lo : Int)).toNat]? = some (s.lines.getD lo []) := by
      rw [Int.toNat_ofNat]; exact hrow
    rw [indentRows_succ 0 (lo : Int) s _ (by omega) hrow2]
    refine ⟨_, s.lines, [], rfl, ?_, rfl, rfl, IndentedRows.zero _ _, rfl, rfl, rfl⟩
    rw [Int.toNat_ofNat]
    exact IndentedRows.step hrow (IndentedRows.zero _ _)
  | n + 1, lo, s, hlen => by
    have hrow : s.lines[lo]? = some (s.lines.getD lo []) := by
      rw [List.getD_eq_getElem?_getD, List.getElem?_eq_getElem (by omega)]
      rfl
    have hrow2 : s.lines[((lo : Int)).toNat]? = some (s.lines.getD lo []) := by
      rw [Int.toNat_ofNat]; exact hrow
    rw [indentRows_succ (n + 1) (lo : Int) s _ (by omega) hrow2]
    have hcast : ((lo : Int) + 1) = ((lo + 1 : Nat) : Int) := by push_cast; rfl
    rw [hcast, Int.toNat_ofNat]
    obtain ⟨s2, top, rest, h2, hl, hu, hr, ht, hx, hy, hre⟩ :=
      indentRows_spec n (lo + 1)
        { s with undoStack := s.lines :: s.undoStack, redoStack := [],
                 lines := s.lines.set lo (indentString ++ s.lines.getD lo []) }
        (by simp only [List.length_set]; omega)
    refine ⟨s2, top, rest ++ [s.lines], h2, IndentedRows.step hrow hl, ?_, ?_,
      IndentedRows.step hrow ht, hx, hy, hre⟩
    · rw [hu]; simp
    · simp [hr]

theorem handleVisualModeInput_indent (s : TextEditor) :
    handleVisualModeInput (key '>') s =
      (indentRows (max s.visualStartY s.cursorY - min s.visualStartY s.cursorY + 1).toNat
        (min s.visualStartY s.cursorY) s).bind
        fun s1 => some { s1 with mode := EditorMode.NORMAL } := by
  simp [handleVisualModeInput, key, KEY_ESC]

/-- C22. For a visual selection whose anchor row and cursor row are different
rows of the buffer (`k = rowHi - rowLo + 1 ≥ 2` rows), the visual-mode `>`
returns, indents rows `rowLo .. rowHi` and pushes exactly `k` snapshots onto
the undo stack; one `undo()` afterwards returns and leaves rows
`rowLo .. rowHi - 1` indented and every other row, `rowHi` included, as it
was before the `>`, with `k - 1` of the pushed snapshots still on the undo stack. -/
theorem C22_visual_indent_snapshots_per_row (s : TextEditor)
    (ha0 : 0 ≤ s.visualStartY) (ha1 : s.visualStartY < (s.lines.length : Int))
    (hc0 : 0 ≤ s.cursorY) (hc1 : s.cursorY < (s.lines.length : Int))
    (hk : s.visualStartY ≠ s.cursorY) :
    ∃ s2 s3 pushed,
      handleVisualModeInput (key '>') s = some s2 ∧
      s2.undoStack = pushed ++ s.undoStack ∧
      (pushed.length : Int) = max s.visualStartY s.cursorY - min s.visualStartY s.cursorY + 1 ∧
      IndentedRows s2.lines s.lines (min s.visualStartY s.cursorY).toNat pushed.length ∧
      undo s2 = some s3 ∧
      IndentedRows s3.lines s.lines (min s.visualStartY s.cursorY).toNat (pushed.length - 1) ∧
      s3.undoStack = pushed.tail ++ s.undoStack := by
  obtain ⟨lo, hlo⟩ : ∃ lo : Nat, min s.visualStartY s.cursorY = (lo : Int) :=
    ⟨(min s.visualStartY s.cursorY).toNat, by omega⟩
  obtain ⟨n, hn⟩ : ∃ n : Nat,
      max s.visualStartY s.cursorY - min s.visualStartY s.cursorY + 1 = ((n + 2 : Nat) : Int) :=
    ⟨(max s.visualStartY s.cursorY - min s.visualStartY s.cursorY - 1).toNat, by omega⟩
  obtain ⟨s1, top, rest, h1, hl, hu, hr, ht, hx, hy, hre⟩ :=
    indentRows_spec (n + 1) lo s (by omega)
  have hlen : top.length = s.lines.length := ht.length
  have hrow : vecAt top (min s.cursorY ((top.length : Int) - 1)) =
      some (top.getD (min s.cursorY ((top.length : Int) - 1)).toNat []) :=
    vecAt_of_bounds top _ [] (by omega) (by omega)
  have hundo := undo_cons { s1 with mode := EditorMode.NORMAL } top (rest ++ s.undoStack) _ hu
    (by rw [show ({ s1 with mode := EditorMode.NORMAL } : TextEditor).cursorY = s.cursorY from hy]
        exact hrow)
  refine ⟨{ s1 with mode := EditorMode.NORMAL }, _, top :: rest, ?_, ?_, ?_, ?_, hundo, ?_, ?_⟩
  · rw [handleVisualModeInput_indent, hn, hlo, Int.toNat_ofNat, h1]
    rfl
  · exact hu
  · rw [hn]
    simp only [List.length_cons, hr]
  · rw [hlo, Int.toNat_ofNat]
    simp only [List.length_cons, hr]
    exact hl
  · rw [hlo, Int.toNat_ofNat]
    simp only [List.length_cons, hr, Nat.add_sub_cancel]
    exact ht
  · rfl

/-- C22 witness: rows 0 and 1 of `["foo (bar)", "  baz"]` selected from row 1 up to row 0. -/
theorem C22_witness :
    ∃ s2 s3 pushed,
      handleVisualModeInput (key '>') { sessionOnBracket with visualStartY := 1 } = some s2 ∧
      s2.undoStack = pushed ++ [] ∧
      (pushed.length : Int) = max 1 0 - min 1 0 + 1 ∧
      IndentedRows s2.lines sessionOnBracket.lines (min (1 : Int) 0).toNat pushed.length ∧
      undo s2 = some s3 ∧
      IndentedRows s3.lines sessionOnBracket.lines (min (1 : Int) 0).toNat (pushed.length - 1) ∧
      s3.undoStack = pushed.tail ++ [] :=
  C22_visual_indent_snapshots_per_row { sessionOnBracket with visualStartY := 1 }
    (by decide) (by decide) (by decide) (by decide) (by decide)

/-! ## Frame of the motions (C24) -/

theorem CursorOnly.refl (s : TextEditor) : CursorOnly s s := rfl

theorem CursorOnly.mk (s : TextEditor) (x y o : Int) :
    CursorOnly s { s with cursorX := x, cursorY := y, offsetY := o } := rfl

theorem CursorOnly.trans {a b c : TextEditor} (h1 : CursorOnly a b) (h2 : CursorOnly b c) :
    CursorOnly a c := by
  unfold CursorOnly at *
  rw [h2, h1]

theorem CursorOnly.fields {s s2 : TextEditor} (h : CursorOnly s s2) :
    s2.lines = s.lines ∧ s2.clipboardLines = s.clipboardLines ∧
    s2.clipboardType = s.clipboardType ∧ s2.undoStack = s.undoStack ∧
    s2.redoStack = s.redoStack ∧ s2.mode = s.mode := by
  unfold CursorOnly at h
  rw [h]
  exact ⟨rfl, rfl, rfl, rfl, rfl, rfl⟩

theorem moveUp_cursorOnly {s s2 : TextEditor} (h : moveUp s = some s2) : CursorOnly s s2 := by
  unfold moveUp at h
  split_ifs at h
  · simp only [Option.bind_eq_bind, Option.bind_eq_some] at h
    obtain ⟨line, _, h⟩ := h
    cases h
    rfl
  · cases h
    rfl

theorem moveDown_cursorOnly {s s2 : TextEditor} (h : moveDown s = some s2) : CursorOnly s s2 := by
  unfold moveDown at h
  split_ifs at h
  · simp only [Option.bind_eq_bind, Option.bind_eq_some] at h
    obtain ⟨line, _, h⟩ := h
    cases h
    rfl
  · cases h
    rfl

theorem moveLeft_cursorOnly {s s2 : TextEditor} (h : moveLeft s = some s2) : CursorOnly s s2 := by
  unfold moveLeft at h
  split_ifs at h
  · cases h
    rfl
  · simp only [Option.bind_eq_bind, Option.bind_eq_some] at h
    obtain ⟨line, _, h⟩ := h
    cases h
    rfl
  · cases h
    rfl

theorem moveRight_cursorOnly {s s2 : TextEditor} (h : moveRight s = some s2) : CursorOnly s s2 := by
  unfold moveRight at h
  simp only [Option.bind_eq_bind, Option.bind_eq_some] at h
  obtain ⟨line, _, h⟩ := h
  split_ifs at h <;> cases h <;> rfl

theorem nextWordLoop_cursorOnly (b : Bool) : ∀ (fuel : Nat) (s s2 : TextEditor),
    nextWordLoop b fuel s = some s2 → CursorOnly s s2
  | 0, _, _, h => by simp [nextWordLoop] at h
  | fuel + 1, s, s2, h => by
    simp only [nextWordLoop, Option.bind_eq_bind, Option.bind_eq_some] at h
    obtain ⟨c, _, h⟩ := h
    cases c with
    | false =>
      simp only [Bool.false_eq_true, if_false] at h
      cases h
      rfl
    | true =>
      simp only [if_true, Option.bind_eq_some] at h
      obtain ⟨s1, h1, h⟩ := h
      exact (moveRight_cursorOnly h1).trans (nextWordLoop_cursorOnly b fuel s1 s2 h)

theorem moveToNextWord_cursorOnly {s s2 : TextEditor} (h : moveToNextWord s = some s2) :
    CursorOnly s s2 := by
  simp only [moveToNextWord, Option.bind_eq_bind, Option.bind_eq_some] at h
  obtain ⟨s1, h1, h⟩ := h
  exact (nextWordLoop_cursorOnly _ _ _ _ h1).trans (nextWordLoop_cursorOnly _ _ _ _ h)

theorem prevWordInner_cursorOnly : ∀ (fuel : Nat) (s s2 : TextEditor),
    prevWordInner fuel s = some s2 → CursorOnly s s2
  | 0, _, _, h => by simp [prevWordInner] at h
  | fuel + 1, s, s2, h => by
    simp only [prevWordInner, Option.bind_eq_bind, Option.bind_eq_some] at h
    obtain ⟨c, _, h⟩ := h
    cases c with
    | false =>
      simp only [Bool.false_eq_true, if_false] at h
      cases h
      rfl
    | true =>
      simp only [if_true, Option.bind_eq_some] at h
      obtain ⟨s1, h1, h⟩ := h
      exact (moveLeft_cursorOnly h1).trans (prevWordInner_cursorOnly fuel s1 s2 h)

theorem prevWordOuter_cursorOnly : ∀ (fuel : Nat) (s s2 : TextEditor),
    prevWordOuter fuel s = some s2 → CursorOnly s s2
  | 0, _, _, h => by simp [prevWordOuter] at h
  | fuel + 1, s, s2, h => by
    unfold prevWordOuter at h
    split_ifs at h
    · simp only [Option.bind_eq_bind, Option.bind_eq_some] at h
      obtain ⟨s1, h1, c, _, h⟩ := h
      cases c with
      | false =>
        simp only [Bool.false_eq_true, if_false] at h
        exact (moveLeft_cursorOnly h1).trans (prevWordOuter_cursorOnly fuel s1 s2 h)
      | true =>
        simp only [if_true] at h
        exact (moveLeft_cursorOnly h1).trans (prevWordInner_cursorOnly _ s1 s2 h)
    · cases h
      rfl

theorem moveToLineEnd_cursorOnly {s s2 : TextEditor} (h : moveToLineEnd s = some s2) :
    CursorOnly s s2 := by
  simp only [moveToLineEnd, Option.bind_eq_bind, Option.bind_eq_some] at h
  obtain ⟨line, _, h⟩ := h
  cases h
  rfl

theorem moveToDocumentEnd_cursorOnly {s s2 : TextEditor} (h : moveToDocumentEnd s = some s2) :
    CursorOnly s s2 := by
  simp only [moveToDocumentEnd, Option.bind_eq_bind, Option.bind_eq_some] at h
  obtain ⟨line, _, h⟩ := h
  cases h
  rfl

theorem jumpToMatchingBracket_cursorOnly {s s2 : TextEditor}
    (h : jumpToMatchingBracket s = some s2) : CursorOnly s s2 := by
  simp only [jumpToMatchingBracket, Option.bind_eq_bind, Option.bind_eq_some] at h
  obtain ⟨line, _, c, _, h⟩ := h
  split at h
  · cases h
    rfl
  · split_ifs at h
    · split at h
      · cases h
        rfl
      · split at h <;> cases h <;> rfl
    · split at h
      · cases h
        rfl
      · split at h <;> cases h <;> rfl

theorem Motion.apply_cursorOnly (m : Motion) {s s2 : TextEditor} (h : m.apply s = some s2) :
    CursorOnly s s2 := by
  cases m with
  | h => exact moveLeft_cursorOnly h
  | l => exact moveRight_cursorOnly h
  | j => exact moveDown_cursorOnly h
  | k => exact moveUp_cursorOnly h
  | lineStart =>
    cases h
    rfl
  | lineEnd => exact moveToLineEnd_cursorOnly h
  | w => exact moveToNextWord_cursorOnly h
  | b => exact prevWordOuter_cursorOnly _ _ _ h
  | gg =>
    cases h
    rfl
  | G => exact moveToDocumentEnd_cursorOnly h
  | percent => exact jumpToMatchingBracket_cursorOnly h

/-- C24. Every motion (`h l j k 0 $ w b gg G %`) that returns leaves the
buffer lines, the clipboard and its type, the undo stack, the redo stack and
the mode unchanged, and changes no field of the state other than the cursor
row, the cursor column and the viewport offset; on a valid cursor every
motion returns. -/
theorem C24_motions_change_only_cursor_and_offset (m : Motion) (s : TextEditor) :
    (∀ s2, m.apply s = some s2 →
      s2.lines = s.lines ∧ s2.clipboardLines = s.clipboardLines ∧
      s2.clipboardType = s.clipboardType ∧ s2.undoStack = s.undoStack ∧
      s2.redoStack = s.redoStack ∧ s2.mode = s.mode ∧ CursorOnly s s2) ∧
    (ValidCursor s → ∃ s2, m.apply s = some s2) := by
  constructor
  · intro s2 h
    have hc := Motion.apply_cursorOnly m h
    obtain ⟨h1, h2, h3, h4, h5, h6⟩ := hc.fields
    exact ⟨h1, h2, h3, h4, h5, h6, hc⟩
  · intro hv
    obtain ⟨s2, h2, _⟩ := Motion.apply_valid m hv
    exact ⟨s2, h2⟩

/-- C24 witness: the motion `w` from the bracket of `"foo (bar)"` returns. -/
theorem C24_witness : ∃ s2, Motion.w.apply sessionOnBracket = some s2 :=
  (C24_motions_change_only_cursor_and_offset Motion.w sessionOnBracket).2 (by decide)

/-! ## Rows written by a block paste (C27) -/

theorem pasteBlockLoop_cons (k r : Nat) (c : Line) (cs : List Line) (lines : List Line)
    (hr : r < lines.length) :
    pasteBlockLoop (k : Int) (c :: cs) (r : Int) lines =
      pasteBlockLoop (k : Int) cs ((r : Int) + 1)
        (lines.set r (pastedRow k c (lines.getD r []))) := by
  have hlt : (r : Int) < (lines.length : Int) := by omega
  have hline := vecAt_of_bounds lines (r : Int) [] (by omega) hlt
  rw [Int.toNat_ofNat] at hline
  generalize lines.getD r [] = old at hline ⊢
  have hcond : ((k : Int) + (c.length : Int) > (old.length : Int)) ↔
      (k + c.length > old.length) := by omega
  have hnat : ((k : Int) + (c.length : Int)).toNat = k + c.length := by omega
  have hfit : (k : Int) ≤
      (((if k + c.length > old.length then strResize old (k + c.length) else old) : Line).length :
        Int) := by
    split_ifs with hbig
    · rw [strResize_length]
      omega
    · omega
  rw [pasteBlockLoop, if_pos hlt]
  simp only [hline, Option.bind_eq_bind, Option.some_bind, hcond, hnat]
  have hrep : strReplace (if k + c.length > old.length then strResize old (k + c.length) else old)
      (k : Int) c.length c = some (pastedRow k c old) := by
    simp only [strReplace, hfit, and_true, Int.toNat_ofNat, pastedRow]
    rw [if_pos (by omega)]
  rw [hrep]
  simp only [Option.some_bind, vecSet_of_bounds lines (r : Int) _ (by omega) hlt, Int.toNat_ofNat]

theorem pasteBlockLoop_row (k : Nat) : ∀ (clip : List Line) (r : Nat) (lines : List Line)
    (i : Nat) (f old : Line), clip[i]? = some f → lines[r + i]? = some old →
    ∃ lines2, pasteBlockLoop (k : Int) clip (r : Int) lines = some lines2 ∧
      lines2[r + i]? = some (pastedRow k f old)
  | [], _, _, _, _, _, hf, _ => by simp at hf
  | c :: cs, r, lines, i, f, old, hf, hold => by
    have hri : r + i < lines.length := by
      rcases Nat.lt_or_ge (r + i) lines.length with h | h
      · exact h
      · rw [List.getElem?_eq_none h] at hold
        cases hold
    rw [pasteBlockLoop_cons k r c cs lines (by omega)]
    cases i with
    | zero =>
      simp only [List.getElem?_cons_zero, Option.some.injEq] at hf
      subst hf
      rw [Nat.add_zero] at hold hri ⊢
      obtain ⟨lines2, h2, _, hrows⟩ := pasteBlockLoop_frame (k : Int) (by omega) cs ((r : Int) + 1)
        (lines.set r (pastedRow k c (lines.getD r []))) (by omega)
      refine ⟨lines2, h2, ?_⟩
      rw [hrows r (Or.inl (by omega)), List.getElem?_set_self hri]
      rw [List.getD_eq_getElem?_getD, hold]
      rfl
    | succ i =>
      simp only [List.getElem?_cons_succ] at hf
      have hold2 : (lines.set r (pastedRow k c (lines.getD r [])))[(r + 1) + i]? = some old := by
        rw [List.getElem?_set_ne (by omega)]
        rw [← hold]
        congr 1
        omega
      obtain ⟨lines2, h2, hrow⟩ := pasteBlockLoop_row k cs (r + 1) _ i f old hf hold2
      refine ⟨lines2, ?_, ?_⟩
      · rw [← h2]
        congr 1
      · rw [← hrow]
        congr 1
        omega

/-- Characters of the row one iteration of the block-paste loop stores. -/
theorem pastedRow_spec (c : Nat) (f old : Line) :
    (pastedRow c f old).length = max old.length (c + f.length) ∧
    (∀ j, j < f.length → (pastedRow c f old)[c + j]? = f[j]?) ∧
    (∀ j, j < c → j < old.length → (pastedRow c f old)[j]? = old[j]?) ∧
    (∀ j, j < c → old.length ≤ j → (pastedRow c f old)[j]? = some (Char.ofNat 0)) ∧
    (∀ j, c + f.length ≤ j → (pastedRow c f old)[j]? = old[j]?) := by
  have key : ∀ l1 : Line, c + f.length ≤ l1.length →
      (l1.take c ++ f ++ l1.drop (c + f.length)).length = l1.length ∧
      (∀ j, j < f.length → (l1.take c ++ f ++ l1.drop (c + f.length))[c + j]? = f[j]?) ∧
      (∀ j, j < c → (l1.take c ++ f ++ l1.drop (c + f.length))[j]? = l1[j]?) ∧
      (∀ j, c + f.length ≤ j → (l1.take c ++ f ++ l1.drop (c + f.length))[j]? = l1[j]?) := by
    intro l1 hl1
    have htake : (l1.take c).length = c := by
      rw [List.length_take]
      omega
    refine ⟨?_, ?_, ?_, ?_⟩
    · simp only [List.length_append, List.length_drop, htake]
      omega
    · intro j hj
      rw [List.getElem?_append_left (by simp only [List.length_append, htake]; omega),
        List.getElem?_append_right (by omega), htake]
      congr 1
      omega
    · intro j hj
      rw [List.append_assoc, List.getElem?_append_left (by omega), List.getElem?_take_of_lt hj]
    · intro j hj
      rw [List.getElem?_append_right (by simp only [List.length_append, htake]; omega),
        List.getElem?_drop]
      simp only [List.length_append, htake]
      congr 1
      omega
  unfold pastedRow
  by_cases hbig : c + f.length > old.length
  · simp only [if_pos hbig]
    have hres : strResize old (c + f.length) =
        old ++ List.replicate (c + f.length - old.length) (Char.ofNat 0) := by
      rw [strResize, List.take_of_length_le (by omega)]
    obtain ⟨k1, k2, k3, k4⟩ := key (strResize old (c + f.length))
      (by rw [strResize_length])
    refine ⟨?_, k2, ?_, ?_, ?_⟩
    · rw [k1, strResize_length]
      omega
    · intro j hj hjo
      rw [k3 j hj, hres, List.getElem?_append_left hjo]
    · intro j hj hjo
      rw [k3 j hj, hres, List.getElem?_append_right hjo, List.getElem?_replicate,
        if_pos (by omega)]
    · intro j hj
      rw [k4 j hj, List.getElem?_eq_none (by rw [strResize_length]; exact hj),
        List.getElem?_eq_none (by omega)]
  · simp only [if_neg hbig]
    obtain ⟨k1, k2, k3, k4⟩ := key old (by omega)
    refine ⟨?_, k2, fun j hj _ => k3 j hj, ?_, k4⟩
    · rw [k1]
      omega
    · intro j hj hjo
      omega

/-- C27. With a block-shaped clipboard (`clipboardType` VISUAL), the cursor at
column `c ≥ 0` and row `R ≥ 0`, and clipboard row `i` equal to `f` with
destination row `R + i` of the buffer equal to `old`: `pasteText` returns and
the new row `R + i` has length `max(|old|, c + |f|)`, holds `f` at columns
`[c, c + |f|)`, keeps the characters of `old` in front of column `c`, is
padded with null characters from `|old|` up to `c`, and from column `c + |f|`
on holds the characters of `old` at the same columns (nothing is shifted). -/
theorem C27_block_paste_overwrites (s : TextEditor)
    (htype : s.clipboardType = EditorMode.VISUAL) (hx : 0 ≤ s.cursorX) (hy : 0 ≤ s.cursorY)
    (i : Nat) (f old : Line) (hf : s.clipboardLines[i]? = some f)
    (hold : s.lines[s.cursorY.toNat + i]? = some old) :
    ∃ s2 new, pasteText s = some s2 ∧ s2.lines[s.cursorY.toNat + i]? = some new ∧
      new.length = max old.length (s.cursorX.toNat + f.length) ∧
      (∀ j, j < f.length → new[s.cursorX.toNat + j]? = f[j]?) ∧
      (∀ j, j < s.cursorX.toNat → j < old.length → new[j]? = old[j]?) ∧
      (∀ j, j < s.cursorX.toNat → old.length ≤ j → new[j]? = some (Char.ofNat 0)) ∧
      (∀ j, s.cursorX.toNat + f.length ≤ j → new[j]? = old[j]?) := by
  obtain ⟨lines2, h2, hrow⟩ :=
    pasteBlockLoop_row s.cursorX.toNat s.clipboardLines s.cursorY.toNat s.lines i f old hf hold
  rw [Int.toNat_of_nonneg hx, Int.toNat_of_nonneg hy] at h2
  obtain ⟨c0, cs, hclip⟩ : ∃ c0 cs, s.clipboardLines = c0 :: cs := by
    cases hc : s.clipboardLines with
    | nil =>
      rw [hc] at hf
      simp at hf
    | cons c0 cs => exact ⟨c0, cs, rfl⟩
  refine ⟨{ s with undoStack := s.lines :: s.undoStack, redoStack := [], lines := lines2 },
    pastedRow s.cursorX.toNat f old, ?_, hrow, pastedRow_spec _ _ _⟩
  rw [hclip] at h2
  simp [pasteText, saveCurrentStateForUndo, hclip, htype, h2]

/-- C27 witness: the block `["xy", "z"]` pasted at column 1 of row 0 of
`["foo (bar)", "  baz"]`; row 1 receives `"z"` over its second character. -/
theorem C27_witness :
    ∃ s2 new, pasteText { sessionOnBracket with
        cursorX := 1, clipboardType := EditorMode.VISUAL,
        clipboardLines := [['x', 'y'], ['z']] } = some s2 ∧
      s2.lines[(0 : Int).toNat + 1]? = some new ∧
      new.length = max "  baz".toList.length ((1 : Int).toNat + ['z'].length) ∧
      (∀ j, j < ['z'].length → new[(1 : Int).toNat + j]? = ['z'][j]?) ∧
      (∀ j, j < (1 : Int).toNat → j < "  baz".toList.length → new[j]? = "  baz".toList[j]?) ∧
      (∀ j, j < (1 : Int).toNat → "  baz".toList.length ≤ j → new[j]? = some (Char.ofNat 0)) ∧
      (∀ j, (1 : Int).toNat + ['z'].length ≤ j → new[j]? = "  baz".toList[j]?) :=
  C27_block_paste_overwrites
    { sessionOnBracket with
        cursorX := 1, clipboardType := EditorMode.VISUAL,
        clipboardLines := [['x', 'y'], ['z']] }
    rfl (by decide) (by decide) 1 ['z'] "  baz".toList rfl rfl

/-! ## Where `w` and `b` stop (C28, C29) -/

theorem nextWordCond_eq (b : Bool) {s : TextEditor} {line : Line}
    (hline : vecAt s.lines s.cursorY = some line) (hx0 : 0 ≤ s.cursorX)
    (hx1 : s.cursorX ≤ (line.length : Int)) :
    nextWordCond b s = some (decide (s.cursorX < (line.length : Int)) &&
      (isspace (line.getD s.cursorX.toNat (Char.ofNat 0)) == b)) := by
  have hy1 := (vecAt_some_bounds hline).2
  simp only [nextWordCond, if_pos hy1, hline, Option.bind_eq_bind, Option.some_bind]
  by_cases hx : s.cursorX < (line.length : Int)
  · rw [if_pos hx, strAt_of_bounds line s.cursorX hx0 hx1]
    simp [hx]
  · rw [if_neg hx]
    simp [hx]

theorem nextWordLoop_least (b : Bool) : ∀ (fuel : Nat) (s : TextEditor) (line : Line),
    vecAt s.lines s.cursorY = some line → 0 ≤ s.cursorX → s.cursorX ≤ (line.length : Int) →
    (line.length : Int) - s.cursorX < (fuel : Int) →
    ∃ c1 : Nat, nextWordLoop b fuel s = some { s with cursorX := (c1 : Int) } ∧
      LeastFrom (EndOrSpace (!b) line) s.cursorX.toNat c1 ∧ c1 ≤ line.length
  | 0, s, line, _, _, hx1, hf => by omega
  | fuel + 1, s, line, hline, hx0, hx1, hf => by
    simp only [nextWordLoop, nextWordCond_eq b hline hx0 hx1, Option.bind_eq_bind,
      Option.some_bind]
    by_cases hc : (decide (s.cursorX < (line.length : Int)) &&
      (isspace (line.getD s.cursorX.toNat (Char.ofNat 0)) == b)) = true
    · rw [if_pos hc]
      simp only [Bool.and_eq_true, decide_eq_true_eq, beq_iff_eq] at hc
      have hmr : moveRight s = some { s with cursorX := s.cursorX + 1 } := by
        simp only [moveRight, hline, Option.bind_eq_bind, Option.some_bind, if_pos hc.1]
      obtain ⟨c1, h1, hleast, hle⟩ := nextWordLoop_least b fuel { s with cursorX := s.cursorX + 1 }
        line hline (by simp only; omega) (by simp only; omega) (by simp only; omega)
      refine ⟨c1, ?_, ⟨?_, hleast.2.1, ?_⟩, hle⟩
      · rw [hmr, Option.some_bind, h1]
      · have := hleast.1
        simp only at this
        omega
      · intro j hj1 hj2
        by_cases hj : j = s.cursorX.toNat
        · subst hj
          intro hP
          rcases hP with hP | hP
          · omega
          · rw [hc.2] at hP
            cases b <;> simp at hP
        · exact hleast.2.2 j (by simp only; omega) hj2
    · rw [if_neg hc]
      refine ⟨s.cursorX.toNat, ?_, ⟨le_refl _, ?_, fun j h1 h2 => by omega⟩, by omega⟩
      · rw [Int.toNat_of_nonneg hx0]
      · simp only [Bool.and_eq_true, decide_eq_true_eq, beq_iff_eq, not_and] at hc
        by_cases hx : s.cursorX < (line.length : Int)
        · right
          refine ⟨by omega, ?_⟩
          have := hc hx
          revert this
          cases b <;> cases isspace (line.getD s.cursorX.toNat (Char.ofNat 0)) <;> simp
        · left
          omega

/-- C28. On a valid cursor `moveToNextWord` returns, and it changes nothing
but the column: with `line` the cursor row and `c` the column, let `c1` be the
least index `≥ c` that is `|line|` or holds a whitespace character, and `c2`
the least index `≥ c1` that is `|line|` or holds a non-whitespace character;
the resulting column is `c2`, on the same row (at most the end of the line). -/
theorem C28_next_word_stays_on_the_row (s : TextEditor) (hv : ValidCursor s) :
    ∃ c1 c2 : Nat,
      LeastFrom (EndOrSpace true (s.lines.getD s.cursorY.toNat [])) s.cursorX.toNat c1 ∧
      LeastFrom (EndOrSpace false (s.lines.getD s.cursorY.toNat [])) c1 c2 ∧
      c2 ≤ (s.lines.getD s.cursorY.toNat []).length ∧
      moveToNextWord s = some { s with cursorX := (c2 : Int) } := by
  have hline := vecAt_of_bounds s.lines s.cursorY [] hv.1 hv.2.1
  have hx0 := hv.2.2.1
  have hx1 := hv.2.2.2
  generalize s.lines.getD s.cursorY.toNat [] = line at hline hx1 ⊢
  obtain ⟨c1, h1, hl1, hle1⟩ := nextWordLoop_least false (currentLineLength s + 1) s line hline
    hx0 hx1 (by rw [currentLineLength_eq hline]; push_cast; omega)
  have hline1 : vecAt ({ s with cursorX := (c1 : Int) } : TextEditor).lines
      ({ s with cursorX := (c1 : Int) } : TextEditor).cursorY = some line := hline
  obtain ⟨c2, h2, hl2, hle2⟩ := nextWordLoop_least true
    (currentLineLength ({ s with cursorX := (c1 : Int) } : TextEditor) + 1)
    { s with cursorX := (c1 : Int) } line hline1 (by simp only; omega) (by simp only; omega)
    (by rw [currentLineLength_eq hline1]; push_cast; omega)
  refine ⟨c1, c2, hl1, ?_, hle2, ?_⟩
  · have h := hl2
    simp only [Int.toNat_ofNat] at h
    exact h
  · simp only [moveToNextWord, h1, Option.bind_eq_bind, Option.some_bind]
    exact h2

/-- C28 witness: from the bracket of `"foo (bar)"` (column 4). -/
theorem C28_witness :
    ∃ c1 c2 : Nat,
      LeastFrom (EndOrSpace true (sessionOnBracket.lines.getD sessionOnBracket.cursorY.toNat []))
        sessionOnBracket.cursorX.toNat c1 ∧
      LeastFrom (EndOrSpace false (sessionOnBracket.lines.getD sessionOnBracket.cursorY.toNat []))
        c1 c2 ∧
      c2 ≤ (sessionOnBracket.lines.getD sessionOnBracket.cursorY.toNat []).length ∧
      moveToNextWord sessionOnBracket = some { sessionOnBracket with cursorX := (c2 : Int) } :=
  C28_next_word_stays_on_the_row sessionOnBracket (by decide)

theorem prevWordCond_eq {s : TextEditor} {line : Line}
    (hline : vecAt s.lines s.cursorY = some line) (hx1 : s.cursorX ≤ (line.length : Int)) :
    prevWordCond s = some (decide (s.cursorX > 0) &&
      !isspace (line.getD (s.cursorX - 1).toNat (Char.ofNat 0))) := by
  unfold prevWordCond
  by_cases hx : s.cursorX > 0
  · rw [if_pos hx]
    simp only [hline, Option.bind_eq_bind, Option.some_bind,
      strAt_of_bounds line (s.cursorX - 1) (by omega) (by omega)]
    simp [hx]
  · rw [if_neg hx]
    simp [hx]

theorem prevWordInner_wordStart : ∀ (fuel : Nat) (s : TextEditor) (line : Line),
    vecAt s.lines s.cursorY = some line → 0 ≤ s.cursorX → s.cursorX ≤ (line.length : Int) →
    s.cursorX < (fuel : Int) →
    (prevWordCond s = some true ∨
      (s.cursorX < (line.length : Int) ∧
        isspace (line.getD s.cursorX.toNat (Char.ofNat 0)) = false)) →
    ∃ s2, prevWordInner fuel s = some s2 ∧ OnWordStart s2
  | 0, s, line, _, hx0, _, hf, _ => by omega
  | fuel + 1, s, line, hline, hx0, hx1, hf, hinv => by
    have hceq := prevWordCond_eq hline hx1
    simp only [prevWordInner, hceq, Option.bind_eq_bind, Option.some_bind]
    by_cases hc : (decide (s.cursorX > 0) &&
      !isspace (line.getD (s.cursorX - 1).toNat (Char.ofNat 0))) = true
    · rw [if_pos hc]
      simp only [Bool.and_eq_true, decide_eq_true_eq, Bool.not_eq_true'] at hc
      have hml : moveLeft s = some { s with cursorX := s.cursorX - 1 } := by
        simp only [moveLeft, if_pos hc.1]
      obtain ⟨s2, h2, hw⟩ := prevWordInner_wordStart fuel { s with cursorX := s.cursorX - 1 }
        line hline (by simp only; omega) (by simp only; omega)
        (by simp only; push_cast at hf; omega)
        (Or.inr ⟨by simp only; omega, hc.2⟩)
      refine ⟨s2, ?_, hw⟩
      rw [hml, Option.some_bind, h2]
    · rw [if_neg hc]
      refine ⟨s, rfl, ?_⟩
      rcases hinv with hinv | hinv
      · rw [hceq] at hinv
        exact absurd (Option.some.inj hinv) hc
      · refine ⟨line, hline, hx0, hinv.1, hinv.2, ?_⟩
        simp only [Bool.and_eq_true, decide_eq_true_eq, Bool.not_eq_true', not_and] at hc
        by_cases hx : s.cursorX > 0
        · right
          have := hc hx
          revert this
          cases isspace (line.getD (s.cursorX - 1).toNat (Char.ofNat 0)) <;> simp
        · left
          omega

theorem prevWordOuter_wordStart : ∀ (fuel : Nat) (s : TextEditor), ValidCursor s →
    cursorOffset s < fuel →
    ∃ s2, prevWordOuter fuel s = some s2 ∧
      ((s2.cursorY = 0 ∧ s2.cursorX = 0) ∨ OnWordStart s2)
  | 0, s, _, hf => absurd hf (Nat.not_lt_zero _)
  | fuel + 1, s, hv, hf => by
    unfold prevWordOuter
    by_cases hpos : s.cursorY > 0 ∨ s.cursorX > 0
    · rw [if_pos hpos]
      obtain ⟨s1, h1, hv1, hl1, hoff⟩ := moveLeft_offset hv hpos
      obtain ⟨c, hc, _⟩ := prevWordCond_valid hv1
      simp only [h1, hc, Option.bind_eq_bind, Option.some_bind]
      cases c with
      | true =>
        obtain ⟨line, hline, hx0, hx1⟩ := hv1.line
        obtain ⟨s2, h2, hw⟩ := prevWordInner_wordStart (fuel + 1) s1 line hline hx0 hx1 (by
          have : s1.cursorX.toNat ≤ cursorOffset s1 := Nat.le_add_right _ _
          push_cast
          omega) (Or.inl hc)
        exact ⟨s2, by simpa using h2, Or.inr hw⟩
      | false =>
        obtain ⟨s2, h2, hw⟩ := prevWordOuter_wordStart fuel s1 hv1 (by omega)
        exact ⟨s2, by simpa using h2, hw⟩
    · rw [if_neg hpos]
      refine ⟨s, rfl, Or.inl ?_⟩
      have := hv.1
      have := hv.2.2.1
      omega

/-- C29. On a valid cursor `moveToPreviousWord` returns, and afterwards the
cursor is at the buffer start (row 0, column 0), or it is on the first
character of a word: the character under it is not whitespace and it is at
column 0 or the character before it is whitespace. -/
theorem C29_previous_word_stops_on_word_start (s : TextEditor) (hv : ValidCursor s) :
    ∃ s2, moveToPreviousWord s = some s2 ∧
      ((s2.cursorY = 0 ∧ s2.cursorX = 0) ∨ OnWordStart s2) := by
  unfold moveToPreviousWord
  apply prevWordOuter_wordStart _ s hv
  have := bufferSize_take_le s.lines s.cursorY.toNat
  simp only [cursorOffset]
  omega

/-- C29 witness: from the bracket of `"foo (bar)"` (column 4). -/
theorem C29_witness :
    ∃ s2, moveToPreviousWord sessionOnBracket = some s2 ∧
      ((s2.cursorY = 0 ∧ s2.cursorX = 0) ∨ OnWordStart s2) :=
  C29_previous_word_stops_on_word_start sessionOnBracket (by decide)

/-! ## Bracket matching is an involution (C30) -/

theorem scanRowForward_cons (cur mat c : Char) (cs : List Char) (x d D : Int)
    (hD : D = if c = mat then (if c = cur then d + 1 else d) - 1
      else if c = cur then d + 1 else d) :
    scanRowForward cur mat (c :: cs) x d =
      if D = 0 then RowScan.found x else scanRowForward cur mat cs (x + 1) D := by
  subst hD
  rfl

theorem scanRowBackward_cons (cur mat c : Char) (cs : List Char) (x d D : Int)
    (hD : D = if c = mat then (if c = cur then d + 1 else d) - 1
      else if c = cur then d + 1 else d) :
    scanRowBackward cur mat (c :: cs) x d =
      if D = 0 then RowScan.found x else scanRowBackward cur mat cs (x - 1) D := by
  subst hD
  rfl

theorem scanRowBackward_eq (cur mat : Char) : ∀ (cs : List Char) (x x2 d : Int),
    scanRowBackward cur mat cs x2 d =
      match scanRowForward cur mat cs x d with
      | RowScan.found x1 => RowScan.found (x2 - (x1 - x))
      | RowScan.carry e => RowScan.carry e
  | [], _, _, _ => rfl
  | c :: cs, x, x2, d => by
    obtain ⟨D, hD⟩ : ∃ D : Int, D = if c = mat then (if c = cur then d + 1 else d) - 1
      else if c = cur then d + 1 else d := ⟨_, rfl⟩
    rw [scanRowForward_cons cur mat c cs x d D hD, scanRowBackward_cons cur mat c cs x2 d D hD]
    by_cases h0 : D = 0
    · simp only [if_pos h0]
      rw [show x2 - (x - x) = x2 by omega]
    · simp only [if_neg h0]
      rw [scanRowBackward_eq cur mat cs (x + 1) (x2 - 1)]
      cases scanRowForward cur mat cs (x + 1) D with
      | found x1 =>
        simp only [RowScan.found.injEq]
        omega
      | carry e => rfl

theorem scanRowForward_shift (cur mat : Char) : ∀ (cs : List Char) (x x2 d : Int),
    scanRowForward cur mat cs x2 d =
      match scanRowForward cur mat cs x d with
      | RowScan.found x1 => RowScan.found (x2 + (x1 - x))
      | RowScan.carry e => RowScan.carry e
  | [], _, _, _ => rfl
  | c :: cs, x, x2, d => by
    obtain ⟨D, hD⟩ : ∃ D : Int, D = if c = mat then (if c = cur then d + 1 else d) - 1
      else if c = cur then d + 1 else d := ⟨_, rfl⟩
    rw [scanRowForward_cons cur mat c cs x d D hD, scanRowForward_cons cur mat c cs x2 d D hD]
    by_cases h0 : D = 0
    · simp only [if_pos h0]
      rw [show x2 + (x - x) = x2 by omega]
    · simp only [if_neg h0]
      rw [scanRowForward_shift cur mat cs (x + 1) (x2 + 1)]
      cases scanRowForward cur mat cs (x + 1) D with
      | found x1 =>
        simp only [RowScan.found.injEq]
        omega
      | carry e => rfl

theorem scanRowForward_append (cur mat : Char) : ∀ (a b : List Char) (x d : Int),
    scanRowForward cur mat (a ++ b) x d =
      match scanRowForward cur mat a x d with
      | RowScan.found x1 => RowScan.found x1
      | RowScan.carry e => scanRowForward cur mat b (x + (a.length : Int)) e
  | [], b, x, d => by simp [scanRowForward]
  | c :: cs, b, x, d => by
    obtain ⟨D, hD⟩ : ∃ D : Int, D = if c = mat then (if c = cur then d + 1 else d) - 1
      else if c = cur then d + 1 else d := ⟨_, rfl⟩
    rw [List.cons_append, scanRowForward_cons cur mat c (cs ++ b) x d D hD,
      scanRowForward_cons cur mat c cs x d D hD]
    by_cases h0 : D = 0
    · simp only [if_pos h0]
    · simp only [if_neg h0]
      rw [scanRowForward_append cur mat cs b (x + 1)]
      simp only [List.length_cons]
      push_cast
      rw [show x + 1 + (cs.length : Int) = x + ((cs.length : Int) + 1) by omega]

theorem scanRowForward_carry_append (cur mat : Char) (a b : List Char) (x d e : Int)
    (h : scanRowForward cur mat (a ++ b) x d = RowScan.carry e) :
    ∃ e1, scanRowForward cur mat a x d = RowScan.carry e1 ∧
      scanRowForward cur mat b 0 e1 = RowScan.carry e := by
  rw [scanRowForward_append] at h
  cases h1 : scanRowForward cur mat a x d with
  | found x1 =>
    rw [h1] at h
    cases h
  | carry e1 =>
    rw [h1] at h
    dsimp only at h
    refine ⟨e1, rfl, ?_⟩
    rw [scanRowForward_shift cur mat b (x + (a.length : Int)) 0, h]

/-- Scanning `m` back to front with the two brackets exchanged undoes the depth changes. -/
theorem scanRowForward_mirror (cur mat : Char) (hne : cur ≠ mat) :
    ∀ (m : List Char) (x x2 d e : Int), 1 ≤ d →
    scanRowForward cur mat m x d = RowScan.carry e →
    1 ≤ e ∧ scanRowForward mat cur m.reverse x2 e = RowScan.carry d
  | [], x, x2, d, e, hd, h => by
    simp only [scanRowForward, RowScan.carry.injEq] at h
    subst h
    exact ⟨hd, rfl⟩
  | c :: cs, x, x2, d, e, hd, h => by
    obtain ⟨D, hD⟩ : ∃ D : Int, D = if c = mat then (if c = cur then d + 1 else d) - 1
      else if c = cur then d + 1 else d := ⟨_, rfl⟩
    rw [scanRowForward_cons cur mat c cs x d D hD] at h
    by_cases h0 : D = 0
    · rw [if_pos h0] at h
      cases h
    · rw [if_neg h0] at h
      have hD1 : 1 ≤ D := by
        split_ifs at hD <;> omega
      obtain ⟨he, hrec⟩ := scanRowForward_mirror cur mat hne cs (x + 1) x2 D e hD1 h
      refine ⟨he, ?_⟩
      rw [List.reverse_cons, scanRowForward_append, hrec]
      dsimp only
      have hback : d = if c = cur then (if c = mat then D + 1 else D) - 1
          else if c = mat then D + 1 else D := by
        by_cases hm : c = mat
        · have hc : c ≠ cur := fun hc => hne (hc.symm.trans hm)
          rw [if_pos hm, if_neg hc] at hD
          rw [if_neg hc, if_pos hm]
          omega
        · rw [if_neg hm] at hD
          rw [if_neg hm]
          split_ifs at hD ⊢ <;> omega
      rw [scanRowForward_cons mat cur c [] _ D d hback, if_neg (by omega)]
      rfl

theorem scanRowForward_found_split (cur mat : Char) (hne : cur ≠ mat) :
    ∀ (cs : List Char) (x d x2 : Int), 1 ≤ d →
    scanRowForward cur mat cs x d = RowScan.found x2 →
    ∃ m rest, cs = m ++ mat :: rest ∧ x2 = x + (m.length : Int) ∧
      scanRowForward cur mat m x d = RowScan.carry 1
  | [], _, _, _, _, h => by simp [scanRowForward] at h
  | c :: cs, x, d, x2, hd, h => by
    obtain ⟨D, hD⟩ : ∃ D : Int, D = if c = mat then (if c = cur then d + 1 else d) - 1
      else if c = cur then d + 1 else d := ⟨_, rfl⟩
    rw [scanRowForward_cons cur mat c cs x d D hD] at h
    by_cases h0 : D = 0
    · rw [if_pos h0] at h
      cases h
      have hm : c = mat ∧ d = 1 := by
        by_cases hm : c = mat
        · have hc : c ≠ cur := fun hc => hne (hc.symm.trans hm)
          rw [if_pos hm, if_neg hc] at hD
          exact ⟨hm, by omega⟩
        · rw [if_neg hm] at hD
          split_ifs at hD <;> omega
      refine ⟨[], cs, by rw [hm.1]; rfl, by simp, ?_⟩
      rw [hm.2]
      rfl
    · rw [if_neg h0] at h
      have hD1 : 1 ≤ D := by
        split_ifs at hD <;> omega
      obtain ⟨m, rest, hcs, hx, hcar⟩ :=
        scanRowForward_found_split cur mat hne cs (x + 1) D x2 hD1 h
      refine ⟨c :: m, rest, by rw [hcs]; rfl,
        by simp only [List.length_cons]; push_cast; omega, ?_⟩
      rw [scanRowForward_cons cur mat c m x d D hD, if_neg h0]
      exact hcar

theorem scanRowForward_found_of_carry (cur mat : Char) (hne : cur ≠ mat) (m rest : List Char)
    (x : Int) (d : Int) (h : scanRowForward cur mat m 0 d = RowScan.carry 1) :
    scanRowForward cur mat (m ++ mat :: rest) x d = RowScan.found (x + (m.length : Int)) := by
  have h1 : scanRowForward cur mat m x d = RowScan.carry 1 := by
    rw [scanRowForward_shift cur mat m 0 x, h]
  rw [scanRowForward_append, h1]
  dsimp only
  have hD : (0 : Int) = if mat = mat then (if mat = cur then (1 : Int) + 1 else 1) - 1
      else if mat = cur then (1 : Int) + 1 else 1 := by
    rw [if_pos rfl, if_neg (Ne.symm hne)]
    rfl
  simp only [scanRowForward_cons cur mat mat rest _ 1 0 hD, if_true]

theorem scanForward_carry (cur mat : Char) : ∀ (rows more : List Line) (y d e : Int),
    scanRowForward cur mat rows.flatten 0 d = RowScan.carry e →
    scanForward cur mat (rows ++ more) y d =
      scanForward cur mat more (y + (rows.length : Int)) e
  | [], more, y, d, e, h => by
    simp only [List.flatten_nil, scanRowForward, RowScan.carry.injEq] at h
    subst h
    simp
  | l :: rows, more, y, d, e, h => by
    rw [List.flatten_cons] at h
    obtain ⟨e1, h1, h2⟩ := scanRowForward_carry_append cur mat l rows.flatten 0 d e h
    rw [List.cons_append, scanForward, h1]
    dsimp only
    rw [scanForward_carry cur mat rows more (y + 1) e1 e h2]
    simp only [List.length_cons]
    push_cast
    rw [show y + 1 + (rows.length : Int) = y + ((rows.length : Int) + 1) by omega]

theorem scanBackward_carry (cur mat : Char) : ∀ (rows more : List Line) (y d e : Int),
    scanRowForward cur mat (rows.map List.reverse).flatten 0 d = RowScan.carry e →
    scanBackward cur mat (rows ++ more) y d =
      scanBackward cur mat more (y - (rows.length : Int)) e
  | [], more, y, d, e, h => by
    simp only [List.map_nil, List.flatten_nil, scanRowForward, RowScan.carry.injEq] at h
    subst h
    simp
  | l :: rows, more, y, d, e, h => by
    rw [List.map_cons, List.flatten_cons] at h
    obtain ⟨e1, h1, h2⟩ :=
      scanRowForward_carry_append cur mat l.reverse (rows.map List.reverse).flatten 0 d e h
    rw [List.cons_append, scanBackward, scanRowBackward_eq cur mat l.reverse 0, h1]
    dsimp only
    rw [scanBackward_carry cur mat rows more (y - 1) e1 e h2]
    simp only [List.length_cons]
    push_cast
    rw [show y - 1 - (rows.length : Int) = y - ((rows.length : Int) + 1) by omega]

theorem scanForward_found_split (cur mat : Char) (hne : cur ≠ mat) :
    ∀ (ls : List Line) (y d y2 x2 : Int), 1 ≤ d →
    scanForward cur mat ls y d = some (y2, x2) →
    ∃ pre l rest e, ls = pre ++ l :: rest ∧ y2 = y + (pre.length : Int) ∧
      scanRowForward cur mat pre.flatten 0 d = RowScan.carry e ∧ 1 ≤ e ∧
      scanRowForward cur mat l 0 e = RowScan.found x2
  | [], _, _, _, _, _, h => by simp [scanForward] at h
  | l :: ls, y, d, y2, x2, hd, h => by
    rw [scanForward] at h
    cases hrow : scanRowForward cur mat l 0 d with
    | found x =>
      rw [hrow] at h
      dsimp only at h
      cases h
      exact ⟨[], l, ls, d, rfl, by simp, rfl, hd, hrow⟩
    | carry e1 =>
      rw [hrow] at h
      dsimp only at h
      have he1 := (scanRowForward_mirror cur mat hne l 0 0 d e1 hd hrow).1
      obtain ⟨pre, l2, rest, e, hls, hy, hpre, he, hl2⟩ :=
        scanForward_found_split cur mat hne ls (y + 1) e1 y2 x2 he1 h
      refine ⟨l :: pre, l2, rest, e, by rw [hls]; rfl,
        by simp only [List.length_cons]; push_cast; omega, ?_, he, hl2⟩
      rw [List.flatten_cons, scanRowForward_append, hrow]
      dsimp only
      rw [scanRowForward_shift cur mat pre.flatten 0, hpre]

theorem scanBackward_found_split (cur mat : Char) (hne : cur ≠ mat) :
    ∀ (ls : List Line) (y d y2 x2 : Int), 1 ≤ d →
    scanBackward cur mat ls y d = some (y2, x2) →
    ∃ pre l rest e k, ls = pre ++ l :: rest ∧ y2 = y - (pre.length : Int) ∧
      scanRowForward cur mat (pre.map List.reverse).flatten 0 d = RowScan.carry e ∧ 1 ≤ e ∧
      scanRowForward cur mat l.reverse 0 e = RowScan.found k ∧
      x2 = (l.length : Int) - 1 - k
  | [], _, _, _, _, _, h => by simp [scanBackward] at h
  | l :: ls, y, d, y2, x2, hd, h => by
    rw [scanBackward, scanRowBackward_eq cur mat l.reverse 0] at h
    cases hrow : scanRowForward cur mat l.reverse 0 d with
    | found k =>
      rw [hrow] at h
      dsimp only at h
      cases h
      exact ⟨[], l, ls, d, k, rfl, by simp, rfl, hd, hrow, by omega⟩
    | carry e1 =>
      rw [hrow] at h
      dsimp only at h
      have he1 := (scanRowForward_mirror cur mat hne l.reverse 0 0 d e1 hd hrow).1
      obtain ⟨pre, l2, rest, e, k, hls, hy, hpre, he, hl2, hx⟩ :=
        scanBackward_found_split cur mat hne ls (y - 1) e1 y2 x2 he1 h
      refine ⟨l :: pre, l2, rest, e, k, by rw [hls]; rfl,
        by simp only [List.length_cons]; push_cast; omega, ?_, he, hl2, hx⟩
      rw [List.map_cons, List.flatten_cons, scanRowForward_append, hrow]
      dsimp only
      rw [scanRowForward_shift cur mat (pre.map List.reverse).flatten 0, hpre]

theorem bracketPartner_swap {c m : Char} {f : Bool} (h : bracketPartner c = some (m, f)) :
    c ≠ m ∧ c ≠ Char.ofNat 0 ∧ bracketPartner m = some (c, !f) := by
  unfold bracketPartner at h
  split_ifs at h with h1 h2 h3 h4 h5 h6
  all_goals
    simp only [Option.some.injEq, Prod.mk.injEq] at h
    obtain ⟨hm, hf⟩ := h
    subst hm hf
    first
      | subst h1
      | subst h2
      | subst h3
      | subst h4
      | subst h5
      | subst h6
    decide

theorem vecAt_append_cons {α : Type} (p q : List α) (a : α) :
    vecAt (p ++ a :: q) (p.length : Int) = some a := by
  unfold vecAt
  rw [if_pos (by omega), Int.toNat_ofNat, List.getElem?_append_right (le_refl _), Nat.sub_self,
    List.getElem?_cons_zero]

theorem strAt_append_cons (a r : List Char) (c : Char) :
    strAt (a ++ c :: r) (a.length : Int) = some c := by
  rw [strAt_of_bounds _ _ (by omega)
    (by simp only [List.length_append, List.length_cons]; push_cast; omega)]
  rw [Int.toNat_ofNat, List.getD_eq_getElem?_getD, List.getElem?_append_right (le_refl _),
    Nat.sub_self, List.getElem?_cons_zero, Option.getD_some]

/-- The forward branch of `jumpToMatchingBracket`, for the cursor on `cur` after `a` in the row after `p`. -/
theorem jump_forward (s : TextEditor) (p q : List Line) (a r : List Char) (cur mat : Char)
    (hl : s.lines = p ++ (a ++ cur :: r) :: q) (hy : s.cursorY = (p.length : Int))
    (hx : s.cursorX = (a.length : Int)) (hb : bracketPartner cur = some (mat, true)) :
    jumpToMatchingBracket s = some
      (match scanRowForward cur mat r ((a.length : Int) + 1) 1 with
       | RowScan.found x => { s with cursorY := (p.length : Int), cursorX := x }
       | RowScan.carry d =>
         match scanForward cur mat q ((p.length : Int) + 1) d with
         | some (y, x) => { s with cursorY := y, cursorX := x }
         | none => s) := by
  have hdropx : (a ++ cur :: r).drop ((a.length : Int) + 1).toNat = r := by
    rw [show ((a.length : Int) + 1).toNat = a.length + 1 by omega]
    simp
  have hdropy : (p ++ (a ++ cur :: r) :: q).drop ((p.length : Int) + 1).toNat = q := by
    rw [show ((p.length : Int) + 1).toNat = p.length + 1 by omega]
    simp
  simp only [jumpToMatchingBracket, hl, hy, hx, vecAt_append_cons, strAt_append_cons, hb,
    Option.bind_eq_bind, Option.some_bind, if_true, hdropx, hdropy]
  cases scanRowForward cur mat r ((a.length : Int) + 1) 1 with
  | found x => rfl
  | carry d =>
    dsimp only
    cases scanForward cur mat q ((p.length : Int) + 1) d with
    | none => rfl
    | some yx => rfl

/-- The backward branch of `jumpToMatchingBracket`, for the cursor on `cur` after `a` in the row after `p`. -/
theorem jump_backward (s : TextEditor) (p q : List Line) (a r : List Char) (cur mat : Char)
    (hl : s.lines = p ++ (a ++ cur :: r) :: q) (hy : s.cursorY = (p.length : Int))
    (hx : s.cursorX = (a.length : Int)) (hb : bracketPartner cur = some (mat, false)) :
    jumpToMatchingBracket s = some
      (match scanRowBackward cur mat a.reverse ((a.length : Int) - 1) 1 with
       | RowScan.found x => { s with cursorY := (p.length : Int), cursorX := x }
       | RowScan.carry d =>
         match scanBackward cur mat p.reverse ((p.length : Int) - 1) d with
         | some (y, x) => { s with cursorY := y, cursorX := x }
         | none => s) := by
  have htakex : (a ++ cur :: r).take ((a.length : Int)).toNat = a := by
    rw [Int.toNat_ofNat]
    simp
  have htakey : (p ++ (a ++ cur :: r) :: q).take ((p.length : Int)).toNat = p := by
    rw [Int.toNat_ofNat]
    simp
  simp only [jumpToMatchingBracket, hl, hy, hx, vecAt_append_cons, strAt_append_cons, hb,
    Option.bind_eq_bind, Option.some_bind, Bool.false_eq_true, if_false, htakex, htakey]
  cases scanRowBackward cur mat a.reverse ((a.length : Int) - 1) 1 with
  | found x => rfl
  | carry d =>
    dsimp only
    cases scanBackward cur mat p.reverse ((p.length : Int) - 1) d with
    | none => rfl
    | some yx => rfl

theorem restore_cursor (s : TextEditor) (y x y2 x2 : Int) (hy : y2 = s.cursorY)
    (hx : x2 = s.cursorX) :
    ({ ({ s with cursorY := y, cursorX := x } : TextEditor) with
        cursorY := y2, cursorX := x2 } : TextEditor) = s := by
  subst hy hx
  rfl

theorem reverse_rows_flatten (rows : List Line) :
    (rows.reverse.map List.reverse).flatten = rows.flatten.reverse := by
  rw [List.reverse_flatten, List.map_reverse]

theorem jump_involution_forward (s s2 : TextEditor) (p q : List Line) (a r : List Char)
    (cur mat : Char) (hl : s.lines = p ++ (a ++ cur :: r) :: q)
    (hy : s.cursorY = (p.length : Int)) (hx : s.cursorX = (a.length : Int))
    (hb : bracketPartner cur = some (mat, true)) (h : jumpToMatchingBracket s = some s2) :
    s2 = s ∨ jumpToMatchingBracket s2 = some s := by
  obtain ⟨hne, _, hb2⟩ := bracketPartner_swap hb
  rw [jump_forward s p q a r cur mat hl hy hx hb] at h
  cases hF : scanRowForward cur mat r ((a.length : Int) + 1) 1 with
  | found x =>
    rw [hF] at h
    dsimp only at h
    have hs2 := (Option.some.inj h).symm
    have hsl : s2.lines = s.lines := by rw [hs2]
    have hsy : s2.cursorY = (p.length : Int) := by rw [hs2]
    have hsx : s2.cursorX = x := by rw [hs2]
    right
    obtain ⟨m, rest, hr, hxm, hcar⟩ :=
      scanRowForward_found_split cur mat hne r _ 1 x (le_refl _) hF
    have hmir := (scanRowForward_mirror cur mat hne m _ 0 1 1 (le_refl _) hcar).2
    have hB : scanRowBackward mat cur (a ++ cur :: m).reverse
        (((a ++ cur :: m).length : Int) - 1) 1 = RowScan.found (a.length : Int) := by
      rw [scanRowBackward_eq mat cur _ 0,
        show (a ++ cur :: m).reverse = m.reverse ++ cur :: a.reverse by simp,
        scanRowForward_found_of_carry mat cur (Ne.symm hne) m.reverse a.reverse 0 1 hmir]
      dsimp only
      simp only [List.length_append, List.length_cons, List.length_reverse]
      push_cast
      congr 1
      omega
    rw [jump_backward s2 p q (a ++ cur :: m) rest mat cur
      (by rw [hsl, hl, hr]; simp) hsy
      (by rw [hsx, hxm]; simp only [List.length_append, List.length_cons]; push_cast; omega)
      hb2, hB]
    dsimp only
    rw [hs2]
    exact congrArg some (restore_cursor s _ _ _ _ hy.symm hx.symm)
  | carry d1 =>
    rw [hF] at h
    dsimp only at h
    cases hS : scanForward cur mat q ((p.length : Int) + 1) d1 with
    | none =>
      rw [hS] at h
      exact Or.inl (Option.some.inj h).symm
    | some yx =>
      obtain ⟨y, x⟩ := yx
      rw [hS] at h
      dsimp only at h
      have hs2 := (Option.some.inj h).symm
      have hsl : s2.lines = s.lines := by rw [hs2]
      have hsy : s2.cursorY = y := by rw [hs2]
      have hsx : s2.cursorX = x := by rw [hs2]
      right
      obtain ⟨hd1, hmir_r⟩ := scanRowForward_mirror cur mat hne r _ 0 1 d1 (le_refl _) hF
      obtain ⟨pre, l, rest, e, hq, hyv, hpre, he, hl2⟩ :=
        scanForward_found_split cur mat hne q _ d1 y x hd1 hS
      obtain ⟨m, rest2, hlm, hxm, hcar⟩ :=
        scanRowForward_found_split cur mat hne l 0 e x he hl2
      have hmir_m := (scanRowForward_mirror cur mat hne m 0 0 e 1 he hcar).2
      have hmir_pre := (scanRowForward_mirror cur mat hne pre.flatten 0 0 d1 e hd1 hpre).2
      rw [← reverse_rows_flatten] at hmir_pre
      have hB1 : scanRowBackward mat cur m.reverse ((m.length : Int) - 1) 1 = RowScan.carry e := by
        rw [scanRowBackward_eq mat cur _ 0, hmir_m]
      have hB2 : scanBackward mat cur (p ++ (a ++ cur :: r) :: pre).reverse
          (((p ++ (a ++ cur :: r) :: pre).length : Int) - 1) e =
          some ((p.length : Int), (a.length : Int)) := by
        rw [show (p ++ (a ++ cur :: r) :: pre).reverse =
            pre.reverse ++ ((a ++ cur :: r) :: p.reverse) by simp,
          scanBackward_carry mat cur pre.reverse _ _ e d1 hmir_pre,
          scanBackward, scanRowBackward_eq mat cur _ 0,
          show (a ++ cur :: r).reverse = r.reverse ++ cur :: a.reverse by simp,
          scanRowForward_found_of_carry mat cur (Ne.symm hne) r.reverse a.reverse 0 d1 hmir_r]
        dsimp only
        simp only [List.length_append, List.length_cons, List.length_reverse]
        push_cast
        rw [Option.some.injEq, Prod.mk.injEq]
        constructor <;> omega
      rw [jump_backward s2 (p ++ (a ++ cur :: r) :: pre) rest m rest2 mat cur
        (by rw [hsl, hl, hq, hlm]; simp)
        (by rw [hsy, hyv]; simp only [List.length_append, List.length_cons]; push_cast; omega)
        (by rw [hsx, hxm]; omega)
        hb2, hB1]
      dsimp only
      rw [hB2]
      dsimp only
      rw [hs2]
      exact congrArg some (restore_cursor s _ _ _ _ hy.symm hx.symm)

theorem jump_involution_backward (s s2 : TextEditor) (p q : List Line) (a r : List Char)
    (cur mat : Char) (hl : s.lines = p ++ (a ++ cur :: r) :: q)
    (hy : s.cursorY = (p.length : Int)) (hx : s.cursorX = (a.length : Int))
    (hb : bracketPartner cur = some (mat, false)) (h : jumpToMatchingBracket s = some s2) :
    s2 = s ∨ jumpToMatchingBracket s2 = some s := by
  obtain ⟨hne, _, hb2⟩ := bracketPartner_swap hb
  rw [jump_backward s p q a r cur mat hl hy hx hb, scanRowBackward_eq cur mat _ 0] at h
  cases hF : scanRowForward cur mat a.reverse 0 1 with
  | found k =>
    rw [hF] at h
    dsimp only at h
    have hs2 := (Option.some.inj h).symm
    have hsl : s2.lines = s.lines := by rw [hs2]
    have hsy : s2.cursorY = (p.length : Int) := by rw [hs2]
    have hsx : s2.cursorX = (a.length : Int) - 1 - (k - 0) := by rw [hs2]
    right
    obtain ⟨m, rest, hr, hkm, hcar⟩ :=
      scanRowForward_found_split cur mat hne a.reverse 0 1 k (le_refl _) hF
    have ha : a = rest.reverse ++ mat :: m.reverse := by
      have := congrArg List.reverse hr
      rw [List.reverse_reverse] at this
      rw [this]
      simp
    have hmir := (scanRowForward_mirror cur mat hne m 0 0 1 1 (le_refl _) hcar).2
    have hFw : scanRowForward mat cur (m.reverse ++ cur :: r) ((rest.reverse.length : Int) + 1) 1 =
        RowScan.found (a.length : Int) := by
      rw [scanRowForward_found_of_carry mat cur (Ne.symm hne) m.reverse r _ 1 hmir, ha]
      simp only [List.length_append, List.length_cons, List.length_reverse]
      push_cast
      congr 1
      omega
    rw [jump_forward s2 p q rest.reverse (m.reverse ++ cur :: r) mat cur
      (by rw [hsl, hl, ha]; simp) hsy
      (by rw [hsx, hkm, ha]
          simp only [List.length_append, List.length_cons, List.length_reverse]
          push_cast
          omega)
      hb2, hFw]
    dsimp only
    rw [hs2]
    exact congrArg some (restore_cursor s _ _ _ _ hy.symm hx.symm)
  | carry d1 =>
    rw [hF] at h
    dsimp only at h
    cases hS : scanBackward cur mat p.reverse ((p.length : Int) - 1) d1 with
    | none =>
      rw [hS] at h
      exact Or.inl (Option.some.inj h).symm
    | some yx =>
      obtain ⟨y, x⟩ := yx
      rw [hS] at h
      dsimp only at h
      have hs2 := (Option.some.inj h).symm
      have hsl : s2.lines = s.lines := by rw [hs2]
      have hsy : s2.cursorY = y := by rw [hs2]
      have hsx : s2.cursorX = x := by rw [hs2]
      right
      obtain ⟨hd1, hmir_a⟩ := scanRowForward_mirror cur mat hne a.reverse 0 0 1 d1 (le_refl _) hF
      rw [List.reverse_reverse] at hmir_a
      obtain ⟨pre, l, rest, e, k, hp, hyv, hpre, he, hl2, hxv⟩ :=
        scanBackward_found_split cur mat hne p.reverse _ d1 y x hd1 hS
      obtain ⟨m, rest2, hlm, hkm, hcar⟩ :=
        scanRowForward_found_split cur mat hne l.reverse 0 e k he hl2
      have hlrow : l = rest2.reverse ++ mat :: m.reverse := by
        have := congrArg List.reverse hlm
        rw [List.reverse_reverse] at this
        rw [this]
        simp
      have hprow : p = rest.reverse ++ l :: pre.reverse := by
        have := congrArg List.reverse hp
        rw [List.reverse_reverse] at this
        rw [this]
        simp
      have hmir_m := (scanRowForward_mirror cur mat hne m 0 0 e 1 he hcar).2
      have hmir_pre := (scanRowForward_mirror cur mat hne (pre.map List.reverse).flatten 0 0 d1 e
        hd1 hpre).2
      rw [← List.flatten_reverse] at hmir_pre
      have hF1 : scanRowForward mat cur m.reverse ((rest2.reverse.length : Int) + 1) 1 =
          RowScan.carry e := by
        rw [scanRowForward_shift mat cur _ 0, hmir_m]
      have hF2 : scanForward mat cur (pre.reverse ++ (a ++ cur :: r) :: q)
          ((rest.reverse.length : Int) + 1) e = some ((p.length : Int), (a.length : Int)) := by
        rw [scanForward_carry mat cur pre.reverse _ _ e d1 hmir_pre, scanForward,
          scanRowForward_found_of_carry mat cur (Ne.symm hne) a r 0 d1 hmir_a]
        dsimp only
        rw [hprow]
        simp only [List.length_append, List.length_cons, List.length_reverse]
        push_cast
        rw [Option.some.injEq, Prod.mk.injEq]
        constructor <;> omega
      rw [jump_forward s2 rest.reverse (pre.reverse ++ (a ++ cur :: r) :: q) rest2.reverse m.reverse
        mat cur
        (by rw [hsl, hl, hprow, hlrow]; simp)
        (by rw [hsy, hyv, hprow]
            simp only [List.length_append, List.length_cons, List.length_reverse]
            push_cast
            omega)
        (by rw [hsx, hxv, hkm, hlrow]
            simp only [List.length_append, List.length_cons, List.length_reverse]
            push_cast
            omega)
        hb2, hF1]
      dsimp only
      rw [hF2]
      dsimp only
      rw [hs2]
      exact congrArg some (restore_cursor s _ _ _ _ hy.symm hx.symm)

theorem list_split_at {α : Type} (l : List α) (n : Nat) (a : α) (h : l[n]? = some a) :
    l = l.take n ++ a :: l.drop (n + 1) ∧ (l.take n).length = n := by
  obtain ⟨hn, ha⟩ := List.getElem?_eq_some.mp h
  refine ⟨?_, by rw [List.length_take]; omega⟩
  rw [← ha, List.getElem_cons_drop, List.take_append_drop]

theorem jump_decompose {s s2 : TextEditor} (h : jumpToMatchingBracket s = some s2) :
    s2 = s ∨ ∃ p q a r cur mat fwd, s.lines = p ++ (a ++ cur :: r) :: q ∧
      s.cursorY = (p.length : Int) ∧ s.cursorX = (a.length : Int) ∧
      bracketPartner cur = some (mat, fwd) := by
  simp only [jumpToMatchingBracket, Option.bind_eq_bind, Option.bind_eq_some] at h
  obtain ⟨row, hline, c, hc, h⟩ := h
  cases hb : bracketPartner c with
  | none =>
    rw [hb] at h
    exact Or.inl (Option.some.inj h).symm
  | some mf =>
    obtain ⟨mat, fwd⟩ := mf
    right
    have hy := vecAt_some_bounds hline
    have hrw : s.lines[s.cursorY.toNat]? = some row := by
      simp only [vecAt, if_pos hy.1] at hline
      exact hline
    obtain ⟨hls, hplen⟩ := list_split_at s.lines s.cursorY.toNat row hrw
    have hc0 := (bracketPartner_swap hb).2.1
    unfold strAt at hc
    split_ifs at hc with hx
    have hcx : row[s.cursorX.toNat]? = some c := by
      rw [List.getD_eq_getElem?_getD] at hc
      cases hg : row[s.cursorX.toNat]? with
      | none =>
        rw [hg] at hc
        exact absurd (Option.some.inj hc).symm hc0
      | some c2 =>
        rw [hg] at hc
        exact congrArg some (Option.some.inj hc)
    obtain ⟨hcs, halen⟩ := list_split_at row s.cursorX.toNat c hcx
    refine ⟨s.lines.take s.cursorY.toNat, s.lines.drop (s.cursorY.toNat + 1),
      row.take s.cursorX.toNat, row.drop (s.cursorX.toNat + 1), c, mat, fwd, ?_, ?_, ?_, hb⟩
    · rw [← hcs]
      exact hls
    · rw [hplen]
      omega
    · rw [halen]
      omega

theorem jump_changes_cursor_only {s s2 : TextEditor} (h : jumpToMatchingBracket s = some s2) :
    s2 = { s with cursorY := s2.cursorY, cursorX := s2.cursorX } := by
  simp only [jumpToMatchingBracket, Option.bind_eq_bind, Option.bind_eq_some] at h
  obtain ⟨line, _, c, _, h⟩ := h
  split at h
  · cases h
    rfl
  · split_ifs at h
    · split at h
      · cases h
        rfl
      · split at h <;> cases h <;> rfl
    · split at h
      · cases h
        rfl
      · split at h <;> cases h <;> rfl

theorem depth_step (cur mat c : Char) (hne : cur ≠ mat) (d D : Int) (seg : List Char)
    (hD : D = if c = mat then (if c = cur then d + 1 else d) - 1
      else if c = cur then d + 1 else d) :
    d + ((c :: seg).count cur : Int) - ((c :: seg).count mat : Int) =
      D + (seg.count cur : Int) - (seg.count mat : Int) := by
  rw [List.count_cons, List.count_cons]
  simp only [beq_iff_eq]
  by_cases hm : c = mat
  · have hc : c ≠ cur := fun hc => hne (hc.symm.trans hm)
    rw [if_pos hm, if_neg hc] at hD
    rw [if_neg hc, if_pos hm]
    push_cast
    omega
  · rw [if_neg hm] at hD
    by_cases hc : c = cur
    · rw [if_pos hc] at hD
      rw [if_pos hc, if_neg hm]
      push_cast
      omega
    · rw [if_neg hc] at hD
      rw [if_neg hc, if_neg hm]
      push_cast
      omega

/-- A scan over a text in which the depth never reaches 0 carries its depth to the end. -/
theorem scanRowForward_of_no_match (cur mat : Char) (hne : cur ≠ mat) :
    ∀ (cs : List Char) (x d : Int),
    (∀ n, 0 < n → n ≤ cs.length →
      d + ((cs.take n).count cur : Int) - ((cs.take n).count mat : Int) ≠ 0) →
    ∃ e, scanRowForward cur mat cs x d = RowScan.carry e
  | [], _, d, _ => ⟨d, rfl⟩
  | c :: cs, x, d, h => by
    obtain ⟨D, hD⟩ : ∃ D : Int, D = if c = mat then (if c = cur then d + 1 else d) - 1
      else if c = cur then d + 1 else d := ⟨_, rfl⟩
    have h1 := h 1 (by omega) (by simp only [List.length_cons]; omega)
    rw [List.take_succ_cons, List.take_zero, depth_step cur mat c hne d D [] hD] at h1
    simp only [List.count_nil, Nat.cast_zero, add_zero, sub_zero] at h1
    rw [scanRowForward_cons cur mat c cs x d D hD, if_neg h1]
    apply scanRowForward_of_no_match cur mat hne cs (x + 1) D
    intro n hn0 hn1
    have h2 := h (n + 1) (by omega) (by simp only [List.length_cons]; omega)
    rw [List.take_succ_cons, depth_step cur mat c hne d D _ hD] at h2
    exact h2

theorem noMatchIn_scan (cur mat : Char) (hne : cur ≠ mat) (text : List Char) (x : Int)
    (h : NoMatchIn cur mat text) : ∃ e, scanRowForward cur mat text x 1 = RowScan.carry e :=
  scanRowForward_of_no_match cur mat hne text x 1 h

/-- The buffer around the character under the cursor. -/
theorem cursor_split {s : TextEditor} {row : Line} {c : Char}
    (hrow : vecAt s.lines s.cursorY = some row) (hc : strAt row s.cursorX = some c)
    (hc0 : c ≠ Char.ofNat 0) :
    s.lines = s.lines.take s.cursorY.toNat ++
        (row.take s.cursorX.toNat ++ c :: row.drop (s.cursorX.toNat + 1)) ::
        s.lines.drop (s.cursorY.toNat + 1) ∧
      s.cursorY = ((s.lines.take s.cursorY.toNat).length : Int) ∧
      s.cursorX = ((row.take s.cursorX.toNat).length : Int) ∧
      s.lines.getD s.cursorY.toNat [] = row := by
  have hy := vecAt_some_bounds hrow
  have hrw : s.lines[s.cursorY.toNat]? = some row := by
    simp only [vecAt, if_pos hy.1] at hrow
    exact hrow
  obtain ⟨hls, hplen⟩ := list_split_at s.lines s.cursorY.toNat row hrw
  unfold strAt at hc
  split_ifs at hc with hx
  have hcx : row[s.cursorX.toNat]? = some c := by
    rw [List.getD_eq_getElem?_getD] at hc
    cases hg : row[s.cursorX.toNat]? with
    | none =>
      rw [hg] at hc
      exact absurd (Option.some.inj hc).symm hc0
    | some c2 =>
      rw [hg] at hc
      exact congrArg some (Option.some.inj hc)
  obtain ⟨hcs, halen⟩ := list_split_at row s.cursorX.toNat c hcx
  refine ⟨?_, by rw [hplen]; omega, by rw [halen]; omega, vecAt_getD [] hrow⟩
  rw [← hcs]
  exact hls

theorem jump_no_match_forward {s : TextEditor} {row : Line} {c mat : Char}
    (hrow : vecAt s.lines s.cursorY = some row) (hc : strAt row s.cursorX = some c)
    (hb : bracketPartner c = some (mat, true)) (hno : NoMatchIn c mat (textAfterCursor s)) :
    jumpToMatchingBracket s = some s := by
  obtain ⟨hne, hc0, _⟩ := bracketPartner_swap hb
  obtain ⟨hl, hy, hx, hget⟩ := cursor_split hrow hc hc0
  unfold textAfterCursor at hno
  rw [hget] at hno
  obtain ⟨e, he⟩ := noMatchIn_scan c mat hne _
    (((row.take s.cursorX.toNat).length : Int) + 1) hno
  obtain ⟨e1, h1, h2⟩ := scanRowForward_carry_append c mat _ _ _ 1 e he
  have h3 := scanForward_carry c mat (s.lines.drop (s.cursorY.toNat + 1)) []
    (((s.lines.take s.cursorY.toNat).length : Int) + 1) e1 e h2
  rw [List.append_nil] at h3
  rw [jump_forward s _ _ _ _ c mat hl hy hx hb, h1]
  dsimp only
  rw [h3]
  rfl

theorem jump_no_match_backward {s : TextEditor} {row : Line} {c mat : Char}
    (hrow : vecAt s.lines s.cursorY = some row) (hc : strAt row s.cursorX = some c)
    (hb : bracketPartner c = some (mat, false)) (hno : NoMatchIn c mat (textBeforeCursor s)) :
    jumpToMatchingBracket s = some s := by
  obtain ⟨hne, hc0, _⟩ := bracketPartner_swap hb
  obtain ⟨hl, hy, hx, hget⟩ := cursor_split hrow hc hc0
  unfold textBeforeCursor at hno
  rw [hget, List.reverse_append] at hno
  obtain ⟨e, he⟩ := noMatchIn_scan c mat hne _ 0 hno
  obtain ⟨e1, h1, h2⟩ := scanRowForward_carry_append c mat _ _ _ 1 e he
  rw [← reverse_rows_flatten] at h2
  have h3 := scanBackward_carry c mat (s.lines.take s.cursorY.toNat).reverse []
    (((s.lines.take s.cursorY.toNat).length : Int) - 1) e1 e h2
  rw [List.append_nil] at h3
  rw [jump_backward s _ _ _ _ c mat hl hy hx hb, scanRowBackward_eq c mat _ 0, h1]
  dsimp only
  rw [h3]
  rfl

/-- C30. On a valid cursor `jumpToMatchingBracket` returns. Whenever it
returns, it has changed nothing but the cursor row and column; if it moved the
cursor from `p` to a different position `q`, on the same row or on another
one, then `jumpToMatchingBracket` from `q` returns the original state, with
the cursor back at `p`; and if the character under the cursor is none of
`( ) { } [ ]`, the state is unchanged. If the character under the cursor is an
opening bracket and no match is found in the text after the cursor (rest of
the row, then the rows below: read from depth 1, one more for the same
bracket, one less for its partner, the depth is never 0), or it is a closing
bracket and no match is found in the text in front of the cursor read
backwards, then the function returns the state unchanged. -/
theorem C30_bracket_jump_is_an_involution (s : TextEditor) :
    (ValidCursor s → ∃ s2, jumpToMatchingBracket s = some s2) ∧
    (∀ s2, jumpToMatchingBracket s = some s2 →
      s2 = { s with cursorY := s2.cursorY, cursorX := s2.cursorX } ∧
      ((s2.cursorY ≠ s.cursorY ∨ s2.cursorX ≠ s.cursorX) →
        jumpToMatchingBracket s2 = some s) ∧
      (∀ line c, vecAt s.lines s.cursorY = some line → strAt line s.cursorX = some c →
        bracketPartner c = none → s2 = s)) ∧
    (∀ row c mat, vecAt s.lines s.cursorY = some row → strAt row s.cursorX = some c →
      (bracketPartner c = some (mat, true) → NoMatchIn c mat (textAfterCursor s) →
        jumpToMatchingBracket s = some s) ∧
      (bracketPartner c = some (mat, false) → NoMatchIn c mat (textBeforeCursor s) →
        jumpToMatchingBracket s = some s)) := by
  refine ⟨?_, ?_, ?_⟩
  · intro hv
    obtain ⟨s2, h2, _⟩ := jumpToMatchingBracket_valid hv
    exact ⟨s2, h2⟩
  · intro s2 h
    refine ⟨jump_changes_cursor_only h, ?_, ?_⟩
    · intro hmoved
      have hne : s2 ≠ s := by
        intro heq
        rw [heq] at hmoved
        rcases hmoved with hm | hm <;> exact hm rfl
      rcases jump_decompose h with heq | ⟨p, q, a, r, cur, mat, fwd, hl, hy, hx, hb⟩
      · exact absurd heq hne
      · cases fwd with
        | true =>
          rcases jump_involution_forward s s2 p q a r cur mat hl hy hx hb h with heq | hback
          · exact absurd heq hne
          · exact hback
        | false =>
          rcases jump_involution_backward s s2 p q a r cur mat hl hy hx hb h with heq | hback
          · exact absurd heq hne
          · exact hback
    · intro line c hline hc hb
      simp only [jumpToMatchingBracket, hline, hc, hb, Option.bind_eq_bind, Option.some_bind] at h
      exact (Option.some.inj h).symm
  · intro row c mat hrow hc
    exact ⟨fun hb hno => jump_no_match_forward hrow hc hb hno,
      fun hb hno => jump_no_match_backward hrow hc hb hno⟩

/-- C30 witness: on `"foo (bar)"` the jump from the `(` at column 4 returns,
and the jump from the `)` at column 8 leads back to column 4; on `")("` the
jump from the `)` at column 0, which has no match in front of it, and the jump
from the `(` at column 1, which has none after it, leave the state unchanged. -/
theorem C30_witness :
    (∃ s2, jumpToMatchingBracket sessionOnBracket = some s2) ∧
    jumpToMatchingBracket { sessionOnBracket with cursorX := 8 } = some sessionOnBracket ∧
    jumpToMatchingBracket sessionUnmatched = some sessionUnmatched ∧
    jumpToMatchingBracket { sessionUnmatched with cursorX := 1 } =
      some { sessionUnmatched with cursorX := 1 } :=
  ⟨(C30_bracket_jump_is_an_involution sessionOnBracket).1 (by decide),
    ((C30_bracket_jump_is_an_involution sessionOnBracket).2.1
      { sessionOnBracket with cursorX := 8 } (by decide)).2.1 (Or.inr (by decide)),
    ((C30_bracket_jump_is_an_involution sessionUnmatched).2.2 [')', '('] ')' '(' rfl rfl).2 rfl
      (by
        intro n hn0 hn1
        exact absurd hn1 (by simp [textBeforeCursor, sessionUnmatched, freshSession,
          TextEditor.new, loadFile, getlines]; omega)),
    ((C30_bracket_jump_is_an_involution { sessionUnmatched with cursorX := 1 }).2.2
      [')', '('] '(' ')' rfl rfl).1 rfl
      (by
        intro n hn0 hn1
        exact absurd hn1 (by simp [textAfterCursor, sessionUnmatched, freshSession,
          TextEditor.new, loadFile, getlines]; omega))⟩

/-! ## `moveLeft` and `moveRight` undo each other (C31) -/

/-- C31. The functions `moveLeft` and `moveRight` are the same text in
`pbedit-vi.cpp` and `pbedit_linux.cpp`. On a valid cursor that is not at the
end of the last line, `moveRight` followed by `moveLeft` returns with the
cursor row and column (and the buffer) as at the start; on a valid cursor
other than row 0, column 0, `moveLeft` followed by `moveRight` does. -/
theorem C31_moveLeft_moveRight_inverse (s : TextEditor) (hv : ValidCursor s) :
    (¬ (s.cursorY = (s.lines.length : Int) - 1 ∧
        s.cursorX = ((s.lines.getD s.cursorY.toNat []).length : Int)) →
      ∃ s1 s2, moveRight s = some s1 ∧ moveLeft s1 = some s2 ∧
        (s1.cursorY ≠ s.cursorY ∨ s1.cursorX ≠ s.cursorX) ∧
        s2.cursorY = s.cursorY ∧ s2.cursorX = s.cursorX ∧ s2.lines = s.lines) ∧
    (¬ (s.cursorY = 0 ∧ s.cursorX = 0) →
      ∃ s1 s2, moveLeft s = some s1 ∧ moveRight s1 = some s2 ∧
        (s1.cursorY ≠ s.cursorY ∨ s1.cursorX ≠ s.cursorX) ∧
        s2.cursorY = s.cursorY ∧ s2.cursorX = s.cursorX ∧ s2.lines = s.lines) := by
  have hy0 := hv.1
  have hy1 := hv.2.1
  have hx0 := hv.2.2.1
  have hx1 := hv.2.2.2
  have hline := vecAt_of_bounds s.lines s.cursorY [] hy0 hy1
  generalize s.lines.getD s.cursorY.toNat [] = row at hline hx1 ⊢
  constructor
  · intro hend
    by_cases hx : s.cursorX < (row.length : Int)
    · refine ⟨{ s with cursorX := s.cursorX + 1 }, { s with cursorX := s.cursorX + 1 - 1 }, ?_, ?_,
        Or.inr (by simp only; omega), rfl, by simp only; omega, rfl⟩
      · simp only [moveRight, hline, Option.bind_eq_bind, Option.some_bind, if_pos hx]
      · have hpos : s.cursorX + 1 > 0 := by omega
        simp only [moveLeft, if_pos hpos]
    · have hy : s.cursorY < (s.lines.length : Int) - 1 := by
        by_contra hy
        exact hend ⟨by omega, by omega⟩
      have hline1 : vecAt s.lines (s.cursorY + 1 - 1) = some row := by
        rw [show s.cursorY + 1 - 1 = s.cursorY by omega]
        exact hline
      refine ⟨{ s with cursorY := s.cursorY + 1, cursorX := 0,
                       offsetY := if s.cursorY + 1 ≥ s.offsetY + s.LINES - 2 then s.offsetY + 1
                                  else s.offsetY }, ?_⟩
      refine ⟨{ s with cursorY := s.cursorY + 1 - 1, cursorX := (row.length : Int),
                       offsetY :=
                         if s.cursorY + 1 - 1 <
                             (if s.cursorY + 1 ≥ s.offsetY + s.LINES - 2 then s.offsetY + 1
                              else s.offsetY)
                         then (if s.cursorY + 1 ≥ s.offsetY + s.LINES - 2 then s.offsetY + 1
                               else s.offsetY) - 1
                         else (if s.cursorY + 1 ≥ s.offsetY + s.LINES - 2 then s.offsetY + 1
                               else s.offsetY) }, ?_, ?_,
        Or.inl (by simp only; omega), by simp only; omega, by simp only; omega, rfl⟩
      · simp only [moveRight, hline, Option.bind_eq_bind, Option.some_bind, if_neg hx, if_pos hy]
      · have hnx : ¬ ((0 : Int) > 0) := by omega
        have hpy : s.cursorY + 1 > 0 := by omega
        simp only [moveLeft, if_neg hnx, if_pos hpy, hline1, Option.bind_eq_bind,
          Option.some_bind]
  · intro hstart
    by_cases hx : s.cursorX > 0
    · have hlt : s.cursorX - 1 < (row.length : Int) := by omega
      refine ⟨{ s with cursorX := s.cursorX - 1 }, { s with cursorX := s.cursorX - 1 + 1 }, ?_, ?_,
        Or.inr (by simp only; omega), rfl, by simp only; omega, rfl⟩
      · simp only [moveLeft, if_pos hx]
      · simp only [moveRight, hline, Option.bind_eq_bind, Option.some_bind, if_pos hlt]
    · have hy : s.cursorY > 0 := by
        by_contra hy
        exact hstart ⟨by omega, by omega⟩
      have hprev := vecAt_of_bounds s.lines (s.cursorY - 1) [] (by omega) (by omega)
      generalize s.lines.getD (s.cursorY - 1).toNat [] = prev at hprev
      refine ⟨{ s with cursorY := s.cursorY - 1, cursorX := (prev.length : Int),
                       offsetY := if s.cursorY - 1 < s.offsetY then s.offsetY - 1
                                  else s.offsetY }, ?_⟩
      refine ⟨{ s with cursorY := s.cursorY - 1 + 1, cursorX := 0,
                       offsetY :=
                         if s.cursorY - 1 + 1 ≥
                             (if s.cursorY - 1 < s.offsetY then s.offsetY - 1 else s.offsetY) +
                               s.LINES - 2
                         then (if s.cursorY - 1 < s.offsetY then s.offsetY - 1 else s.offsetY) + 1
                         else (if s.cursorY - 1 < s.offsetY then s.offsetY - 1
                               else s.offsetY) }, ?_, ?_,
        Or.inl (by simp only; omega), by simp only; omega, by simp only; omega, rfl⟩
      · simp only [moveLeft, if_neg hx, if_pos hy, hprev, Option.bind_eq_bind, Option.some_bind]
      · have hnx : ¬ ((prev.length : Int) < (prev.length : Int)) := by omega
        have hpy : s.cursorY - 1 < (s.lines.length : Int) - 1 := by omega
        simp only [moveRight, hprev, Option.bind_eq_bind, Option.some_bind, if_neg hnx, if_pos hpy]

/-- C31 witness: from the bracket of `"foo (bar)"` (row 0, column 4), in both orders. -/
theorem C31_witness :
    (∃ s1 s2, moveRight sessionOnBracket = some s1 ∧ moveLeft s1 = some s2 ∧
        (s1.cursorY ≠ sessionOnBracket.cursorY ∨ s1.cursorX ≠ sessionOnBracket.cursorX) ∧
        s2.cursorY = sessionOnBracket.cursorY ∧ s2.cursorX = sessionOnBracket.cursorX ∧
        s2.lines = sessionOnBracket.lines) ∧
    (∃ s1 s2, moveLeft sessionOnBracket = some s1 ∧ moveRight s1 = some s2 ∧
        (s1.cursorY ≠ sessionOnBracket.cursorY ∨ s1.cursorX ≠ sessionOnBracket.cursorX) ∧
        s2.cursorY = sessionOnBracket.cursorY ∧ s2.cursorX = sessionOnBracket.cursorX ∧
        s2.lines = sessionOnBracket.lines) :=
  ⟨(C31_moveLeft_moveRight_inverse sessionOnBracket (by decide)).1 (by decide),
    (C31_moveLeft_moveRight_inverse sessionOnBracket (by decide)).2 (by decide)⟩

/-! ## An insertion followed by `backspace` (C32) -/

theorem vecSet_append_cons {α : Type} (p q : List α) (a b : α) :
    vecSet (p ++ a :: q) (p.length : Int) b = some (p ++ b :: q) := by
  rw [vecSet_of_bounds _ _ _ (by omega)
    (by simp only [List.length_append, List.length_cons]; push_cast; omega)]
  rw [Int.toNat_ofNat, List.set_append_right _ _ (le_refl _), Nat.sub_self]
  rfl

theorem vecErase_append_cons {α : Type} (p q : List α) (a : α) :
    vecErase (p ++ a :: q) (p.length : Int) = some (p ++ q) := by
  have h1 : (p.length : Int) < ((p ++ a :: q).length : Int) := by
    simp only [List.length_append, List.length_cons]
    push_cast
    omega
  simp only [vecErase, h1, and_true, Int.toNat_ofNat]
  rw [if_pos (by omega), List.eraseIdx_append_of_length_le (le_refl _), Nat.sub_self]
  rfl

theorem vecInsertRange_append {α : Type} (p q xs : List α) :
    vecInsertRange (p ++ q) (p.length : Int) xs = some (p ++ xs ++ q) := by
  have h1 : (p.length : Int) ≤ ((p ++ q).length : Int) := by
    simp only [List.length_append]
    push_cast
    omega
  simp only [vecInsertRange, h1, and_true, Int.toNat_ofNat]
  rw [if_pos (by omega), List.take_left', List.drop_left']
  · rfl
  · rfl

theorem strSuffix_of_bounds (row : Line) (x : Int) (h0 : 0 ≤ x) (h1 : x ≤ (row.length : Int)) :
    strSuffix row x = some (row.drop x.toNat) := by
  simp only [strSuffix, h0, h1, and_self, if_true]

/-- The buffer around the cursor row, for a valid cursor. -/
theorem ValidCursor.split {s : TextEditor} (hv : ValidCursor s) :
    ∃ (p q : List Line) (row : Line), s.lines = p ++ row :: q ∧ s.cursorY = (p.length : Int) ∧
      0 ≤ s.cursorX ∧ s.cursorX ≤ (row.length : Int) := by
  obtain ⟨row, hrow, hx0, hx1⟩ := hv.line
  have hy := vecAt_some_bounds hrow
  have hrw : s.lines[s.cursorY.toNat]? = some row := by
    simp only [vecAt, if_pos hy.1] at hrow
    exact hrow
  obtain ⟨hls, hplen⟩ := list_split_at s.lines s.cursorY.toNat row hrw
  exact ⟨_, _, row, hls, by rw [hplen]; omega, hx0, hx1⟩

theorem newLine_backspace {s : TextEditor} (hv : ValidCursor s) :
    ∃ s1 s2, newLine s = some s1 ∧ backspace s1 = some s2 ∧ s1.lines ≠ s.lines ∧
      s2.lines = s.lines ∧ s2.cursorY = s.cursorY ∧ s2.cursorX = s.cursorX := by
  obtain ⟨p, q, row, hl, hy, hx0, hx1⟩ := hv.split
  have hcast : ((p ++ [row.take s.cursorX.toNat]).length : Int) = (p.length : Int) + 1 := by
    simp only [List.length_append, List.length_singleton]
    push_cast
    rfl
  have hins : vecInsertRange (p ++ row.take s.cursorX.toNat :: q) ((p.length : Int) + 1)
      [row.drop s.cursorX.toNat] =
      some (p ++ row.take s.cursorX.toNat :: row.drop s.cursorX.toNat :: q) := by
    have h := vecInsertRange_append (p ++ [row.take s.cursorX.toNat]) q [row.drop s.cursorX.toNat]
    rw [hcast] at h
    simpa using h
  have h1 : newLine s = some
      { s with lines := p ++ row.take s.cursorX.toNat :: row.drop s.cursorX.toNat :: q,
               cursorY := s.cursorY + 1, cursorX := 0,
               offsetY := if s.cursorY + 1 ≥ s.offsetY + s.LINES - 2 then s.offsetY + 1
                          else s.offsetY } := by
    simp only [newLine, hl, hy, vecAt_append_cons, strSuffix_of_bounds row _ hx0 hx1,
      strSubstr_zero, vecSet_append_cons, hins, Option.bind_eq_bind, Option.some_bind]
  have hat2 : vecAt (p ++ row.take s.cursorX.toNat :: row.drop s.cursorX.toNat :: q)
      (s.cursorY + 1) = some (row.drop s.cursorX.toNat) := by
    have h := vecAt_append_cons (p ++ [row.take s.cursorX.toNat]) q (row.drop s.cursorX.toNat)
    rw [hcast] at h
    rw [hy]
    simpa using h
  have her : vecErase (p ++ (row.take s.cursorX.toNat ++ row.drop s.cursorX.toNat) ::
      row.drop s.cursorX.toNat :: q) (s.cursorY + 1) = some (p ++ row :: q) := by
    have h := vecErase_append_cons
      (p ++ [row.take s.cursorX.toNat ++ row.drop s.cursorX.toNat]) q (row.drop s.cursorX.toNat)
    rw [show ((p ++ [row.take s.cursorX.toNat ++ row.drop s.cursorX.toNat]).length : Int) =
      (p.length : Int) + 1 by
        simp only [List.length_append, List.length_singleton]
        push_cast
        rfl] at h
    rw [hy]
    simpa using h
  have h2 : ∃ s2, backspace
      { s with lines := p ++ row.take s.cursorX.toNat :: row.drop s.cursorX.toNat :: q,
               cursorY := s.cursorY + 1, cursorX := 0,
               offsetY := if s.cursorY + 1 ≥ s.offsetY + s.LINES - 2 then s.offsetY + 1
                          else s.offsetY } = some s2 ∧
      s2.lines = s.lines ∧ s2.cursorY = s.cursorY ∧ s2.cursorX = s.cursorX := by
    have hnx : ¬ ((0 : Int) > 0) := by omega
    have hpy : s.cursorY + 1 > 0 := by omega
    simp only [backspace, if_neg hnx, if_pos hpy, Option.bind_eq_bind]
    rw [show s.cursorY + 1 - 1 = (p.length : Int) by omega]
    simp only [vecAt_append_cons, vecSet_append_cons, hat2, her, Option.some_bind]
    refine ⟨_, rfl, hl.symm, hy.symm, ?_⟩
    simp only [List.length_take]
    omega
  obtain ⟨s2, h2, h3⟩ := h2
  refine ⟨_, s2, h1, h2, ?_, h3⟩
  intro h
  have hlen := congrArg List.length h
  rw [hl] at hlen
  simp only [List.length_append, List.length_cons] at hlen
  omega

theorem insertChar_backspace (ch : Int) {s : TextEditor} (hv : ValidCursor s) :
    ∃ s1 s2, insertChar ch s = some s1 ∧ backspace s1 = some s2 ∧ s1.lines ≠ s.lines ∧
      s2.lines = s.lines ∧ s2.cursorY = s.cursorY ∧ s2.cursorX = s.cursorX := by
  obtain ⟨p, q, row, hl, hy, hx0, hx1⟩ := hv.split
  have hins : strInsert row s.cursorX [toChar ch] =
      some (row.take s.cursorX.toNat ++ [toChar ch] ++ row.drop s.cursorX.toNat) := by
    simp only [strInsert, hx0, hx1, and_self, if_true]
  have h1 : insertChar ch s = some
      { s with lines := p ++ (row.take s.cursorX.toNat ++ [toChar ch] ++
                  row.drop s.cursorX.toNat) :: q,
               cursorX := s.cursorX + 1 } := by
    simp only [insertChar, hl, hy, vecAt_append_cons, hins, vecSet_append_cons,
      Option.bind_eq_bind, Option.some_bind]
  have htake : (row.take s.cursorX.toNat).length = s.cursorX.toNat := by
    rw [List.length_take]
    omega
  have her : strErase (row.take s.cursorX.toNat ++ [toChar ch] ++ row.drop s.cursorX.toNat)
      (s.cursorX + 1 - 1) 1 = some row := by
    have hb : s.cursorX + 1 - 1 ≤
        ((row.take s.cursorX.toNat ++ [toChar ch] ++ row.drop s.cursorX.toNat).length : Int) := by
      simp only [List.length_append, List.length_singleton, htake]
      push_cast
      omega
    simp only [strErase, hb, and_true]
    rw [if_pos (by omega), show (s.cursorX + 1 - 1).toNat = s.cursorX.toNat by omega]
    have e1 : (row.take s.cursorX.toNat ++ [toChar ch] ++ row.drop s.cursorX.toNat).take
        s.cursorX.toNat = row.take s.cursorX.toNat := by
      rw [List.append_assoc, List.take_left' htake]
    have e2 : (row.take s.cursorX.toNat ++ [toChar ch] ++ row.drop s.cursorX.toNat).drop
        (s.cursorX.toNat + 1) = row.drop s.cursorX.toNat := by
      rw [List.drop_left' (by simp only [List.length_append, List.length_singleton, htake])]
    rw [e1, e2, List.take_append_drop]
  have h2 : ∃ s2, backspace
      { s with lines := p ++ (row.take s.cursorX.toNat ++ [toChar ch] ++
                  row.drop s.cursorX.toNat) :: q,
               cursorX := s.cursorX + 1 } = some s2 ∧
      s2.lines = s.lines ∧ s2.cursorY = s.cursorY ∧ s2.cursorX = s.cursorX := by
    have hpx : s.cursorX + 1 > 0 := by omega
    simp only [backspace, if_pos hpx, Option.bind_eq_bind, hy, vecAt_append_cons, her,
      vecSet_append_cons, Option.some_bind]
    exact ⟨_, rfl, hl.symm, rfl, by simp only; omega⟩
  obtain ⟨s2, h2, h3⟩ := h2
  refine ⟨_, s2, h1, h2, ?_, h3⟩
  intro h
  rw [hl] at h
  have hrow := (List.cons.inj (List.append_cancel_left h)).1
  have hlen := congrArg List.length hrow
  simp only [List.length_append, List.length_singleton, List.length_take,
    List.length_drop] at hlen
  omega

/-- C32. The functions `insertChar`, `backspace` and `newLine` are the same
text in `pbedit-vi.cpp` and `pbedit_linux.cpp`. On a valid cursor, `newLine`
followed by `backspace` returns with the buffer lines and the cursor row and
column as at the start, and so does `insertChar` of any key followed by
`backspace`; in both cases the buffer in between is a different one. -/
theorem C32_backspace_reverts_insertion (s : TextEditor) (hv : ValidCursor s) :
    (∃ s1 s2, newLine s = some s1 ∧ backspace s1 = some s2 ∧ s1.lines ≠ s.lines ∧
      s2.lines = s.lines ∧ s2.cursorY = s.cursorY ∧ s2.cursorX = s.cursorX) ∧
    (∀ ch : Int, ∃ s1 s2, insertChar ch s = some s1 ∧ backspace s1 = some s2 ∧
      s1.lines ≠ s.lines ∧
      s2.lines = s.lines ∧ s2.cursorY = s.cursorY ∧ s2.cursorX = s.cursorX) :=
  ⟨newLine_backspace hv, fun ch => insertChar_backspace ch hv⟩

/-- C32 witness: at the bracket of `"foo (bar)"` (row 0, column 4). -/
theorem C32_witness :
    (∃ s1 s2, newLine sessionOnBracket = some s1 ∧ backspace s1 = some s2 ∧
      s1.lines ≠ sessionOnBracket.lines ∧ s2.lines = sessionOnBracket.lines ∧
      s2.cursorY = sessionOnBracket.cursorY ∧ s2.cursorX = sessionOnBracket.cursorX) ∧
    (∀ ch : Int, ∃ s1 s2, insertChar ch sessionOnBracket = some s1 ∧ backspace s1 = some s2 ∧
      s1.lines ≠ sessionOnBracket.lines ∧ s2.lines = sessionOnBracket.lines ∧
      s2.cursorY = sessionOnBracket.cursorY ∧ s2.cursorX = sessionOnBracket.cursorX) :=
  C32_backspace_reverts_insertion sessionOnBracket (by decide)

/-! ## History in Insert mode (C33) -/

theorem backspace_frame {s : TextEditor} (hv : ValidCursor s)
    (hpos : s.cursorX > 0 ∨ s.cursorY > 0) :
    ∃ s2, backspace s = some s2 ∧ s2.lines ≠ s.lines ∧ s2.undoStack = s.undoStack ∧
      s2.redoStack = s.redoStack ∧ 0 ≤ s2.cursorY := by
  obtain ⟨p, q, row, hl, hy, hx0, hx1⟩ := hv.split
  by_cases hx : s.cursorX > 0
  · have her : strErase row (s.cursorX - 1) 1 =
        some (row.take (s.cursorX - 1).toNat ++ row.drop ((s.cursorX - 1).toNat + 1)) := by
      have h0 : 0 ≤ s.cursorX - 1 := by omega
      have h1 : s.cursorX - 1 ≤ (row.length : Int) := by omega
      simp only [strErase, h0, h1, and_self, if_true]
    refine ⟨{ s with lines := p ++ (row.take (s.cursorX - 1).toNat ++
                row.drop ((s.cursorX - 1).toNat + 1)) :: q,
                     cursorX := s.cursorX - 1 }, ?_, ?_, rfl, rfl, hv.1⟩
    · simp only [backspace, if_pos hx, hl, hy, vecAt_append_cons, her, vecSet_append_cons,
        Option.bind_eq_bind, Option.some_bind]
    · intro h
      rw [hl] at h
      have hrow := (List.cons.inj (List.append_cancel_left h)).1
      have hlen := congrArg List.length hrow
      simp only [List.length_append, List.length_take, List.length_drop] at hlen
      omega
  · have hypos : s.cursorY > 0 := by
      rcases hpos with h | h
      · exact absurd h hx
      · exact h
    have hpne : p ≠ [] := by
      intro h
      rw [h] at hy
      simp only [List.length_nil] at hy
      omega
    obtain ⟨p2, prev, hp⟩ : ∃ p2 prev, p = p2 ++ [prev] :=
      ⟨p.dropLast, p.getLast hpne, (List.dropLast_append_getLast hpne).symm⟩
    have hl2 : s.lines = p2 ++ prev :: row :: q := by
      rw [hl, hp]
      simp
    have hy2 : s.cursorY - 1 = (p2.length : Int) := by
      rw [hy, hp]
      simp only [List.length_append, List.length_singleton]
      push_cast
      omega
    have hcast : ((p2 ++ [prev]).length : Int) = s.cursorY := by
      rw [hy, hp]
    have hcur : vecAt (p2 ++ prev :: row :: q) s.cursorY = some row := by
      have h := vecAt_append_cons (p2 ++ [prev]) q row
      rw [hcast] at h
      simpa using h
    have her : vecErase (p2 ++ (prev ++ row) :: row :: q) s.cursorY =
        some (p2 ++ (prev ++ row) :: q) := by
      have h := vecErase_append_cons (p2 ++ [prev ++ row]) q row
      rw [show ((p2 ++ [prev ++ row]).length : Int) = s.cursorY by
        rw [hy, hp]
        simp only [List.length_append, List.length_singleton]] at h
      simpa using h
    refine ⟨{ s with cursorX := (prev.length : Int), lines := p2 ++ (prev ++ row) :: q,
                     cursorY := s.cursorY - 1,
                     offsetY := if s.cursorY - 1 < s.offsetY then s.offsetY - 1
                                else s.offsetY }, ?_, ?_, rfl, rfl, by simp only; omega⟩
    · simp only [backspace, if_neg hx, if_pos hypos, hl2, Option.bind_eq_bind, hcur]
      rw [hy2]
      simp only [vecAt_append_cons, vecSet_append_cons, Option.some_bind, her]
    · intro h
      have hlen := congrArg List.length h
      rw [hl2] at hlen
      simp only [List.length_append, List.length_cons] at hlen
      omega

/-- C33 (counterexample). On the buffer `["ab"]` the keys `l y y i` leave the
editor in Insert mode at column 1 with the snapshot `["ab"]` (pushed by the
yank) on the undo stack; the Backspace key then makes the buffer `["b"]` and
leaves both stacks as they were, and after `Esc` the key `u` makes the buffer
`["ab"]` again: this undo after a backspace does restore the pre-backspace
buffer. -/
theorem C33_counterexample :
    ∃ s s1 s3,
      run 3 (freshSession [key 'l', key 'y', key 'y', key 'i', KEY_BACKSPACE, KEY_ESC, key 'u']
        (some "ab\n")) = Outcome.ok s ∧
      s.mode = EditorMode.INSERT ∧ s.lines = [['a', 'b']] ∧ s.cursorX = 1 ∧
      handleInsertModeInput KEY_BACKSPACE { s with pending := [KEY_ESC, key 'u'] } = some s1 ∧
      run 4 (freshSession [key 'l', key 'y', key 'y', key 'i', KEY_BACKSPACE, KEY_ESC, key 'u']
        (some "ab\n")) = Outcome.ok s1 ∧
      s1.lines = [['b']] ∧ s1.lines ≠ s.lines ∧
      s1.undoStack = s.undoStack ∧ s1.redoStack = s.redoStack ∧
      run 6 (freshSession [key 'l', key 'y', key 'y', key 'i', KEY_BACKSPACE, KEY_ESC, key 'u']
        (some "ab\n")) = Outcome.ok s3 ∧
      s3.lines = s.lines :=
  ⟨_, _, _, rfl, rfl, rfl, rfl, rfl, rfl, rfl, by decide, rfl, rfl, rfl, rfl⟩

/-- C33 (amended). In Insert mode on a valid cursor: a typed character (any
key other than Esc, Backspace, 127, newline and the four arrows) and a newline
each return with the pre-edit buffer pushed onto the undo stack and an empty
redo stack, and with a changed buffer; Backspace (either key code), with the
cursor not at row 0, column 0, returns with a changed buffer and with the undo
and redo stacks unchanged. An `undo` right after that backspace returns the
state unchanged when the undo stack is empty, and otherwise returns with the
buffer made the snapshot that was on top of the undo stack before the
backspace, whatever that snapshot is: it restores the pre-backspace buffer
exactly when that snapshot equals it. -/
theorem C33_insert_mode_history (s : TextEditor) (hv : ValidCursor s) :
    (∀ ch : Int, ch ≠ KEY_ESC → ch ≠ KEY_BACKSPACE → ch ≠ KEY_DEL → ch ≠ KEY_NEWLINE →
      ch ≠ KEY_UP → ch ≠ KEY_DOWN → ch ≠ KEY_LEFT → ch ≠ KEY_RIGHT →
      ∃ s2, handleInsertModeInput ch s = some s2 ∧ s2.lines ≠ s.lines ∧
        s2.undoStack = s.lines :: s.undoStack ∧ s2.redoStack = []) ∧
    (∃ s2, handleInsertModeInput KEY_NEWLINE s = some s2 ∧ s2.lines ≠ s.lines ∧
      s2.undoStack = s.lines :: s.undoStack ∧ s2.redoStack = []) ∧
    (∀ ch : Int, ch = KEY_BACKSPACE ∨ ch = KEY_DEL → s.cursorX > 0 ∨ s.cursorY > 0 →
      ∃ s2, handleInsertModeInput ch s = some s2 ∧ s2.lines ≠ s.lines ∧
        s2.undoStack = s.undoStack ∧ s2.redoStack = s.redoStack ∧
        (s.undoStack = [] → undo s2 = some s2) ∧
        (∀ top rest, s.undoStack = top :: rest →
          ∃ s3, undo s2 = some s3 ∧ s3.lines = top ∧ (s3.lines = s.lines ↔ top = s.lines))) := by
  have hv1 : ValidCursor (saveCurrentStateForUndo s) := hv
  refine ⟨?_, ?_, ?_⟩
  · intro ch h1 h2 h3 h4 h5 h6 h7 h8
    obtain ⟨s1, _, hins, _, hne, _⟩ := insertChar_backspace ch hv1
    refine ⟨s1, ?_, hne, insertChar_undoStack hins, insertChar_redoStack hins⟩
    simp only [handleInsertModeInput, if_neg h1, if_neg h4, if_neg h5, if_neg h6, if_neg h7,
      if_neg h8, h2, h3, or_self, if_false]
    exact hins
  · obtain ⟨s1, _, hnl, _, hne, _⟩ := newLine_backspace hv1
    refine ⟨s1, ?_, hne, newLine_undoStack hnl, newLine_redoStack hnl⟩
    have hnesc : KEY_NEWLINE ≠ KEY_ESC := by decide
    have hnb : ¬ (KEY_NEWLINE = KEY_BACKSPACE ∨ KEY_NEWLINE = KEY_DEL) := by decide
    simp only [handleInsertModeInput, if_neg hnesc, if_neg hnb, if_true]
    exact hnl
  · intro ch hch hpos
    obtain ⟨s2, hb, hne, hu, hr, hy⟩ := backspace_frame hv hpos
    have hnesc : ch ≠ KEY_ESC := by
      rcases hch with h | h <;> rw [h] <;> decide
    refine ⟨s2, ?_, hne, hu, hr, ?_, ?_⟩
    · simp only [handleInsertModeInput, if_neg hnesc, if_pos hch]
      exact hb
    · intro hempty
      rw [hempty] at hu
      simp only [undo, hu]
    · intro top rest htop
      rw [htop] at hu
      obtain ⟨s3, h3, hl3, _⟩ := undo_cons_lines s2 top rest hu
      exact ⟨s3, h3, hl3, by rw [hl3]⟩

/-- C33 witness: at the bracket of `"foo (bar)"` (row 0, column 4). -/
theorem C33_witness :
    (∃ s2, handleInsertModeInput (key 'a') sessionOnBracket = some s2 ∧
      s2.undoStack = sessionOnBracket.lines :: sessionOnBracket.undoStack ∧ s2.redoStack = []) ∧
    (∃ s2, handleInsertModeInput KEY_BACKSPACE sessionOnBracket = some s2 ∧
      s2.lines ≠ sessionOnBracket.lines ∧ s2.undoStack = sessionOnBracket.undoStack ∧
      s2.redoStack = sessionOnBracket.redoStack ∧ undo s2 = some s2) := by
  obtain ⟨htyped, _, hback⟩ := C33_insert_mode_history sessionOnBracket (by decide)
  obtain ⟨s2, h2, _, hu, hr⟩ := htyped (key 'a') (by decide) (by decide) (by decide) (by decide)
    (by decide) (by decide) (by decide) (by decide)
  obtain ⟨s3, h3, hne, hu3, hr3, hundo, _⟩ := hback KEY_BACKSPACE (Or.inl rfl) (Or.inl (by decide))
  exact ⟨⟨s2, h2, hu, hr⟩, ⟨s3, h3, hne, hu3, hr3, hundo rfl⟩⟩

/-! ## The bounds of the Windows front end (C34) -/

theorem Windows.toSizeT_of_nonneg {z : Int} (h : 0 ≤ z) : Windows.toSizeT z = z.toNat := by
  simp only [Windows.toSizeT, if_pos h]

theorem Windows.sizeMinusOne_pos {n : Nat} (h : 0 < n) : Windows.sizeMinusOne n = n - 1 := by
  have hn : n ≠ 0 := by omega
  simp only [Windows.sizeMinusOne, if_neg hn]

theorem Windows.Invariant.of (s : Windows.TextEditor) (row : Line) (idx : Int)
    (hidx : s.cursorY + s.offsetY = idx) (hrow : vecAt s.lines idx = some row)
    (hy0 : 0 ≤ s.cursorY) (hy1 : s.cursorY ≤ s.consoleHeight - 2) (ho : 0 ≤ s.offsetY)
    (hx0 : 0 ≤ s.cursorX) (hx1 : s.cursorX ≤ (row.length : Int)) : Windows.Invariant s := by
  subst hidx
  have hb := vecAt_some_bounds hrow
  have hg := vecAt_getD [] hrow
  refine ⟨hy0, hy1, ho, hb.2, hx0, ?_⟩
  rw [hg]
  exact hx1

theorem Windows.Invariant.row {s : Windows.TextEditor} (h : Windows.Invariant s) :
    ∃ row, vecAt s.lines (s.cursorY + s.offsetY) = some row ∧
      s.cursorX ≤ (row.length : Int) :=
  ⟨_, vecAt_of_bounds s.lines _ [] (by have := h.1; have := h.2.2.1; omega) h.2.2.2.1,
    h.2.2.2.2.2⟩

theorem Windows.keyUp_invariant {s : Windows.TextEditor} (h : Windows.Invariant s) :
    ∃ s2, Windows.keyUp s = some s2 ∧ Windows.Invariant s2 ∧
      s2.consoleHeight = s.consoleHeight := by
  have hI := h
  obtain ⟨hy0, hy1, ho, hidx, hx0, _⟩ := h
  unfold Windows.keyUp
  by_cases hpos : s.cursorY + s.offsetY > 0
  · have hprev := vecAt_of_bounds s.lines (s.cursorY + s.offsetY - 1) [] (by omega) (by omega)
    generalize s.lines.getD (s.cursorY + s.offsetY - 1).toNat [] = prev at hprev
    have hsz := Windows.toSizeT_of_nonneg hx0
    by_cases hcy : s.cursorY > 0
    · simp only [if_pos hpos, if_pos hcy, hprev, Option.bind_eq_bind, Option.some_bind, hsz]
      by_cases hge : s.cursorX.toNat ≥ prev.length
      · rw [if_pos hge]
        exact ⟨_, rfl, Windows.Invariant.of _ prev _ (by simp only; omega) hprev
          (by simp only; omega) (by simp only; omega) ho (by simp only; omega) (le_refl _), rfl⟩
      · rw [if_neg hge]
        exact ⟨_, rfl, Windows.Invariant.of _ prev _ (by simp only; omega) hprev
          (by simp only; omega) (by simp only; omega) ho hx0 (by simp only; omega), rfl⟩
    · simp only [if_pos hpos, if_neg hcy, hprev, Option.bind_eq_bind, Option.some_bind, hsz]
      by_cases hge : s.cursorX.toNat ≥ prev.length
      · rw [if_pos hge]
        exact ⟨_, rfl, Windows.Invariant.of _ prev _ (by simp only; omega) hprev
          hy0 hy1 (by simp only; omega) (by simp only; omega) (le_refl _), rfl⟩
      · rw [if_neg hge]
        exact ⟨_, rfl, Windows.Invariant.of _ prev _ (by simp only; omega) hprev
          hy0 hy1 (by simp only; omega) hx0 (by simp only; omega), rfl⟩
  · simp only [if_neg hpos]
    exact ⟨s, rfl, hI, rfl⟩

theorem Windows.keyDown_invariant {s : Windows.TextEditor} (h : Windows.Invariant s) :
    ∃ s2, Windows.keyDown s = some s2 ∧ Windows.Invariant s2 ∧
      s2.consoleHeight = s.consoleHeight := by
  have hI := h
  obtain ⟨hy0, hy1, ho, hidx, hx0, _⟩ := h
  unfold Windows.keyDown
  have hsi : Windows.toSizeT (s.cursorY + s.offsetY) = (s.cursorY + s.offsetY).toNat :=
    Windows.toSizeT_of_nonneg (by omega)
  have hsm : Windows.sizeMinusOne s.lines.length = s.lines.length - 1 :=
    Windows.sizeMinusOne_pos (by omega)
  have hsz := Windows.toSizeT_of_nonneg hx0
  by_cases hlt : (s.cursorY + s.offsetY).toNat < s.lines.length - 1
  · have hnext := vecAt_of_bounds s.lines (s.cursorY + s.offsetY + 1) [] (by omega) (by omega)
    generalize s.lines.getD (s.cursorY + s.offsetY + 1).toNat [] = next at hnext
    by_cases hcy : s.cursorY < s.consoleHeight - 2
    · simp only [hsi, hsm, if_pos hlt, if_pos hcy, hnext, Option.bind_eq_bind, Option.some_bind,
        hsz]
      by_cases hge : s.cursorX.toNat ≥ next.length
      · rw [if_pos hge]
        exact ⟨_, rfl, Windows.Invariant.of _ next _ (by simp only; omega) hnext
          (by simp only; omega) (by simp only; omega) ho (by simp only; omega) (le_refl _), rfl⟩
      · rw [if_neg hge]
        exact ⟨_, rfl, Windows.Invariant.of _ next _ (by simp only; omega) hnext
          (by simp only; omega) (by simp only; omega) ho hx0 (by simp only; omega), rfl⟩
    · simp only [hsi, hsm, if_pos hlt, if_neg hcy, hnext, Option.bind_eq_bind, Option.some_bind,
        hsz]
      by_cases hge : s.cursorX.toNat ≥ next.length
      · rw [if_pos hge]
        exact ⟨_, rfl, Windows.Invariant.of _ next _ (by simp only; omega) hnext
          hy0 hy1 (by simp only; omega) (by simp only; omega) (le_refl _), rfl⟩
      · rw [if_neg hge]
        exact ⟨_, rfl, Windows.Invariant.of _ next _ (by simp only; omega) hnext
          hy0 hy1 (by simp only; omega) hx0 (by simp only; omega), rfl⟩
  · simp only [hsi, hsm, if_neg hlt]
    exact ⟨s, rfl, hI, rfl⟩

theorem Windows.keyLeft_invariant {s : Windows.TextEditor} (h : Windows.Invariant s) :
    ∃ s2, Windows.keyLeft s = some s2 ∧ Windows.Invariant s2 ∧
      s2.consoleHeight = s.consoleHeight := by
  obtain ⟨row, hrow, hx1⟩ := h.row
  have hI := h
  obtain ⟨hy0, hy1, ho, hidx, hx0, _⟩ := h
  unfold Windows.keyLeft
  by_cases hx : s.cursorX > 0
  · simp only [if_pos hx]
    exact ⟨_, rfl, Windows.Invariant.of _ row _ rfl hrow hy0 hy1 ho (by simp only; omega)
      (by simp only; omega), rfl⟩
  · by_cases hpos : s.cursorY + s.offsetY > 0
    · have hprev := vecAt_of_bounds s.lines (s.cursorY + s.offsetY - 1) [] (by omega) (by omega)
      generalize s.lines.getD (s.cursorY + s.offsetY - 1).toNat [] = prev at hprev
      by_cases hcy : s.cursorY - 1 < 0
      · simp only [if_neg hx, if_pos hpos, if_pos hcy, hprev, Option.bind_eq_bind,
          Option.some_bind]
        exact ⟨_, rfl, Windows.Invariant.of _ prev _ (by simp only; omega) hprev
          (by simp only; omega) (by simp only; omega) (by simp only; omega)
          (by simp only; omega) (le_refl _), rfl⟩
      · simp only [if_neg hx, if_pos hpos, if_neg hcy, hprev, Option.bind_eq_bind,
          Option.some_bind]
        exact ⟨_, rfl, Windows.Invariant.of _ prev _ (by simp only; omega) hprev
          (by simp only; omega) (by simp only; omega) ho
          (by simp only; omega) (le_refl _), rfl⟩
    · simp only [if_neg hx, if_neg hpos]
      exact ⟨s, rfl, hI, rfl⟩

theorem Windows.keyRight_invariant {s : Windows.TextEditor} (h : Windows.Invariant s) :
    ∃ s2, Windows.keyRight s = some s2 ∧ Windows.Invariant s2 ∧
      s2.consoleHeight = s.consoleHeight := by
  obtain ⟨row, hrow, hx1⟩ := h.row
  have hI := h
  obtain ⟨hy0, hy1, ho, hidx, hx0, _⟩ := h
  unfold Windows.keyRight
  have hsi : Windows.toSizeT (s.cursorY + s.offsetY) = (s.cursorY + s.offsetY).toNat :=
    Windows.toSizeT_of_nonneg (by omega)
  have hsm : Windows.sizeMinusOne s.lines.length = s.lines.length - 1 :=
    Windows.sizeMinusOne_pos (by omega)
  have hsz := Windows.toSizeT_of_nonneg hx0
  simp only [hrow, Option.bind_eq_bind, Option.some_bind, hsi, hsm, hsz]
  by_cases hx : s.cursorX.toNat < row.length
  · rw [if_pos hx]
    exact ⟨_, rfl, Windows.Invariant.of _ row _ rfl hrow hy0 hy1 ho (by simp only; omega)
      (by simp only; omega), rfl⟩
  · rw [if_neg hx]
    by_cases hlt : (s.cursorY + s.offsetY).toNat < s.lines.length - 1
    · have hnext := vecAt_of_bounds s.lines (s.cursorY + s.offsetY + 1) [] (by omega) (by omega)
      generalize s.lines.getD (s.cursorY + s.offsetY + 1).toNat [] = next at hnext
      rw [if_pos hlt]
      by_cases hcy : s.cursorY + 1 ≥ s.consoleHeight - 1
      · simp only [if_pos hcy]
        exact ⟨_, rfl, Windows.Invariant.of _ next _ (by simp only; omega) hnext
          (by simp only; omega) (by simp only; omega) (by simp only; omega)
          (le_refl _) (by simp only; omega), rfl⟩
      · simp only [if_neg hcy]
        exact ⟨_, rfl, Windows.Invariant.of _ next _ (by simp only; omega) hnext
          (by simp only; omega) (by simp only; omega) ho
          (le_refl _) (by simp only; omega), rfl⟩
    · rw [if_neg hlt]
      exact ⟨s, rfl, hI, rfl⟩

/-- The buffer around the current line, under the bounds of the Windows front end. -/
theorem Windows.Invariant.split_lines {s : Windows.TextEditor} (h : Windows.Invariant s) :
    ∃ (p q : List Line) (row : Line), s.lines = p ++ row :: q ∧
      s.cursorY + s.offsetY = (p.length : Int) ∧ s.cursorX ≤ (row.length : Int) := by
  obtain ⟨row, hrow, hx1⟩ := h.row
  have hy := vecAt_some_bounds hrow
  have hrw : s.lines[(s.cursorY + s.offsetY).toNat]? = some row := by
    simp only [vecAt, if_pos hy.1] at hrow
    exact hrow
  obtain ⟨hls, hplen⟩ := list_split_at s.lines (s.cursorY + s.offsetY).toNat row hrw
  exact ⟨_, _, row, hls, by rw [hplen]; omega, hx1⟩

theorem Windows.keyBack_invariant {s : Windows.TextEditor} (h : Windows.Invariant s) :
    ∃ s2, Windows.keyBack s = some s2 ∧ Windows.Invariant s2 ∧
      s2.consoleHeight = s.consoleHeight := by
  have hI := h
  obtain ⟨p, q, row, hl, hidx, hx1⟩ := h.split_lines
  obtain ⟨hy0, hy1, ho, _, hx0, _⟩ := h
  unfold Windows.keyBack
  by_cases hx : s.cursorX > 0
  · have her : strErase row (s.cursorX - 1) 1 =
        some (row.take (s.cursorX - 1).toNat ++ row.drop ((s.cursorX - 1).toNat + 1)) := by
      have h0 : 0 ≤ s.cursorX - 1 := by omega
      have h1 : s.cursorX - 1 ≤ (row.length : Int) := by omega
      simp only [strErase, h0, h1, and_self, if_true]
    simp only [if_pos hx, hl, hidx, vecAt_append_cons, her, vecSet_append_cons,
      Option.bind_eq_bind, Option.some_bind]
    refine ⟨_, rfl, Windows.Invariant.of _
      (row.take (s.cursorX - 1).toNat ++ row.drop ((s.cursorX - 1).toNat + 1)) _ hidx
      (vecAt_append_cons _ _ _) hy0 hy1 ho (by simp only; omega) ?_, rfl⟩
    simp only [List.length_append, List.length_take, List.length_drop]
    omega
  · by_cases hpos : s.cursorY + s.offsetY > 0
    · have hpne : p ≠ [] := by
        intro hnil
        rw [hnil] at hidx
        simp only [List.length_nil] at hidx
        omega
      obtain ⟨p2, prev, hp⟩ : ∃ p2 prev, p = p2 ++ [prev] :=
        ⟨p.dropLast, p.getLast hpne, (List.dropLast_append_getLast hpne).symm⟩
      have hl2 : s.lines = p2 ++ prev :: row :: q := by
        rw [hl, hp]
        simp
      have hidx2 : s.cursorY + s.offsetY - 1 = (p2.length : Int) := by
        rw [hidx, hp]
        simp only [List.length_append, List.length_singleton]
        push_cast
        omega
      have hcast : ((p2 ++ [prev]).length : Int) = s.cursorY + s.offsetY := by
        rw [hidx, hp]
      have hcur : vecAt (p2 ++ prev :: row :: q) (s.cursorY + s.offsetY) = some row := by
        have h1 := vecAt_append_cons (p2 ++ [prev]) q row
        rw [hcast] at h1
        simpa using h1
      have her : vecErase (p2 ++ prev :: row :: q) (s.cursorY + s.offsetY) =
          some (p2 ++ prev :: q) := by
        have h1 := vecErase_append_cons (p2 ++ [prev]) q row
        rw [hcast] at h1
        simpa using h1
      by_cases hcy : s.cursorY - 1 < 0
      · simp only [if_neg hx, if_pos hpos, if_pos hcy, hl2, hcur, her, Option.bind_eq_bind,
          Option.some_bind]
        rw [hidx2]
        simp only [vecAt_append_cons, vecSet_append_cons, Option.some_bind]
        exact ⟨_, rfl, Windows.Invariant.of _ (prev ++ row) (p2.length : Int)
          (by simp only; omega) (vecAt_append_cons _ _ _) (le_refl _) (by simp only; omega)
          (by simp only; omega) (by simp only; omega)
          (by simp only [List.length_append]; push_cast; omega), rfl⟩
      · simp only [if_neg hx, if_pos hpos, if_neg hcy, hl2, hcur, her, Option.bind_eq_bind,
          Option.some_bind]
        rw [hidx2]
        simp only [vecAt_append_cons, vecSet_append_cons, Option.some_bind]
        exact ⟨_, rfl, Windows.Invariant.of _ (prev ++ row) (p2.length : Int)
          (by simp only; omega) (vecAt_append_cons _ _ _) (by simp only; omega)
          (by simp only; omega) ho (by simp only; omega)
          (by simp only [List.length_append]; push_cast; omega), rfl⟩
    · simp only [if_neg hx, if_neg hpos]
      exact ⟨s, rfl, hI, rfl⟩

theorem Windows.keyReturn_invariant {s : Windows.TextEditor} (h : Windows.Invariant s) :
    ∃ s2, Windows.keyReturn s = some s2 ∧ Windows.Invariant s2 ∧
      s2.consoleHeight = s.consoleHeight := by
  obtain ⟨p, q, row, hl, hidx, hx1⟩ := h.split_lines
  obtain ⟨hy0, hy1, ho, _, hx0, _⟩ := h
  have hsz := Windows.toSizeT_of_nonneg hx0
  have hcast : ∀ a : Line, ((p ++ [a]).length : Int) = (p.length : Int) + 1 := by
    intro a
    simp only [List.length_append, List.length_singleton]
    push_cast
    rfl
  have hins : vecInsertRange (p ++ row :: q) ((p.length : Int) + 1) [row.drop s.cursorX.toNat] =
      some (p ++ row :: row.drop s.cursorX.toNat :: q) := by
    have h1 := vecInsertRange_append (p ++ [row]) q [row.drop s.cursorX.toNat]
    rw [hcast] at h1
    simpa using h1
  have hnew : vecAt (p ++ row.take s.cursorX.toNat :: row.drop s.cursorX.toNat :: q)
      ((p.length : Int) + 1) = some (row.drop s.cursorX.toNat) := by
    have h1 := vecAt_append_cons (p ++ [row.take s.cursorX.toNat]) q (row.drop s.cursorX.toNat)
    rw [hcast] at h1
    simpa using h1
  unfold Windows.keyReturn
  simp only [hl, hidx, vecAt_append_cons, strSuffix_of_bounds row _ hx0 hx1, hins, hsz,
    strSubstr_zero, vecSet_append_cons, Option.bind_eq_bind, Option.some_bind]
  by_cases hcy : s.cursorY + 1 ≥ s.consoleHeight - 1
  · simp only [if_pos hcy]
    exact ⟨_, rfl, Windows.Invariant.of _ (row.drop s.cursorX.toNat) ((p.length : Int) + 1)
      (by simp only; omega) hnew (by simp only; omega) (by simp only; omega)
      (by simp only; omega) (le_refl _) (by simp only; omega), rfl⟩
  · simp only [if_neg hcy]
    exact ⟨_, rfl, Windows.Invariant.of _ (row.drop s.cursorX.toNat) ((p.length : Int) + 1)
      (by simp only; omega) hnew (by simp only; omega) (by simp only; omega)
      ho (le_refl _) (by simp only; omega), rfl⟩

theorem Windows.keyDefault_invariant (c : Int) {s : Windows.TextEditor}
    (h : Windows.Invariant s) :
    ∃ s2, Windows.keyDefault c s = some s2 ∧ Windows.Invariant s2 ∧
      s2.consoleHeight = s.consoleHeight := by
  have hI := h
  obtain ⟨p, q, row, hl, hidx, hx1⟩ := h.split_lines
  obtain ⟨hy0, hy1, ho, _, hx0, _⟩ := h
  unfold Windows.keyDefault
  by_cases hc : c ≥ 32 ∧ c ≤ 126
  · have hins : strInsert row s.cursorX [Char.ofNat c.toNat] =
        some (row.take s.cursorX.toNat ++ [Char.ofNat c.toNat] ++ row.drop s.cursorX.toNat) := by
      simp only [strInsert, hx0, hx1, and_self, if_true]
    simp only [if_pos hc, hl, hidx, vecAt_append_cons, hins, vecSet_append_cons,
      Option.bind_eq_bind, Option.some_bind]
    refine ⟨_, rfl, Windows.Invariant.of _
      (row.take s.cursorX.toNat ++ [Char.ofNat c.toNat] ++ row.drop s.cursorX.toNat) _ hidx
      (vecAt_append_cons _ _ _) hy0 hy1 ho (by simp only; omega) ?_, rfl⟩
    simp only [List.length_append, List.length_take, List.length_drop, List.length_singleton]
    omega
  · simp only [if_neg hc]
    exact ⟨s, rfl, hI, rfl⟩

/-- C34. Windows front end: in a state with `0 ≤ cursorY ≤ consoleHeight - 2`,
`offsetY ≥ 0`, `cursorY + offsetY < lines.size()` and
`0 ≤ cursorX ≤ length of lines[cursorY + offsetY]` (which needs
`consoleHeight ≥ 2` and a non-empty buffer), `handleInput` returns for every
input record, with no line access out of range, and the new state satisfies
the same bounds for the same console height. -/
theorem C34_windows_handleInput_keeps_bounds (input : Windows.InputRecord)
    (s : Windows.TextEditor) (h : Windows.Invariant s) :
    2 ≤ s.consoleHeight ∧ s.lines ≠ [] ∧
    ∃ b s2, Windows.handleInput input s = some (b, s2) ∧ Windows.Invariant s2 ∧
      s2.consoleHeight = s.consoleHeight := by
  refine ⟨by have := h.1; have := h.2.1; omega, ?_, ?_⟩
  · intro hnil
    have h1 := h.2.2.2.1
    have h2 := h.1
    have h3 := h.2.2.1
    rw [hnil] at h1
    simp only [List.length_nil] at h1
    omega
  · unfold Windows.handleInput
    by_cases hkey : input.isKeyEvent = true ∧ input.bKeyDown = true
    · rw [if_pos hkey]
      by_cases h1 : input.wVirtualKeyCode = Windows.VK_ESCAPE
      · rw [if_pos h1]
        exact ⟨false, s, rfl, h, rfl⟩
      rw [if_neg h1]
      by_cases h2 : input.wVirtualKeyCode = Windows.VK_S
      · rw [if_pos h2]
        refine ⟨true, _, rfl, ?_, ?_⟩
        · by_cases hc : input.leftCtrlPressed = true
          · rw [if_pos hc]
            unfold Windows.saveFile
            split_ifs
            · exact h
            · exact h
          · rw [if_neg hc]
            exact h
        · by_cases hc : input.leftCtrlPressed = true
          · rw [if_pos hc]
            unfold Windows.saveFile
            split_ifs <;> rfl
          · rw [if_neg hc]
      rw [if_neg h2]
      by_cases h3 : input.wVirtualKeyCode = Windows.VK_UP
      · rw [if_pos h3]
        obtain ⟨s2, hs, hi, hc⟩ := Windows.keyUp_invariant h
        exact ⟨true, s2, by rw [hs]; rfl, hi, hc⟩
      rw [if_neg h3]
      by_cases h4 : input.wVirtualKeyCode = Windows.VK_DOWN
      · rw [if_pos h4]
        obtain ⟨s2, hs, hi, hc⟩ := Windows.keyDown_invariant h
        exact ⟨true, s2, by rw [hs]; rfl, hi, hc⟩
      rw [if_neg h4]
      by_cases h5 : input.wVirtualKeyCode = Windows.VK_LEFT
      · rw [if_pos h5]
        obtain ⟨s2, hs, hi, hc⟩ := Windows.keyLeft_invariant h
        exact ⟨true, s2, by rw [hs]; rfl, hi, hc⟩
      rw [if_neg h5]
      by_cases h6 : input.wVirtualKeyCode = Windows.VK_RIGHT
      · rw [if_pos h6]
        obtain ⟨s2, hs, hi, hc⟩ := Windows.keyRight_invariant h
        exact ⟨true, s2, by rw [hs]; rfl, hi, hc⟩
      rw [if_neg h6]
      by_cases h7 : input.wVirtualKeyCode = Windows.VK_BACK
      · rw [if_pos h7]
        obtain ⟨s2, hs, hi, hc⟩ := Windows.keyBack_invariant h
        exact ⟨true, s2, by rw [hs]; rfl, hi, hc⟩
      rw [if_neg h7]
      by_cases h8 : input.wVirtualKeyCode = Windows.VK_RETURN
      · rw [if_pos h8]
        obtain ⟨s2, hs, hi, hc⟩ := Windows.keyReturn_invariant h
        exact ⟨true, s2, by rw [hs]; rfl, hi, hc⟩
      rw [if_neg h8]
      obtain ⟨s2, hs, hi, hc⟩ := Windows.keyDefault_invariant input.asciiChar h
      exact ⟨true, s2, by rw [hs]; rfl, hi, hc⟩
    · rw [if_neg hkey]
      exact ⟨true, s, rfl, h, rfl⟩

/-- C34 witness: the Return key at the end of the last line `"c"` of
`["ab", "c"]`, in a console of 3 rows scrolled by one line. -/
theorem C34_witness :
    Windows.Invariant Windows.sample ∧
    (2 ≤ Windows.sample.consoleHeight ∧ Windows.sample.lines ≠ [] ∧
      ∃ b s2, Windows.handleInput
          { isKeyEvent := true, bKeyDown := true, wVirtualKeyCode := Windows.VK_RETURN,
            leftCtrlPressed := false, asciiChar := 13 } Windows.sample = some (b, s2) ∧
        Windows.Invariant s2 ∧ s2.consoleHeight = Windows.sample.consoleHeight) :=
  ⟨by decide, C34_windows_handleInput_keeps_bounds _ Windows.sample (by decide)⟩

/-! ## Undo right after an operator restores the buffer (C1) -/

theorem vecInsertRange_of_bounds {α : Type} (v : List α) (i : Int) (xs : List α) (h0 : 0 ≤ i)
    (h1 : i ≤ (v.length : Int)) :
    vecInsertRange v i xs = some (v.take i.toNat ++ xs ++ v.drop i.toNat) := by
  simp only [vecInsertRange, h0, h1, and_self, if_true]

theorem deleteText_returns {s : TextEditor} (hv : ValidCursor s)
    (hm1 : s.mode ≠ EditorMode.VISUAL) (hm2 : s.mode ≠ EditorMode.VISUAL_LINE) :
    ∃ s1, deleteText s = some s1 := by
  obtain ⟨p, q, row, hl, hy, _, _⟩ := hv.split
  by_cases hlen : (p ++ row :: q).length > 1
  · simp only [deleteText, saveCurrentStateForUndo, if_neg hm1, if_neg hm2, hl, if_pos hlen, hy,
      vecAt_append_cons, vecErase_append_cons, Option.bind_eq_bind, Option.some_bind,
      Option.pure_def]
    exact ⟨_, rfl⟩
  · simp only [deleteText, saveCurrentStateForUndo, if_neg hm1, if_neg hm2, hl, if_neg hlen,
      Option.bind_eq_bind, Option.pure_def]
    exact ⟨_, rfl⟩

theorem pasteText_returns {s : TextEditor} (hv : ValidCursor s) :
    ∃ s1, pasteText s = some s1 := by
  obtain ⟨p, q, row, hl, hy, hx0, hx1⟩ := hv.split
  cases hclip : s.clipboardLines with
  | nil =>
    simp only [pasteText, saveCurrentStateForUndo, hclip, Option.bind_eq_bind, Option.pure_def]
    exact ⟨_, rfl⟩
  | cons c cs =>
    by_cases ht1 : s.clipboardType = EditorMode.VISUAL_LINE
    · have hins := vecInsertRange_of_bounds s.lines (s.cursorY + 1) (c :: cs)
        (by have := hv.1; omega) (by have := hv.2.1; omega)
      simp only [pasteText, saveCurrentStateForUndo, hclip, if_pos ht1, hins, Option.bind_eq_bind,
        Option.some_bind, Option.pure_def]
      exact ⟨_, rfl⟩
    · by_cases ht2 : s.clipboardType = EditorMode.VISUAL
      · obtain ⟨lines2, h2, _⟩ := pasteBlockLoop_frame s.cursorX hx0 (c :: cs) s.cursorY s.lines
          hv.1
        simp only [pasteText, saveCurrentStateForUndo, hclip, if_neg ht1, if_pos ht2, h2,
          Option.bind_eq_bind, Option.some_bind, Option.pure_def]
        exact ⟨_, rfl⟩
      · have hins : strInsert row s.cursorX c =
            some (row.take s.cursorX.toNat ++ c ++ row.drop s.cursorX.toNat) := by
          simp only [strInsert, hx0, hx1, and_self, if_true]
        simp only [pasteText, saveCurrentStateForUndo, hclip, if_neg ht1, if_neg ht2, hl, hy,
          vecAt_append_cons, hins, vecSet_append_cons, Option.bind_eq_bind, Option.some_bind,
          Option.pure_def]
        exact ⟨_, rfl⟩

/-- On a valid cursor outside the visual modes every operator of `Edit` other
than the visual `>` and `<` returns. -/
theorem Edit.apply_returns (e : Edit) {s : TextEditor} (hv : ValidCursor s)
    (hm1 : s.mode ≠ EditorMode.VISUAL) (hm2 : s.mode ≠ EditorMode.VISUAL_LINE)
    (he : e ≠ Edit.visualIndent ∧ e ≠ Edit.visualUnindent) : ∃ s1, e.apply s = some s1 := by
  obtain ⟨p, q, row, hl, hy, hx0, hx1⟩ := hv.split
  have hv1 : ValidCursor (saveCurrentStateForUndo s) := hv
  cases e with
  | x =>
    by_cases hx : s.cursorX < (row.length : Int)
    · have her : strErase row s.cursorX 1 =
          some (row.take s.cursorX.toNat ++ row.drop (s.cursorX.toNat + 1)) := by
        have hle : s.cursorX ≤ (row.length : Int) := hx1
        simp only [strErase, hx0, hle, and_self, if_true]
      simp only [Edit.apply, deleteChar, saveCurrentStateForUndo, hl, hy, vecAt_append_cons,
        if_pos hx, her, vecSet_append_cons, Option.bind_eq_bind, Option.some_bind]
      exact ⟨_, rfl⟩
    · simp only [Edit.apply, deleteChar, hl, hy, vecAt_append_cons, if_neg hx,
        Option.bind_eq_bind, Option.some_bind]
      exact ⟨_, rfl⟩
  | yank =>
    simp only [Edit.apply, yankText, saveCurrentStateForUndo, if_neg hm1, if_neg hm2, hl, hy,
      vecAt_append_cons, Option.bind_eq_bind, Option.some_bind, Option.pure_def]
    exact ⟨_, rfl⟩
  | delete => exact deleteText_returns hv hm1 hm2
  | change =>
    obtain ⟨s1, h1⟩ := deleteText_returns hv hm1 hm2
    simp only [Edit.apply, changeText, h1, Option.bind_eq_bind, Option.some_bind]
    exact ⟨_, rfl⟩
  | paste => exact pasteText_returns hv
  | indent =>
    simp only [Edit.apply, indentLine, saveCurrentStateForUndo, hl, hy, vecAt_append_cons,
      strInsert_zero, vecSet_append_cons, Option.bind_eq_bind, Option.some_bind]
    exact ⟨_, rfl⟩
  | unindent =>
    by_cases hc : row.length ≥ 4 ∧ strSubstr row 0 4 = some indentString
    · simp only [Edit.apply, unindentLine, saveCurrentStateForUndo, hl, hy, vecAt_append_cons,
        if_pos hc, strErase_zero, vecSet_append_cons, Option.bind_eq_bind, Option.some_bind]
      exact ⟨_, rfl⟩
    · simp only [Edit.apply, unindentLine, saveCurrentStateForUndo, hl, hy, vecAt_append_cons,
        if_neg hc, Option.bind_eq_bind, Option.some_bind]
      exact ⟨_, rfl⟩
  | visualIndent => exact absurd rfl he.1
  | visualUnindent => exact absurd rfl he.2
  | typed ch =>
    obtain ⟨s1, _, h1, _⟩ := insertChar_backspace ch hv1
    exact ⟨s1, h1⟩
  | newline =>
    obtain ⟨s1, _, h1, _⟩ := newLine_backspace hv1
    exact ⟨s1, h1⟩

/-- Every operator of `Edit` but the visual `>` and `<` pushes exactly the pre-edit buffer. -/
theorem Edit.apply_undoStack (e : Edit) {s s1 : TextEditor}
    (he : e ≠ Edit.visualIndent ∧ e ≠ Edit.visualUnindent) (hsave : e.saves s)
    (h : e.apply s = some s1) : s1.undoStack = s.lines :: s.undoStack := by
  cases e with
  | x => exact deleteChar_undoStack h hsave
  | yank => exact yankText_undoStack h
  | delete => exact deleteText_undoStack h
  | change => exact changeText_undoStack h
  | paste => exact pasteText_undoStack h
  | indent => exact indentLine_undoStack h
  | unindent => exact unindentLine_undoStack h
  | visualIndent => exact absurd rfl he.1
  | visualUnindent => exact absurd rfl he.2
  | typed ch => exact (insertChar_undoStack h).trans rfl
  | newline => exact (newLine_undoStack h).trans rfl

/-- C1. For every operator of `Edit` other than the visual `>` and `<` (that
is `x` on a character, `dd` and the visual-mode `d`, `p` with any clipboard,
`indentLine`, `unindentLine`, a typed character and a newline of Insert mode,
and also yank and change): whenever the operator has recorded its snapshot and
returned, the `undo()` right after it returns and the buffer lines are exactly
the lines before the operator, with the undo stack as before it and the
post-operator buffer on the redo stack, whatever the operator left of the
buffer and the cursor. On a valid cursor outside the visual modes each of
these operators does return. -/
theorem C1_undo_restores_pre_edit_lines (e : Edit) (s : TextEditor)
    (he : e ≠ Edit.visualIndent ∧ e ≠ Edit.visualUnindent) :
    (∀ s1, e.saves s → e.apply s = some s1 →
      ∃ s2, undo s1 = some s2 ∧ s2.lines = s.lines ∧ s2.undoStack = s.undoStack ∧
        s2.redoStack = [s1.lines]) ∧
    (ValidCursor s → s.mode ≠ EditorMode.VISUAL → s.mode ≠ EditorMode.VISUAL_LINE →
      ∃ s1, e.apply s = some s1) := by
  constructor
  · intro s1 hsave h
    have hstack := e.apply_undoStack he hsave h
    have hredo := e.apply_redoStack h hsave
    obtain ⟨s2, h2, hl2, hu2, hr2, _⟩ := undo_cons_lines s1 s.lines s.undoStack hstack
    refine ⟨s2, h2, hl2, hu2, ?_⟩
    rw [hr2, hredo]
  · intro hv hm1 hm2
    exact e.apply_returns hv hm1 hm2 he

/-- C1 witness: the line-visual `d` over the only row of `["a"]`, which leaves
no buffer row and the cursor row at `-1`; the `undo` after it gives `["a"]` back. -/
theorem C1_witness :
    ∃ s1 s2,
      Edit.delete.apply { freshSession [] (some "a\n") with mode := EditorMode.VISUAL_LINE } =
        some s1 ∧
      s1.lines = [] ∧ s1.cursorY = -1 ∧ undo s1 = some s2 ∧ s2.lines = [['a']] := by
  have h1 : ∃ s1,
      Edit.delete.apply { freshSession [] (some "a\n") with mode := EditorMode.VISUAL_LINE } =
        some s1 ∧ s1.lines = [] ∧ s1.cursorY = -1 := ⟨_, rfl, rfl, rfl⟩
  obtain ⟨s1, h1, hl1, hy1⟩ := h1
  obtain ⟨s2, h2, hl2, _⟩ :=
    (C1_undo_restores_pre_edit_lines Edit.delete
      { freshSession [] (some "a\n") with mode := EditorMode.VISUAL_LINE }
      ⟨by decide, by decide⟩).1 s1 trivial h1
  exact ⟨s1, s2, h1, hl1, hy1, h2, hl2⟩

end PBEdit
